import Mathlib

/-!
# lc3al: a single-pass assembler for the LC-3

A shallow embedding of `lc3al.cpp`, `rks/list_pool.h` and `rks/endian.h`.

* `u16` values are natural numbers below `65536`; C `int` values are integers
  (the 32-bit range is never left by the arithmetic modelled here).
* The global variables of the assembler are the fields of `Asm`.
* A procedure is a function `Asm → Res α`: it returns normally, terminates the
  process (`std::exit`, `abort`), or runs into undefined behaviour
  (an out-of-bounds access of a `std::vector`).
* The line buffer is a list of characters; the end of the list is the
  terminating NUL of the C string.
* The listing file is write-only output of the assembler and is left out.
-/

namespace LC3

/-! ## Machine integers -/

/-- Conversion of an `int` to `u16` (`static_cast<u16>`). -/
def to_u16 (i : Int) : Nat := (i % 65536).toNat

/-- Conversion of an `int` to `std::int16_t`. -/
def to_i16 (i : Int) : Int := (i + 32768) % 65536 - 32768

/-- The bit pattern of an `int` as a 32-bit unsigned value. -/
def to_u32 (i : Int) : Nat := (i % 4294967296).toNat

/-- The operator `a & m` on `int` operands for a non-negative mask `m`. -/
def int_and (a : Int) (m : Nat) : Nat := to_u32 a &&& m

/-! ## Character classes (the "C" locale) -/

def isspace (c : Char) : Bool :=
  c.toNat == 32 || (9 ≤ c.toNat && c.toNat ≤ 13)

def isdigit (c : Char) : Bool := 48 ≤ c.toNat && c.toNat ≤ 57

def isxdigit (c : Char) : Bool :=
  isdigit c || (97 ≤ c.toNat && c.toNat ≤ 102) || (65 ≤ c.toNat && c.toNat ≤ 70)

def isalpha (c : Char) : Bool :=
  (97 ≤ c.toNat && c.toNat ≤ 122) || (65 ≤ c.toNat && c.toNat ≤ 90)

def isalnum (c : Char) : Bool := isalpha c || isdigit c

def isprint (c : Char) : Bool := 32 ≤ c.toNat && c.toNat ≤ 126

def toupper (c : Char) : Char :=
  if 97 ≤ c.toNat && c.toNat ≤ 122 then Char.ofNat (c.toNat - 32) else c

def iswordstart (c : Char) : Bool := isalpha c || c == '_' || c == '.'

def isletter (c : Char) : Bool := isalnum c || c == '_'

/-! ## The arena allocator `rks::list_pool<u16, u16>` -/

structure node_t where
  value : Nat
  next : Nat
deriving DecidableEq, Repr

structure list_pool where
  _pool : List node_t
  _free_list : Nat
deriving DecidableEq, Repr

namespace list_pool

/-- The pool of a fresh assembler: no nodes, empty free list. -/
def empty : list_pool := ⟨[], 0⟩

def «end» : Nat := 0

def is_end (x : Nat) : Bool := x == «end»

def size (p : list_pool) : Nat := p._pool.length

/-- The vector index `N(x - 1)` used by `node(x)`, with `N = u16`. -/
def index (x : Nat) : Nat := to_u16 ((x : Int) - 1)

/-- Read access `node(x)`; `none` is an access outside the vector. -/
def node (p : list_pool) (x : Nat) : Option node_t := p._pool[index x]?

def value (p : list_pool) (x : Nat) : Option Nat := (p.node x).map (·.value)

def next (p : list_pool) (x : Nat) : Option Nat := (p.node x).map (·.next)

/-- Write access to `node(x)`; `none` is an access outside the vector. -/
def set_node (p : list_pool) (x : Nat) (n : node_t) : Option list_pool :=
  if index x < p._pool.length then some { p with _pool := p._pool.set (index x) n } else none

/-- The private `new_list`: append a node, return the new size as a `u16`. -/
def new_list (p : list_pool) : Nat × list_pool :=
  let q : list_pool := { p with _pool := p._pool ++ [⟨0, 0⟩] }
  (q._pool.length % 65536, q)

def allocate (p : list_pool) (val tail : Nat) : Option (Nat × list_pool) :=
  if is_end p._free_list then
    let r := new_list p
    (r.2.set_node r.1 ⟨val, tail⟩).map (fun q => (r.1, q))
  else
    match p.next p._free_list with
    | none => none
    | some nx =>
      let head := p._free_list
      ({ p with _free_list := nx }.set_node head ⟨val, tail⟩).map (fun q => (head, q))

def free (p : list_pool) (head : Nat) : Option (Nat × list_pool) :=
  match p.node head with
  | none => none
  | some n =>
    (p.set_node head ⟨n.value, p._free_list⟩).map
      (fun q => (n.next, { q with _free_list := head }))

end list_pool

/-! ## Tokens, symbols and the state of the assembler -/

inductive token_kind where
  | TOKEN_NONE
  | TOKEN_COLON
  | TOKEN_COMMA
  | TOKEN_NAME
  | TOKEN_INTEGER
  | TOKEN_STRING
  | TOKEN_EOL
deriving DecidableEq, Repr

open token_kind

/-- A token: `text` is the span `[f, l)` of the line. -/
structure token_t where
  kind : token_kind
  text : List Char
  base : Nat
deriving DecidableEq, Repr

/-- A symbol; it is defined when `line_number` is not zero.  While it is
undefined, `location` is the head of its chain of pending references. -/
structure symbol_t where
  name : List Char
  line_number : Nat
  location : Nat
deriving DecidableEq, Repr

/-- The global variables of `lc3al.cpp`.  `initialized` is the static flag of
`directive_orig`; the opcode table holds the real encoders exactly when it is
set (see `dispatch`).  `eof` is the `eofbit` of the source stream. -/
structure Asm where
  pool : list_pool
  object : List Nat
  error_count : Nat
  line_number : Nat
  token : token_t
  line_cursor : List Char
  symbols : List symbol_t
  initialized : Bool
  eof : Bool
deriving DecidableEq, Repr

/-- The state at the start of `main`. -/
def Asm.init : Asm :=
  { pool := list_pool.empty, object := [], error_count := 0, line_number := 0,
    token := ⟨TOKEN_NONE, [], 0⟩, line_cursor := [], symbols := [],
    initialized := false, eof := false }

/-- How a procedure ends. -/
inductive Res (α : Type) where
  | ok : α → Asm → Res α
  | exit : Asm → Res α
  | undef : Res α
deriving DecidableEq, Repr

/-- A procedure of the assembler. -/
def M (α : Type) : Type := Asm → Res α

def M.pure {α : Type} (a : α) : M α := fun s => Res.ok a s

def M.bind {α β : Type} (m : M α) (f : α → M β) : M β := fun s =>
  match m s with
  | Res.ok a t => f a t
  | Res.exit t => Res.exit t
  | Res.undef => Res.undef

instance : Monad M where
  pure := M.pure
  bind := M.bind

/-- Read the global state. -/
def get : M Asm := fun s => Res.ok s s

/-- Change the global state. -/
def modify (f : Asm → Asm) : M Unit := fun s => Res.ok () (f s)

/-- Undefined behaviour. -/
def undef {α : Type} : M α := fun _ => Res.undef

/-- Lift a `vector` access that may be out of bounds. -/
def access {α : Type} : Option α → M α
  | some a => M.pure a
  | none => undef

/-- The function `error(status, ...)`: count the error, and terminate the
process when `status` is not zero. -/
def error (status : Nat) : M Unit := fun s =>
  let t := { s with error_count := s.error_count + 1 }
  if status ≠ 0 then Res.exit t else Res.ok () t

/-- The value of `EXIT_FAILURE`. -/
def EXIT_FAILURE : Nat := 1

/-- The value of `EXIT_SUCCESS`. -/
def EXIT_SUCCESS : Nat := 0

/-- The expansion of `fatal_error(...)`: `error(EXIT_FAILURE, ...)` does not return. -/
def fatal_error {α : Type} : M α := fun s =>
  Res.exit { s with error_count := s.error_count + 1 }

/-! ## The lexer -/

/-- The loop of the string case of `next_token`, started behind the opening
quote: the characters before the closing quote and the rest of the line from
the closing quote on (empty when the line ends first). -/
def scan_string : List Char → List Char × List Char
  | [] => ([], [])
  | [c] => if c == '"' then ([], [c]) else ([c], [])
  | c :: d :: ds =>
    if c == '\\' && d == '"' then
      let r := scan_string ds
      (c :: d :: r.1, r.2)
    else if c == '"' then ([], c :: d :: ds)
    else
      let r := scan_string (d :: ds)
      (c :: r.1, r.2)

/-- What one call of `next_token` did: the token, the new cursor, the number
of stray characters reported, and whether it ended in the fatal error of an
unterminated string. -/
structure lexed where
  token : token_t
  cursor : List Char
  strays : Nat
  fatal : Bool
deriving DecidableEq, Repr

/-- The integer cases of `next_token`, behind the marker (`m` is the marker,
`p` the digit test). -/
def lex_integer (m : Char) (p : Char → Bool) (base : Nat) (cs : List Char) (strays : Nat) :
    lexed :=
  let sign := match cs with
    | c :: _ => if c == '-' then [c] else []
    | [] => []
  let cs1 := cs.drop sign.length
  match cs1 with
  | c :: cs2 =>
    if p c then
      ⟨⟨TOKEN_INTEGER, (m :: sign) ++ (c :: cs2.takeWhile p), base⟩, cs2.dropWhile p, strays, false⟩
    else ⟨⟨TOKEN_NONE, m :: sign, base⟩, cs1, strays, false⟩
  | [] => ⟨⟨TOKEN_NONE, m :: sign, base⟩, cs1, strays, false⟩

/-- The body of `next_token` on the characters from the cursor on; `base` is
the `base` field left in the global token by the last integer. -/
def lex (base : Nat) : List Char → Nat → lexed
  | [], strays => ⟨⟨TOKEN_EOL, [], base⟩, [], strays, false⟩
  | c :: cs, strays =>
    if isspace c then lex base cs strays
    else if c == ';' then ⟨⟨TOKEN_EOL, c :: cs, base⟩, [], strays, false⟩
    else if c == ':' then ⟨⟨TOKEN_COLON, [c], base⟩, cs, strays, false⟩
    else if c == ',' then ⟨⟨TOKEN_COMMA, [c], base⟩, cs, strays, false⟩
    else if c == '$' then lex_integer c isxdigit 16 cs strays
    else if c == '#' then lex_integer c isdigit 10 cs strays
    else if c == '"' then
      let r := scan_string cs
      match r.2 with
      | q :: rest => ⟨⟨TOKEN_STRING, (c :: r.1) ++ [q], base⟩, rest, strays, false⟩
      | [] => ⟨⟨TOKEN_STRING, c :: r.1, base⟩, [], strays, true⟩
    else if iswordstart c then
      ⟨⟨TOKEN_NAME, c :: cs.takeWhile isletter, base⟩, cs.dropWhile isletter, strays, false⟩
    else lex base cs (strays + 1)

def next_token : M Unit := fun s =>
  let r := lex s.token.base s.line_cursor 0
  let t := { s with token := r.token, line_cursor := r.cursor,
                    error_count := s.error_count + r.strays }
  if r.fatal then fatal_error t else Res.ok () t

def peek (x : token_kind) : M Bool := fun s => Res.ok (s.token.kind == x) s

def «match» (x : token_kind) : M Bool := do
  if (← peek x) then
    next_token
    return true
  return false

/-- The overload `expect()`. -/
def expect : M token_t := do
  let tmp := (← get).token
  next_token
  return tmp

/-- The overload `expect(token_kind)`. -/
def expect_kind (x : token_kind) : M token_t := do
  if !(← peek x) then fatal_error
  expect

def peek_register : M Bool := fun s =>
  Res.ok
    (s.token.kind == TOKEN_NAME && s.token.text.length == 2 &&
      (s.token.text.getD 0 ' ' == 'r' || s.token.text.getD 0 ' ' == 'R') &&
      (48 ≤ (s.token.text.getD 1 ' ').toNat && (s.token.text.getD 1 ' ').toNat ≤ 55)) s

def expect_register : M Nat := do
  let reg ←
    if (← peek_register) then
      pure ((((← get).token.text.getD 1 ' ').toNat - 48) % 65536)
    else do
      error 0
      pure 0
  next_token
  return reg

/-! ## The image and the symbol table -/

/-- The function `location_counter`; reading `object[0]` of an empty image is
undefined. -/
def location_counter : M Nat := fun s =>
  match s.object with
  | [] => Res.undef
  | w :: ws => Res.ok ((w + ws.length % 65536) % 65536) s

/-- The function `get_symbol`; the reference it returns is the index of the
symbol in `symbols`. -/
def get_symbol (name : List Char) : M Nat := fun s =>
  let i := s.symbols.findIdx (fun symbol => symbol.name == name)
  if i < s.symbols.length then Res.ok i s
  else Res.ok s.symbols.length { s with symbols := s.symbols ++ [⟨name, 0, 0⟩] }

/-- Read a symbol through a reference got from `get_symbol`. -/
def read_symbol (i : Nat) : M symbol_t := fun s =>
  match s.symbols[i]? with
  | some symbol => Res.ok symbol s
  | none => Res.undef

/-- Write a symbol through a reference got from `get_symbol`. -/
def write_symbol (i : Nat) (symbol : symbol_t) : M Unit := fun s =>
  if i < s.symbols.length then Res.ok () { s with symbols := s.symbols.set i symbol }
  else Res.undef

def pool_value (x : Nat) : M Nat := fun s =>
  match s.pool.value x with
  | some v => Res.ok v s
  | none => Res.undef

def pool_allocate (val tail : Nat) : M Nat := fun s =>
  match s.pool.allocate val tail with
  | some r => Res.ok r.1 { s with pool := r.2 }
  | none => Res.undef

def pool_free (head : Nat) : M Nat := fun s =>
  match s.pool.free head with
  | some r => Res.ok r.1 { s with pool := r.2 }
  | none => Res.undef

/-! ## Integer literals -/

def ordinal (c : Char) : Int :=
  if 48 ≤ c.toNat && c.toNat ≤ 57 then (c.toNat : Int) - 48
  else if 97 ≤ c.toNat && c.toNat ≤ 122 then (c.toNat : Int) - 97 + 10
  else if 65 ≤ c.toNat && c.toNat ≤ 90 then (c.toNat : Int) - 65 + 10
  else -1

/-- The integer type `N` a `parse_integer` template is instantiated with:
its limits, whether it is signed, and the conversion of an `int` to it. -/
structure int_type where
  min : Int
  max : Int
  is_signed : Bool
  conv : Int → Int

/-- The type `u16`. -/
def u16 : int_type := ⟨0, 65535, false, fun i => i % 65536⟩

/-- The type `std::int16_t`. -/
def int16_t : int_type := ⟨-32768, 32767, true, to_i16⟩

/-- The result is the pair of the unread rest `[f, l)` and the value. -/
def parse_integer_nonnegative (N : int_type) : List Char → Int → Int → List Char × Int
  | [], x, _ => ([], x)
  | c :: cs, x, base =>
    let digit := N.conv (ordinal c)
    if x > Int.tdiv (N.max - digit) base then (c :: cs, x)
    else parse_integer_nonnegative N cs (N.conv (x * base + digit)) base

def parse_integer_negative (N : int_type) : List Char → Int → Int → List Char × Int
  | [], x, _ => ([], x)
  | c :: cs, x, base =>
    let digit := N.conv (ordinal c)
    if x < Int.tdiv (N.min + digit) base then (c :: cs, x)
    else parse_integer_negative N cs (N.conv (x * base - digit)) base

def parse_integer_unsigned (N : int_type) (f : List Char) (x base : Int) : List Char × Int :=
  match f with
  | c :: cs =>
    if c == '-' then
      let p := parse_integer_nonnegative N cs x base
      (p.1, N.conv (-p.2 - 1 + 1))
    else parse_integer_nonnegative N f x base
  | [] => parse_integer_nonnegative N f x base

def parse_integer_signed (N : int_type) (f : List Char) (x base : Int) : List Char × Int :=
  match f with
  | c :: cs =>
    if c == '-' then parse_integer_negative N cs x base
    else parse_integer_nonnegative N f x base
  | [] => parse_integer_nonnegative N f x base

def parse_integer (N : int_type) (f : List Char) (x base : Int) : List Char × Int :=
  if N.is_signed then parse_integer_signed N f x base
  else parse_integer_unsigned N f x base

/-! ## The opcode table -/

/-- The encoding routines an entry of the table can point to. -/
inductive encoder where
  | assemble_add_and
  | assemble_branch
  | assemble_jump
  | assemble_jump_subroutine
  | assemble_load_store
  | assemble_load_store_relative
  | assemble_not
  | assemble_trap
  | assemble_base_code
  | directive_end
  | directive_blkw
  | directive_fill
  | directive_stringz
  | directive_orig
deriving DecidableEq, Repr

/-- An entry of the table; its `assemble` field is `directive_orig` until
`.ORIG` has run and `assemble_fn` afterwards. -/
structure opcode_t where
  name : List Char
  base_code : Nat
  assemble_fn : encoder
deriving DecidableEq, Repr

open encoder in

def opcodes : List opcode_t :=
  [ ⟨"ADD".toList, 0x1000, assemble_add_and⟩,
    ⟨"AND".toList, 0x5000, assemble_add_and⟩,
    ⟨"BRn".toList, 0x0800, assemble_branch⟩,
    ⟨"BRz".toList, 0x0400, assemble_branch⟩,
    ⟨"BRp".toList, 0x0200, assemble_branch⟩,
    ⟨"BR".toList, 0x0E00, assemble_branch⟩,
    ⟨"BRzp".toList, 0x0600, assemble_branch⟩,
    ⟨"BRnp".toList, 0x0A00, assemble_branch⟩,
    ⟨"BRnz".toList, 0x0C00, assemble_branch⟩,
    ⟨"BRnzp".toList, 0x0E00, assemble_branch⟩,
    ⟨"JMP".toList, 0xC000, assemble_jump⟩,
    ⟨"RET".toList, 0xC1C0, assemble_base_code⟩,
    ⟨"JSR".toList, 0x4800, assemble_jump_subroutine⟩,
    ⟨"JSRR".toList, 0x4000, assemble_jump⟩,
    ⟨"LD".toList, 0x2000, assemble_load_store⟩,
    ⟨"LDI".toList, 0xA000, assemble_load_store⟩,
    ⟨"LDR".toList, 0x6000, assemble_load_store_relative⟩,
    ⟨"LEA".toList, 0xE000, assemble_load_store⟩,
    ⟨"NOT".toList, 0x903F, assemble_not⟩,
    ⟨"RTI".toList, 0x8000, assemble_base_code⟩,
    ⟨"ST".toList, 0x3000, assemble_load_store⟩,
    ⟨"STI".toList, 0xB000, assemble_load_store⟩,
    ⟨"STR".toList, 0x7000, assemble_load_store_relative⟩,
    ⟨"TRAP".toList, 0xF000, assemble_trap⟩,
    ⟨"GETC".toList, 0xF020, assemble_base_code⟩,
    ⟨"OUT".toList, 0xF021, assemble_base_code⟩,
    ⟨"PUTS".toList, 0xF022, assemble_base_code⟩,
    ⟨"IN".toList, 0xF023, assemble_base_code⟩,
    ⟨"PUTSP".toList, 0xF024, assemble_base_code⟩,
    ⟨"HALT".toList, 0xF025, assemble_base_code⟩,
    ⟨".ORIG".toList, 0x0000, directive_orig⟩,
    ⟨".END".toList, 0x0000, directive_end⟩,
    ⟨".BLKW".toList, 0x0000, directive_blkw⟩,
    ⟨".FILL".toList, 0x0000, directive_fill⟩,
    ⟨".STRINGZ".toList, 0x0000, directive_stringz⟩ ]

/-- The four-iterator `std::equal` with a predicate: the ranges have the same
length and the predicate holds at every position. -/
def std_equal (p : Char → Char → Bool) : List Char → List Char → Bool
  | [], [] => true
  | x :: xs, y :: ys => p x y && std_equal p xs ys
  | _, _ => false

/-- The function `get_opcode`; `none` is the end of the table. -/
def get_opcode (name : List Char) : Option opcode_t :=
  opcodes.find? (fun op => std_equal (fun x y => x == toupper y) op.name name)

/-! ## The encoders -/

def write_instruction (x : Nat) : M Unit := do
  if (← get).object.length > 65536 then fatal_error
  modify (fun s => { s with object := s.object ++ [x] })

def assemble_add_and (op : opcode_t) : M Unit := do
  let dr ← expect_register
  let _ ← «match» TOKEN_COMMA
  let sr1 ← expect_register
  let _ ← «match» TOKEN_COMMA
  let base_code := (op.base_code ||| (dr <<< 9)) ||| (sr1 <<< 6)
  if (← peek_register) then
    let sr2 ← expect_register
    write_instruction (base_code ||| sr2)
  else if (← peek TOKEN_INTEGER) then
    let imm5 ← expect
    let pair := parse_integer int16_t (imm5.text.drop 1) 0 imm5.base
    if pair.1 ≠ [] || pair.2 < -16 || pair.2 > 16 then error 0
    write_instruction ((base_code ||| (1 <<< 5)) ||| (to_u16 pair.2 &&& 0x1F))
  else fatal_error

/-- The argument `symbol` is the reference returned by `get_symbol`. -/
def assemble_label (symbol : Nat) (base_code : Nat) (n : Nat) : M Unit := do
  let sym ← read_symbol symbol
  if sym.line_number ≠ 0 then
    let offset : Int := (sym.location : Int) - ((← location_counter) + 1)
    if offset < -(1 <<< (n - 1) : Nat) then error 0
    write_instruction ((base_code ||| int_and offset ((1 <<< n) - 1)) % 65536)
  else
    let head ← pool_allocate (← location_counter) sym.location
    write_symbol symbol { sym with location := head }
    write_instruction base_code

def assemble_branch (op : opcode_t) : M Unit := do
  let name ← expect_kind TOKEN_NAME
  let symbol ← get_symbol name.text
  assemble_label symbol op.base_code 9

def assemble_jump (op : opcode_t) : M Unit := do
  write_instruction (op.base_code ||| ((← expect_register) <<< 6))

def assemble_jump_subroutine (op : opcode_t) : M Unit := do
  let name ← expect_kind TOKEN_NAME
  let symbol ← get_symbol name.text
  assemble_label symbol op.base_code 11

def assemble_load_store (op : opcode_t) : M Unit := do
  let base_code := op.base_code ||| ((← expect_register) <<< 9)
  let _ ← «match» TOKEN_COMMA
  let label ← expect_kind TOKEN_NAME
  let symbol ← get_symbol label.text
  assemble_label symbol base_code 9

def assemble_load_store_relative (op : opcode_t) : M Unit := do
  let dr ← expect_register
  let _ ← «match» TOKEN_COMMA
  let br ← expect_register
  let _ ← «match» TOKEN_COMMA
  let base_code := (op.base_code ||| (dr <<< 9)) ||| (br <<< 6)
  let integer ← expect_kind TOKEN_INTEGER
  let pair := parse_integer u16 (integer.text.drop 1) 0 integer.base
  if pair.1 ≠ [] then fatal_error
  write_instruction (base_code ||| pair.2.toNat)

def assemble_not (op : opcode_t) : M Unit := do
  let base_code := op.base_code ||| ((← expect_register) <<< 9)
  let _ ← «match» TOKEN_COMMA
  write_instruction (base_code ||| ((← expect_register) <<< 6))

def assemble_trap (op : opcode_t) : M Unit := do
  let integer ← expect_kind TOKEN_INTEGER
  let pair := parse_integer u16 (integer.text.drop 1) 0 integer.base
  if pair.1 ≠ [] || pair.2 > 255 then fatal_error
  write_instruction (op.base_code ||| (pair.2.toNat &&& 0xFF))

def assemble_base_code (op : opcode_t) : M Unit :=
  write_instruction op.base_code

def directive_end (_ : opcode_t) : M Unit :=
  modify (fun s => { s with eof := true })

/-- The loop `while (pair.second--) write_instruction(0);`. -/
def write_zeros : Nat → M Unit
  | 0 => pure ()
  | n + 1 => do
    write_instruction 0
    write_zeros n

def directive_blkw (_ : opcode_t) : M Unit := do
  let integer ← expect_kind TOKEN_INTEGER
  let pair := parse_integer u16 (integer.text.drop 1) 0 integer.base
  if pair.1 ≠ [] then error 0
  if (65536 : Int) - (← location_counter) < pair.2 then fatal_error
  write_zeros pair.2.toNat

def directive_fill (_ : opcode_t) : M Unit := do
  let integer ← expect_kind TOKEN_INTEGER
  let pair := parse_integer u16 (integer.text.drop 1) 0 integer.base
  if pair.1 ≠ [] then fatal_error
  write_instruction pair.2.toNat

/-- The loop `while (f != l) write_instruction(*f++);` over the characters
from `f` up to `l`. -/
def write_chars : List Char → M Unit
  | [] => pure ()
  | c :: cs => do
    write_instruction (c.toNat % 256)
    write_chars cs

/-- The characters of a string token are `q b1 .. bk q`; `f` starts at `b1`
and `l` is the closing quote.  The first character is written before `f` is
compared with `l`: when the body is empty that is the closing quote, `f`
is then behind `l`, and the loop leaves the token and the line buffer. -/
def directive_stringz (_ : opcode_t) : M Unit := do
  let string ← expect_kind TOKEN_STRING
  let body := (string.text.drop 1).dropLast
  if (65536 : Int) - (← location_counter) < (body.length : Int) + 1 then fatal_error
  match body with
  | [] =>
    write_instruction (((string.text.drop 1).headD ' ').toNat % 256)
    undef
  | c :: cs =>
    write_instruction (c.toNat % 256)
    write_chars cs
    write_instruction 0

/-- The call `op->assemble(op)` once the table holds the real encoders;
`orig` is what the entry `directive_orig` does. -/
def run_encoder (orig : opcode_t → M Unit) (op : opcode_t) : M Unit :=
  match op.assemble_fn with
  | encoder.assemble_add_and => assemble_add_and op
  | encoder.assemble_branch => assemble_branch op
  | encoder.assemble_jump => assemble_jump op
  | encoder.assemble_jump_subroutine => assemble_jump_subroutine op
  | encoder.assemble_load_store => assemble_load_store op
  | encoder.assemble_load_store_relative => assemble_load_store_relative op
  | encoder.assemble_not => assemble_not op
  | encoder.assemble_trap => assemble_trap op
  | encoder.assemble_base_code => assemble_base_code op
  | encoder.directive_end => directive_end op
  | encoder.directive_blkw => directive_blkw op
  | encoder.directive_fill => directive_fill op
  | encoder.directive_stringz => directive_stringz op
  | encoder.directive_orig => orig op

/-- A failed `assert` aborts the process. -/
def abort {α : Type} : M α := fun s => Res.exit s

/-- A call of `directive_orig` from inside its own first run (before
`initialized` is set): the image is not empty any more and
`assert(object.size() == 0)` fails. -/
def directive_orig_nested (_ : opcode_t) : M Unit := abort

def directive_orig (op : opcode_t) : M Unit := do
  if (← get).initialized then
    error 0
    return
  if (← get).object.length ≠ 0 then abort
  modify (fun s => { s with object := s.object ++ [0] })
  if op.name ≠ ".ORIG".toList then
    error 0
    run_encoder directive_orig_nested op
  modify (fun s => { s with initialized := true })
  let integer ← expect_kind TOKEN_INTEGER
  let pair := parse_integer u16 (integer.text.drop 1) 0 integer.base
  if pair.1 ≠ [] then error 0
  modify (fun s => { s with object := s.object.set 0 pair.2.toNat })

/-- The call `op->assemble(op)` of `main`: `directive_orig` until `.ORIG` has
installed the real encoders. -/
def dispatch (op : opcode_t) : M Unit := do
  if (← get).initialized then run_encoder directive_orig op
  else directive_orig op

/-! ## Forward references -/

def fix_forward_references (position : Nat) : M Unit := do
  let s ← get
  let load : Nat ← access s.object[0]?
  let index : Int := (position : Int) + 1 - load
  if index < 0 then undef
  let instruction : Nat ← access s.object[index.toNat]?
  let offset : Int := ((← location_counter) : Int) - position
  if instruction >>> 12 ∈ [0, 2, 3, 10, 11, 14] then
    if offset - 1 > 255 then error 0
    modify (fun s => { s with
      object := s.object.set index.toNat (instruction ||| (to_u16 (offset - 1) &&& 0x1FF)) })
  else if instruction >>> 12 = 4 then
    if offset - 1 > 1023 then error 0
    modify (fun s => { s with
      object := s.object.set index.toNat (instruction ||| (to_u16 (offset - 1) &&& 0x7FF)) })

/-- The loop `while (!pool.is_end(list)) { ...; list = pool.free(list); }` of
the label definition.  A chain without a repeated node ends within
`pool.size() + 1` tests; the bound `fuel` stops the walk of a corrupted pool. -/
def fix_chain : Nat → Nat → M Unit
  | 0, _ => undef
  | fuel + 1, list => do
    if list_pool.is_end list then return
    fix_forward_references (← pool_value list)
    fix_chain fuel (← pool_free list)

/-! ## The driver -/

/-- The label definition of `main`: the body of `if (match(TOKEN_COLON))`
up to the second `expect(TOKEN_NAME)`. -/
def define_label (name : token_t) : M Unit := do
  let symbol ← get_symbol name.text
  let sym ← read_symbol symbol
  if sym.line_number ≠ 0 then error 0
  else
    fix_chain ((← get).pool.size + 1) sym.location
    let line_number := (← get).line_number
    write_symbol symbol { sym with line_number := line_number, location := (← location_counter) }

/-- The label of a statement: `if (match(TOKEN_COLON)) { ... name = expect(TOKEN_NAME); }`;
the result is the token of the mnemonic. -/
def label_part (name : token_t) : M token_t := do
  if (← «match» TOKEN_COLON) then
    define_label name
    expect_kind TOKEN_NAME
  else pure name

/-- The lookup of the mnemonic, the call of its encoder, and the end of the line. -/
def assemble_statement (name : token_t) : M Unit :=
  match get_opcode name.text with
  | none => error 0
  | some op => do
    dispatch op
    let _ ← expect_kind TOKEN_EOL

/-- The statement of a line, from the first token on. -/
def statement : M Unit := do
  let name ← expect_kind TOKEN_NAME
  let name ← label_part name
  assemble_statement name

/-- The body of the loop of `main` for the line `text` that `getline` stored
in the line buffer. -/
def process_line (text : List Char) : M Unit := do
  modify (fun s => { s with line_number := s.line_number + 1, line_cursor := text })
  next_token
  if (← peek TOKEN_EOL) then return
  statement

/-- The loop of `main` over the lines `getline` delivers; it ends when the
stream is at its end, which `.END` forces. -/
def main_loop : List (List Char) → M Unit
  | [] => pure ()
  | text :: rest => do
    if (← get).eof then return
    process_line text
    main_loop rest

/-- The sweep over the symbol table: one error for each undefined symbol. -/
def sweep : List symbol_t → M Unit
  | [] => pure ()
  | symbol :: rest => do
    if symbol.line_number = 0 then error 0
    sweep rest

/-- The function `store_big_endian` for a type of `size` bytes. -/
def store_big_endian (size : Nat) (x : Nat) : List Nat :=
  (List.range size).map (fun i => (x >>> (size * 8 - (i + 1) * 8)) &&& 255)

/-- What a run of the assembler leaves behind: the exit status, the error
count and the bytes of the object file (`none`: no object file is written). -/
structure outcome where
  status : Nat
  error_count : Nat
  object_file : Option (List Nat)
deriving DecidableEq, Repr

/-- The loop of `main` and the sweep over the symbol table behind it, from
the initial state. -/
def run (lines : List (List Char)) : Res Unit :=
  (do main_loop lines; sweep (← get).symbols : M Unit) Asm.init

/-- The function `main` from the loop over the source on, for a source and a
listing file that could be opened and an object file that can be; `none` is
undefined behaviour. -/
def main (lines : List (List Char)) : Option outcome :=
  match run lines with
  | Res.undef => none
  | Res.exit s => some ⟨EXIT_FAILURE, s.error_count, none⟩
  | Res.ok _ s =>
    if s.error_count ≠ 0 then some ⟨EXIT_FAILURE, s.error_count, none⟩
    else some ⟨EXIT_SUCCESS, s.error_count, some (s.object.flatMap (store_big_endian 2))⟩

/-- The lines the loop `while (!source_file.getline(line, sizeof(line)).eof())`
processes for a source text: every line that ends in a newline, cut to the
511 characters the buffer holds and at the first NUL; a last line without a
newline is read together with the end of the file and not processed, unless it
is longer than the buffer. -/
def getlines_aux : List Char → List Char → List (List Char)
  | [], acc => if acc.length > 511 then [(acc.reverse.take 511).takeWhile (· != '\x00')] else []
  | c :: cs, acc =>
    if c == '\n' then ((acc.reverse.take 511).takeWhile (· != '\x00')) :: getlines_aux cs []
    else getlines_aux cs (c :: acc)

def getlines (source : List Char) : List (List Char) := getlines_aux source []

/-- The assembler run on a source text. -/
def assemble (source : String) : Option outcome := main (getlines source.toList)

/-! ## Observations of a result -/

/-- The state a procedure leaves behind, when it returns normally. -/
def Res.returned {α : Type} : Res α → Option Asm
  | Res.ok _ s => some s
  | _ => none

/-- The state in which the process was terminated by a fatal error. -/
def Res.exited {α : Type} : Res α → Option Asm
  | Res.exit s => some s
  | _ => none

/-! ## Sources used below -/

/-- The six-line program of the end-to-end property, as the specification
writes it. -/
def source_x3000 : String :=
  ".ORIG x3000\nAND R0,R0,#0\nBRz DONE\nADD R0,R0,#1\nDONE: HALT\n.END\n"

/-- The same program with the load address as a hexadecimal integer token. -/
def source_BRz : String :=
  ".ORIG $3000\nAND R0,R0,#0\nBRz DONE\nADD R0,R0,#1\nDONE: HALT\n.END\n"

/-- The same program with the branch written `BR`. -/
def source_BR : String :=
  ".ORIG $3000\nAND R0,R0,#0\nBR DONE\nADD R0,R0,#1\nDONE: HALT\n.END\n"

/-! ## Definitions used in the statements below -/

/-- The value of the digit string `ds` in base `base`, continuing from `x`. -/
def digits_value (base : Nat) : List Char → Nat → Nat
  | [], x => x
  | c :: cs, x => digits_value base cs (x * base + (ordinal c).toNat)

/-- Every character of `ds` is a digit of the base. -/
def digits_of (base : Nat) (ds : List Char) : Bool :=
  ds.all (fun c => decide (0 ≤ ordinal c) && decide (ordinal c < base))

/-- The state `next_token` leaves behind when it returns. -/
def after_token (s : Asm) : Asm :=
  { s with token := (lex s.token.base s.line_cursor 0).token,
           line_cursor := (lex s.token.base s.line_cursor 0).cursor,
           error_count := s.error_count + (lex s.token.base s.line_cursor 0).strays }

/-- The sign of an integer token: nothing or one `-`. -/
def sign_text (negative : Bool) : List Char := if negative then ['-'] else []

/-- The value an integer token denotes: its digits in its base, negated
behind a `-`. -/
def token_value (base : Nat) (negative : Bool) (ds : List Char) : Int :=
  if negative then -(digits_value base ds 0 : Int) else (digits_value base ds 0 : Int)

/-- The state in which `TRAP #255` has been read up to its operand. -/
def trap_state : Asm :=
  { Asm.init with object := [0x3000], initialized := true,
                  token := ⟨TOKEN_INTEGER, "#255".toList, 10⟩ }

/-- The field width `fix_forward_references` takes from the top four bits of
the stored instruction word; `none`: the word is left as it is. -/
def patch_width (instruction : Nat) : Option Nat :=
  if instruction >>> 12 ∈ [0, 2, 3, 10, 11, 14] then some 9
  else if instruction >>> 12 = 4 then some 11
  else none

/-- The state behind `.ORIG $3000` with a symbol defined at `0x3002`. -/
def paths_state : Asm :=
  { Asm.init with object := [0x3000], initialized := true,
                  symbols := [⟨"X".toList, 1, 0x3002⟩] }

/-- The value a procedure returns. -/
def Res.value {α : Type} : Res α → Option α
  | Res.ok a _ => some a
  | _ => none

/-- A program loaded at `0xFFFF`: the label `X` at `0xFFFF`, 300 words, and a
branch to `X` behind them, where the location counter has wrapped to `299`. -/
def source_wrap : List (List Char) :=
  [".ORIG $FFFF".toList, "X: HALT".toList] ++ List.replicate 299 "HALT".toList
    ++ ["BR X".toList]

/-- The offset `x` fits a signed field of `n` bits. -/
def fits (n : Nat) (x : Int) : Prop := -(2 ^ (n - 1) : Int) ≤ x ∧ x ≤ (2 ^ (n - 1) : Int) - 1

instance (n : Nat) (x : Int) : Decidable (fits n x) := by
  unfold fits
  exact inferInstance

/-- The state behind `.ORIG $3000` and one word, with `X` defined at `0x3000`. -/
def backward_state : Asm :=
  { Asm.init with object := [0x3000, 0xF025], initialized := true,
                  symbols := [⟨"X".toList, 2, 0x3000⟩] }

/-- Follow the list that starts at `x` through the nodes `ns`: the result is
the successor of the last of them; `none` when the list does not run through
`ns`. -/
def list_pool.segment (p : list_pool) : Nat → List Nat → Option Nat
  | x, [] => some x
  | x, n :: ns =>
    if x = n ∧ is_end x = false then
      match p.node x with
      | some nd => p.segment nd.next ns
      | none => none
    else none

/-- The word `fix_forward_references` leaves at a position `a` that held `x`,
with the location counter at `d`. -/
def patch_word (d a x : Nat) : Nat :=
  match patch_width x with
  | some w => x ||| (((d : Int) - ((a : Int) + 1)) % 2 ^ w).toNat
  | none => x

/-- The image after `fix_forward_references` for position `a`. -/
def patch_at (load d : Nat) (object : List Nat) (a : Nat) : List Nat :=
  object.set (a + 1 - load) (patch_word d a (object.getD (a + 1 - load) 0))

/-- The state behind `.ORIG $3000` and three references to the undefined `X`. -/
def pending_state : Asm :=
  ((main_loop [".ORIG $3000".toList, "BR X".toList, "JSR X".toList, "LD R1,X".toList]
    Asm.init).returned).getD Asm.init

/-- The property `Q` holds for the state a procedure leaves behind, on return
and on termination of the process. -/
def Res.holds {α : Type} (r : Res α) (Q : Asm → Prop) : Prop :=
  match r with
  | Res.ok _ t => Q t
  | Res.exit t => Q t
  | Res.undef => True

/-- The relation `R` holds between the state a procedure starts in and the
state it leaves behind. -/
def Preserves {α : Type} (R : Asm → Asm → Prop) (m : M α) : Prop :=
  ∀ s, (m s).holds (R s)

/-- The symbol table is left as it is. -/
def same_symbols (s t : Asm) : Prop := t.symbols = s.symbols

/-- The names of a symbol table, in its order. -/
def names (symbols : List symbol_t) : List (List Char) := symbols.map (fun symbol => symbol.name)

/-- What the assembler keeps of a symbol table `S` in a later table `T`:
the names stay at their places (new ones are appended), a symbol that is
defined stays as it is, and names that are pairwise distinct stay so. -/
def kept (S T : List symbol_t) : Prop :=
  (∃ extra, names T = names S ++ extra) ∧
  (∀ (i : Nat) (sym : symbol_t), S[i]? = some sym → sym.line_number ≠ 0 → T[i]? = some sym) ∧
  ((names S).Nodup → (names T).Nodup)

/-- The relation `kept` between the symbol tables of two states. -/
def symbols_kept (s t : Asm) : Prop := kept s.symbols t.symbols

/-- The state behind `.ORIG $3000` and `X: HALT`. -/
def defined_state : Asm :=
  ((main_loop [".ORIG $3000".toList, "X: HALT".toList] Asm.init).returned).getD Asm.init

/-- The state behind `.ORIG $3000` and `BR UNDEFINED`. -/
def undefined_state : Asm :=
  ((main_loop [".ORIG $3000".toList, "BR UNDEFINED".toList] Asm.init).returned).getD Asm.init

/-! ## Definitions used in the statements on the directives, the allocator and the registers -/

/-- What `directive_orig` does behind the test of the mnemonic: it sets
`initialized`, reads the integer token of the load address and stores its
value in the first entry of the image. -/
def orig_operand : M Unit := do
  modify (fun s => { s with initialized := true })
  let integer ← expect_kind TOKEN_INTEGER
  let pair := parse_integer u16 (integer.text.drop 1) 0 integer.base
  if pair.1 ≠ [] then error 0
  modify (fun s => { s with object := s.object.set 0 pair.2.toNat })

/-- The state behind `.ORIG $FFFF` and one word. -/
def wrap_state : Asm :=
  { Asm.init with object := [0xFFFF, 0xF025], initialized := true }

/-- The state in which the operand of `.STRINGZ ""` is the current token,
behind `.ORIG $3000`. -/
def stringz_state : Asm :=
  { Asm.init with object := [0x3000], initialized := true,
                  token := ⟨TOKEN_STRING, ['"', '"'], 0⟩ }

/-- The state in which the operand `#3` of `.BLKW` is the current token, behind
`.ORIG $3000` and one word. -/
def blkw_state : Asm :=
  { Asm.init with object := [0x3000, 0xF025], initialized := true,
                  token := ⟨TOKEN_INTEGER, "#3".toList, 10⟩ }

/-- The register an operand token names, in the words of the specification:
a name of exactly two characters, `r` or `R` and a digit from `0` to `7`. -/
def register_of (t : token_t) : Option Nat :=
  match t.text with
  | [c, d] =>
    if t.kind = TOKEN_NAME ∧ (c = 'r' ∨ c = 'R') ∧ 48 ≤ d.toNat ∧ d.toNat ≤ 55 then
      some (d.toNat - 48)
    else none
  | _ => none

/-- The state in which the operand `R5` of a statement is the current token. -/
def register_state : Asm :=
  { Asm.init with object := [0x3000], initialized := true,
                  token := ⟨TOKEN_NAME, "R5".toList, 0⟩, line_cursor := ",R1".toList }

namespace list_pool

/-- The pool after `k` calls of `allocate` that push the value `0` on one
chain: node `i + 1` has the successor `i`. -/
def pushed (k : Nat) : list_pool := ⟨(List.range k).map (fun i => ⟨0, i⟩), 0⟩

/-- The first `k` of a sequence of `allocate` calls that push the value `0`
on one chain, started with the head and the pool `r`: the head of the chain
and the pool behind them. -/
def push_many : Nat → Nat × list_pool → Option (Nat × list_pool)
  | 0, r => some r
  | k + 1, r => (push_many k r).bind (fun q => q.2.allocate 0 q.1)

/-- The indices on the list that starts at `x`, following `next` until the
empty sentinel, `fuel` of them at most. -/
def walk (p : list_pool) : Nat → Nat → List Nat
  | 0, _ => []
  | fuel + 1, x =>
    if is_end x then []
    else
      match p.next x with
      | some nx => x :: p.walk fuel nx
      | none => [x]

/-- The indices reachable from `x`: a walk of one step more than the pool has
nodes, so that a list that does not end shows as a list with a repeated index. -/
def reachable (p : list_pool) (x : Nat) : List Nat := p.walk (p.size + 1) x

end list_pool

/-- A call of a client of the pool: `allocate` with the value and the chain
it extends (`none` starts a new chain with the empty sentinel as the tail),
or `free` applied to the head of a chain. Chains are named by their position
in the list of heads the client holds. -/
inductive pool_call where
  | allocate (val : Nat) (chain : Option Nat)
  | free (chain : Nat)
deriving DecidableEq, Repr

/-- A pool and the heads of the live chains of its client. -/
structure pool_client where
  pool : list_pool
  heads : List Nat
deriving DecidableEq, Repr

/-- One call: `head = allocate(val, head)` or `head = free(head)` on the head
of a live chain, or `allocate(val, end())` for a new chain. -/
def pool_client.call (c : pool_client) : pool_call → Option pool_client
  | .allocate val none =>
    (c.pool.allocate val list_pool.«end»).map (fun r => ⟨r.2, c.heads ++ [r.1]⟩)
  | .allocate val (some j) =>
    match c.heads[j]? with
    | none => none
    | some tail => (c.pool.allocate val tail).map (fun r => ⟨r.2, c.heads.set j r.1⟩)
  | .free j =>
    match c.heads[j]? with
    | none => none
    | some head =>
      if list_pool.is_end head then none
      else (c.pool.free head).map (fun r => ⟨r.2, c.heads.set j r.1⟩)

/-- The call is one the client may make: it names a live chain, and `free`
is applied to a chain that is not empty. -/
def pool_client.admits (c : pool_client) : pool_call → Bool
  | .allocate _ none => true
  | .allocate _ (some j) => decide (j < c.heads.length)
  | .free j =>
    match c.heads[j]? with
    | none => false
    | some head => !list_pool.is_end head

/-- A sequence of calls. -/
def pool_client.calls : List pool_call → pool_client → Option pool_client
  | [], c => some c
  | x :: xs, c => (c.call x).bind (pool_client.calls xs)

/-- The indices reachable from the free list, then those reachable from the
heads of the live chains. -/
def pool_client.reached (c : pool_client) : List Nat :=
  c.pool.reachable c.pool._free_list ++ c.heads.flatMap c.pool.reachable

/-- Lists of indices for the free list and for the live chains that are
chains of the pool up to the empty sentinel and together hold each of the
indices `1, ..., size()` once. -/
def pool_client.partitioned (c : pool_client) (F : List Nat) (Cs : List (List Nat)) : Prop :=
  c.pool.segment c.pool._free_list F = some 0 ∧
  List.Forall₂ (fun h C => c.pool.segment h C = some 0) c.heads Cs ∧
  (F ++ Cs.flatten).Perm (List.range' 1 c.pool.size)

/-! ## The execution engine `lc3.cpp` -/

/-- The function `sign_extend` on a `u16`. -/
def sign_extend (x n : Nat) : Nat :=
  if (x >>> (n - 1)) &&& 1 ≠ 0 then (x ||| (0xFFFF <<< n)) % 65536 else x

/-- The function `sign_extend_mask` on a `u16`. -/
def sign_extend_mask (x n : Nat) : Nat :=
  let mask := 0xFFFF >>> (16 - n)
  sign_extend (x &&& mask) n

/-- The index `(x >> n) & 0x7` of `get_register`. -/
def register_index (x n : Nat) : Nat := (x >>> n) &&& 0x7

/-- A unit of the body of a string token, in the words of the specification:
a backslash-quote pair, or one character that is not a double quote. -/
def string_unit (u : List Char) : Bool :=
  u == ['\\', '"'] || (u.length == 1 && u != ['"'])

/-- The state in which the line `  $-1F,` is about to be read. -/
def integer_line_state : Asm :=
  { Asm.init with object := [0x3000], initialized := true,
                  line_cursor := "  $-1F,".toList }

/-- The state in which the line ` "a\"b" ; c` is about to be read. -/
def string_line_state : Asm :=
  { Asm.init with object := [0x3000], initialized := true,
                  line_cursor := [' ', '"', 'a', '\\', '"', 'b', '"', ' ', ';', ' ', 'c'] }

/-- The word of `ADD Rd,Rs,#v` (base pattern `0x1000`) and `AND Rd,Rs,#v`
(base pattern `0x5000`), in the words of the specification. -/
def immediate_word (base_code d r : Nat) (v : Int) : Nat :=
  base_code ||| (d <<< 9) ||| (r <<< 6) ||| 0x20 ||| (v % 32).toNat

/-- The state in which the mnemonic of `ADD R1,R2,#-3` has been read, behind
`.ORIG $3000`. -/
def immediate_state : Asm :=
  { Asm.init with object := [0x3000], initialized := true,
                  token := ⟨TOKEN_NAME, "R1".toList, 16⟩,
                  line_cursor := ",R2,#-3".toList }

/-! ## The first statement of a source -/

/-- The error count has not fallen. -/
def errors_kept (s t : Asm) : Prop := s.error_count ≤ t.error_count

/-- The first token of a line read as the first line of a source. -/
def first_token (text : List Char) : lexed := lex 0 text 0

/-- The token behind the first token of a line. -/
def second_token (text : List Char) : lexed :=
  lex (first_token text).token.base (first_token text).cursor 0

/-- The state in which the enforcement routine calls the real encoder of the
first statement of a source, the line `text` behind the lines `blanks` that
hold no statement: the placeholder `0` for the load address is the only
entry of the image, the error of the enforcement routine is counted behind the
stray characters the lexer reported, and the token behind the mnemonic is the
current token. -/
def first_statement_state (blanks : List (List Char)) (text : List Char) : Asm :=
  { Asm.init with
    object := [0],
    error_count := (blanks.map (fun b => (lex 0 b 0).strays)).sum + (first_token text).strays
      + (second_token text).strays + 1,
    line_number := blanks.length + 1,
    token := (second_token text).token,
    line_cursor := (second_token text).cursor }

/-- The image behind its first entry is left as it is. -/
def words_kept (s t : Asm) : Prop := t.object.drop 1 = s.object.drop 1

/-! ## C1: the end-to-end program -/

/-- C1 (as stated, refuted): the six-line program written with `.ORIG x3000`
is terminated by a fatal error in line 1 (`x3000` is a name token, and
`.ORIG` expects an integer token): one error, no object file.  With the load
address written `$3000` the line `BRz DONE` is an unrecognized instruction:
one error, no object file, and the image has no word for the branch. -/
theorem C1_as_stated_fails :
    assemble source_x3000 = some ⟨EXIT_FAILURE, 1, none⟩ ∧
    ((run (getlines source_x3000.toList)).exited.map (fun s => (s.line_number, s.object.length)))
      = some (1, 1) ∧
    assemble source_BRz = some ⟨EXIT_FAILURE, 1, none⟩ ∧
    ((run (getlines source_BRz.toList)).returned.map (fun s => s.object))
      = some [0x3000, 0x5020, 0x1021, 0xF025] := by
  decide!

/-- C1 (amended): with the load address written `$3000` and the branch written
`BR`, the program assembles without an error to the image
`[0x3000, 0x5020, 0x0E01, 0x1021, 0xF025]`; `DONE` is defined at `0x3003`, the
branch is at `0x3001`, and the 9-bit offset of the branch word is
`0x3003 - (0x3001 + 1) = 1`; the object file holds the image big-endian. -/
theorem C1_end_to_end :
    ((run (getlines source_BR.toList)).returned.map
        (fun s => (s.object, s.error_count, s.symbols)))
      = some ([0x3000, 0x5020, 0x0E01, 0x1021, 0xF025], 0, [⟨"DONE".toList, 5, 0x3003⟩]) ∧
    (0x0E01 &&& 0x1FF : Nat) = 0x3003 - (0x3001 + 1) ∧
    assemble source_BR
      = some ⟨EXIT_SUCCESS, 0, some [0x30, 0x00, 0x50, 0x20, 0x0E, 0x01, 0x10, 0x21, 0xF0, 0x25]⟩ := by
  decide!

/-! ## C4: mnemonic lookup -/

theorem toupper_not_lower (c : Char) : ¬ (97 ≤ (toupper c).toNat ∧ (toupper c).toNat ≤ 122) := by
  unfold toupper
  split
  · rename_i h
    simp only [Bool.and_eq_true, decide_eq_true_eq] at h
    obtain ⟨h1, h2⟩ := h
    have key : ∀ n : Nat, 65 ≤ n → n ≤ 90 → 65 ≤ (Char.ofNat n).toNat ∧ (Char.ofNat n).toNat ≤ 90 := by
      intro n hn1 hn2
      interval_cases n <;> decide
    have := key (c.toNat - 32) (by omega) (by omega)
    omega
  · rename_i h
    simp only [Bool.and_eq_true, decide_eq_true_eq] at h
    exact h

theorem std_equal_left (p : Char → Char → Bool) (xs ys : List Char)
    (h : std_equal p xs ys = true) : ∀ x ∈ xs, ∃ y, p x y = true := by
  induction xs generalizing ys with
  | nil => intro x hx; exact absurd hx (List.not_mem_nil x)
  | cons a as ih =>
    cases ys with
    | nil => simp [std_equal] at h
    | cons b bs =>
      simp only [std_equal, Bool.and_eq_true] at h
      intro x hx
      rcases List.mem_cons.mp hx with hxa | hxa
      · subst hxa
        exact ⟨b, h.1⟩
      · exact ih bs h.2 x hxa

/-- No input finds a table entry whose name has a lower-case letter. -/
theorem get_opcode_no_lower (name : List Char) (op : opcode_t)
    (h : get_opcode name = some op) :
    ∀ c ∈ op.name, ¬ (97 ≤ c.toNat ∧ c.toNat ≤ 122) := by
  unfold get_opcode at h
  have hp := List.find?_some h
  intro c hc
  obtain ⟨y, hy⟩ := std_equal_left _ _ _ hp c hc
  have : c = toupper y := by simpa using hy
  rw [this]
  exact toupper_not_lower y

/-- C4 (code at the failing input): the table entries `BRn`, `BRz`, `BRp`,
`BRzp`, `BRnp`, `BRnz` and `BRnzp` are not found under their own names, nor in
upper or lower case: the comparison `x == toupper(y)` converts the input only,
and the lower-case letters of the table names equal no converted character.
Names in capitals are found in either case, and a name that is no mnemonic is
not found.  No input at all finds one of the seven entries. -/
theorem C4_get_opcode_BRz :
    (get_opcode "BRz".toList = none ∧ get_opcode "BRZ".toList = none ∧
      get_opcode "brz".toList = none ∧
      (["BRn", "BRp", "BRzp", "BRnp", "BRnz", "BRnzp"].map (fun n => get_opcode n.toList))
        = [none, none, none, none, none, none] ∧
      (get_opcode "BR".toList).map (fun op => op.name) = some "BR".toList ∧
      (get_opcode "br".toList).map (fun op => op.name) = some "BR".toList ∧
      (get_opcode "Halt".toList).map (fun op => op.name) = some "HALT".toList ∧
      get_opcode "MUL".toList = none) ∧
    (∀ name : List Char, (get_opcode name).map (fun op => op.name) ∉
      [some "BRn".toList, some "BRz".toList, some "BRp".toList, some "BRzp".toList,
        some "BRnp".toList, some "BRnz".toList, some "BRnzp".toList]) := by
  refine ⟨by decide!, ?_⟩
  intro name hmem
  cases h : get_opcode name with
  | none => simp [h] at hmem
  | some op =>
    have hl := get_opcode_no_lower name op h
    simp only [h, Option.map_some', List.mem_cons, Option.some.injEq, List.mem_singleton,
      List.not_mem_nil, or_false] at hmem
    rcases hmem with hn | hn | hn | hn | hn | hn | hn <;>
      · rw [hn] at hl
        first
          | exact hl 'n' (by decide) (by decide)
          | exact hl 'z' (by decide) (by decide)
          | exact hl 'p' (by decide) (by decide)

/-! ## C5: the immediate operand of ADD and AND -/

/-- C5 (code at the failing input): `ADD R1,R2,#16` records no error and
emits `0x12B0`, whose 5-bit field `0x10` is the encoding of `-16`; the test is
`pair.second > 16`.  The operands `#15` and `#-16` are accepted, `#17` and
`#-17` are reported. -/
theorem C5_add_immediate_16 :
    assemble ".ORIG $3000\nADD R1,R2,#16\n" = some ⟨EXIT_SUCCESS, 0, some [0x30, 0x00, 0x12, 0xB0]⟩ ∧
    assemble ".ORIG $3000\nADD R1,R2,#-16\n" = some ⟨EXIT_SUCCESS, 0, some [0x30, 0x00, 0x12, 0xB0]⟩ ∧
    assemble ".ORIG $3000\nADD R1,R2,#15\n" = some ⟨EXIT_SUCCESS, 0, some [0x30, 0x00, 0x12, 0xAF]⟩ ∧
    assemble ".ORIG $3000\nADD R1,R2,#17\n" = some ⟨EXIT_FAILURE, 1, none⟩ ∧
    assemble ".ORIG $3000\nADD R1,R2,#-17\n" = some ⟨EXIT_FAILURE, 1, none⟩ := by
  decide!

/-! ## C10: a second `.ORIG` -/

/-- C10 (code at the failing input): the second `.ORIG $4000` records its
error and returns before the operand is read; `expect(TOKEN_EOL)` then meets
the integer token and terminates the process in line 2 with a second error.
The line `HALT` behind it is not assembled. -/
theorem C10_second_orig_is_fatal :
    assemble ".ORIG $3000\n.ORIG $4000\nHALT\n" = some ⟨EXIT_FAILURE, 2, none⟩ ∧
    ((run (getlines ".ORIG $3000\n.ORIG $4000\nHALT\n".toList)).exited.map
        (fun s => (s.line_number, s.error_count, s.object, s.token.kind, s.token.text)))
      = some (2, 2, [0x3000], TOKEN_INTEGER, "$4000".toList) := by
  decide!

/-! ## Running a procedure on a state -/

@[simp] theorem bind_apply {α β : Type} (m : M α) (f : α → M β) (s : Asm) :
    (m >>= f) s = M.bind m f s := rfl

@[simp] theorem pure_apply {α : Type} (a : α) (s : Asm) : (pure a : M α) s = Res.ok a s := rfl

@[simp] theorem M_pure_apply {α : Type} (a : α) (s : Asm) : M.pure a s = Res.ok a s := rfl

theorem M_bind_ok {α β : Type} (m : M α) (f : α → M β) (s t : Asm) (a : α)
    (h : m s = Res.ok a t) : M.bind m f s = f a t := by
  simp [M.bind, h]

theorem M_bind_exit {α β : Type} (m : M α) (f : α → M β) (s t : Asm)
    (h : m s = Res.exit t) : M.bind m f s = Res.exit t := by
  simp [M.bind, h]

theorem M_bind_undef {α β : Type} (m : M α) (f : α → M β) (s : Asm)
    (h : m s = Res.undef) : M.bind m f s = Res.undef := by
  simp [M.bind, h]

@[simp] theorem get_apply (s : Asm) : get s = Res.ok s s := rfl

@[simp] theorem modify_apply (f : Asm → Asm) (s : Asm) : modify f s = Res.ok () (f s) := rfl

@[simp] theorem undef_apply {α : Type} (s : Asm) : (undef : M α) s = Res.undef := rfl

@[simp] theorem error_zero_apply (s : Asm) :
    error 0 s = Res.ok () { s with error_count := s.error_count + 1 } := rfl

@[simp] theorem fatal_error_apply {α : Type} (s : Asm) :
    (fatal_error : M α) s = Res.exit { s with error_count := s.error_count + 1 } := rfl

@[simp] theorem peek_apply (x : token_kind) (s : Asm) :
    peek x s = Res.ok (s.token.kind == x) s := rfl

/-! ## Integer literals: the value of a digit string -/

theorem le_digits_value (base : Nat) (hb : 0 < base) (ds : List Char) (x : Nat) :
    x ≤ digits_value base ds x := by
  induction ds generalizing x with
  | nil => simp [digits_value]
  | cons c cs ih =>
    simp only [digits_value]
    have h1 := ih (x * base + (ordinal c).toNat)
    have h2 : x ≤ x * base := Nat.le_mul_of_pos_right x hb
    omega

/-- The loop of `parse_integer_nonnegative` for `u16`: it reads the whole
digit string when its value fits and stops inside it otherwise. -/
theorem parse_integer_nonnegative_u16 (base : Nat) (hb : 0 < base) (hb2 : base ≤ 65536)
    (ds : List Char) (hds : digits_of base ds = true) (x : Nat) (hx : x ≤ 65535) :
    (digits_value base ds x ≤ 65535 →
      parse_integer_nonnegative u16 ds x base = ([], (digits_value base ds x : Int))) ∧
    (65535 < digits_value base ds x →
      (parse_integer_nonnegative u16 ds x base).1 ≠ []) := by
  induction ds generalizing x with
  | nil =>
    simp [digits_value, parse_integer_nonnegative]
    omega
  | cons c cs ih =>
    simp only [digits_of, List.all_cons, Bool.and_eq_true, decide_eq_true_eq] at hds
    obtain ⟨⟨h0, h1⟩, hcs⟩ := hds
    have hd : u16.conv (ordinal c) = ((ordinal c).toNat : Int) := by
      simp only [u16]
      omega
    have hdn : (ordinal c).toNat < base := by omega
    have htd : Int.tdiv (u16.max - ((ordinal c).toNat : Int)) (base : Int)
        = (((65535 - (ordinal c).toNat) / base : Nat) : Int) := by
      rw [Int.tdiv_eq_ediv (by simp only [u16]; omega) (by omega)]
      simp only [u16]
      have : ((65535 : Int) - ((ordinal c).toNat : Int)) = ((65535 - (ordinal c).toNat : Nat) : Int) := by
        omega
      rw [this]
      rfl
    simp only [digits_value, parse_integer_nonnegative, hd, htd]
    have key : (x ≤ (65535 - (ordinal c).toNat) / base) ↔ x * base + (ordinal c).toNat ≤ 65535 := by
      rw [Nat.le_div_iff_mul_le hb]
      omega
    by_cases hfit : x * base + (ordinal c).toNat ≤ 65535
    · have hle := key.mpr hfit
      have hnot : ¬ ((x : Int) > (((65535 - (ordinal c).toNat) / base : Nat) : Int)) := by
        omega
      rw [if_neg hnot]
      have hconv : u16.conv ((x : Int) * (base : Int) + ((ordinal c).toNat : Int))
          = ((x * base + (ordinal c).toNat : Nat) : Int) := by
        simp only [u16]
        push_cast
        omega
      rw [hconv]
      exact ih (by simpa [digits_of] using hcs) (x * base + (ordinal c).toNat) hfit
    · have hgt : (x : Int) > (((65535 - (ordinal c).toNat) / base : Nat) : Int) := by
        have : ¬ (x ≤ (65535 - (ordinal c).toNat) / base) := fun h => hfit (key.mp h)
        omega
      rw [if_pos hgt]
      constructor
      · intro hv
        have := le_digits_value base hb cs (x * base + (ordinal c).toNat)
        omega
      · intro _
        simp

/-! ## The token stream -/

theorem next_token_apply (s : Asm) :
    next_token s =
      if (lex s.token.base s.line_cursor 0).fatal then
        Res.exit { after_token s with error_count := (after_token s).error_count + 1 }
      else Res.ok () (after_token s) := by
  simp only [next_token, after_token]
  split <;> rfl

theorem next_token_ok (s : Asm) (h : (lex s.token.base s.line_cursor 0).fatal = false) :
    next_token s = Res.ok () (after_token s) := by
  rw [next_token_apply, h]
  rfl

theorem expect_ok (s : Asm) (h : (lex s.token.base s.line_cursor 0).fatal = false) :
    expect s = Res.ok s.token (after_token s) := by
  simp [expect, M.bind, next_token_ok s h]

theorem expect_kind_ok (s : Asm) (x : token_kind) (hk : s.token.kind = x)
    (h : (lex s.token.base s.line_cursor 0).fatal = false) :
    expect_kind x s = Res.ok s.token (after_token s) := by
  simp [expect_kind, M.bind, hk, expect_ok s h]

theorem expect_kind_other (s : Asm) (x : token_kind) (hk : s.token.kind ≠ x) :
    expect_kind x s = Res.exit { s with error_count := s.error_count + 1 } := by
  simp [expect_kind, M.bind, hk]

theorem write_instruction_ok (x : Nat) (s : Asm) (h : s.object.length ≤ 65536) :
    write_instruction x s = Res.ok () { s with object := s.object ++ [x] } := by
  have : ¬ (s.object.length > 65536) := by omega
  simp [write_instruction, M.bind, this]

theorem write_instruction_full (x : Nat) (s : Asm) (h : 65536 < s.object.length) :
    write_instruction x s = Res.exit { s with error_count := s.error_count + 1 } := by
  simp [write_instruction, M.bind, h]

/-! ## Unsigned literals -/

theorem ordinal_minus : ordinal '-' = -1 := by decide

theorem digits_of_head_ne_minus (base : Nat) (c : Char) (cs : List Char)
    (h : digits_of base (c :: cs) = true) : c ≠ '-' := by
  intro hc
  subst hc
  simp [digits_of, ordinal_minus] at h

/-- The function `parse_integer` for `u16` on the text of an integer token
behind its marker. -/
theorem parse_integer_u16_token (base : Nat) (negative : Bool) (ds : List Char)
    (hds : ds ≠ []) (hdig : digits_of base ds = true) :
    parse_integer u16 (sign_text negative ++ ds) 0 base =
      if negative then
        ((parse_integer_nonnegative u16 ds 0 base).1,
          (-(parse_integer_nonnegative u16 ds 0 base).2) % 65536)
      else parse_integer_nonnegative u16 ds 0 base := by
  cases negative with
  | true =>
    simp only [parse_integer, u16, sign_text, parse_integer_unsigned, if_true, List.cons_append,
      List.nil_append, beq_self_eq_true, Bool.false_eq_true, if_false]
    congr 1
    congr 1
    omega
  | false =>
    cases ds with
    | nil => exact absurd rfl hds
    | cons c cs =>
      have hc := digits_of_head_ne_minus base c cs hdig
      simp [parse_integer, u16, sign_text, parse_integer_unsigned, hc]

/-! ## C6: the operand of TRAP -/

/-- C6 (as stated, refuted): `TRAP #-65535` has a negative operand, records no
error and emits the word `0xF001`: the unsigned parse negates modulo `2^16`
and the test `pair.second > 255` sees `1`. -/
theorem C6_negative_operand_accepted :
    assemble ".ORIG $3000\nTRAP #-65535\n"
      = some ⟨EXIT_SUCCESS, 0, some [0x30, 0x00, 0xF0, 0x01]⟩ ∧
    token_value 10 true "65535".toList = -65535 := by
  decide!

/-- C6 (amended): for TRAP with an integer token operand of value `v` (in a
state with room in the image and a rest of the line that lexes without a
fatal error), `assemble_trap` emits exactly the word `0xF000 | (v mod 2^16)`
and records no error if `0 <= v <= 255` or `-65535 <= v <= -65281`; for every
other value it raises a fatal error and emits no word. -/
theorem C6_assemble_trap (s : Asm) (op : opcode_t) (marker : Char) (negative : Bool)
    (ds : List Char) (base : Nat) (hbase : base = 10 ∨ base = 16)
    (hds : ds ≠ []) (hdig : digits_of base ds = true)
    (htok : s.token = ⟨TOKEN_INTEGER, marker :: (sign_text negative ++ ds), base⟩)
    (hcap : s.object.length ≤ 65536)
    (hlex : (lex base s.line_cursor 0).fatal = false)
    (hop : op.base_code = 0xF000) :
    (((0 ≤ token_value base negative ds ∧ token_value base negative ds ≤ 255) ∨
        (-65535 ≤ token_value base negative ds ∧ token_value base negative ds ≤ -65281)) →
      assemble_trap op s = Res.ok ()
        { after_token s with
          object := s.object ++ [0xF000 ||| to_u16 (token_value base negative ds)] }) ∧
    (¬ ((0 ≤ token_value base negative ds ∧ token_value base negative ds ≤ 255) ∨
        (-65535 ≤ token_value base negative ds ∧ token_value base negative ds ≤ -65281)) →
      assemble_trap op s = Res.exit
        { after_token s with error_count := (after_token s).error_count + 1 }) := by
  have hb0 : 0 < base := by omega
  have hb1 : base ≤ 65536 := by omega
  have hk : s.token.kind = TOKEN_INTEGER := by rw [htok]
  have hbs : s.token.base = base := by rw [htok]
  have hlex' : (lex s.token.base s.line_cursor 0).fatal = false := by rw [hbs]; exact hlex
  have hexp := expect_kind_ok s TOKEN_INTEGER hk hlex'
  have hcap' : (after_token s).object.length ≤ 65536 := hcap
  have hparse := parse_integer_u16_token base negative ds hds hdig
  have hnn := parse_integer_nonnegative_u16 base hb0 hb1 ds hdig 0 (by omega)
  simp only [Nat.cast_zero] at hnn
  have htxt : s.token.text.drop 1 = sign_text negative ++ ds := by rw [htok]; rfl
  have hrun : assemble_trap op s =
      (if (parse_integer u16 (sign_text negative ++ ds) 0 base).1 ≠ [] ∨
          (parse_integer u16 (sign_text negative ++ ds) 0 base).2 > 255 then
        Res.exit { after_token s with error_count := (after_token s).error_count + 1 }
      else
        Res.ok () { after_token s with
          object := s.object ++
            [0xF000 ||| ((parse_integer u16 (sign_text negative ++ ds) 0 base).2.toNat &&& 0xFF)] }) := by
    simp only [assemble_trap, bind_apply, M.bind, hexp, htxt, hbs, hop]
    by_cases hc : ¬ (parse_integer u16 (sign_text negative ++ ds) 0 base).1 = [] ∨
          255 < (parse_integer u16 (sign_text negative ++ ds) 0 base).2
    · have hc2 : (parse_integer u16 (sign_text negative ++ ds) 0 base).1 ≠ [] ∨
          (parse_integer u16 (sign_text negative ++ ds) 0 base).2 > 255 := hc
      rw [if_pos hc2]
      simp [hc, M.bind]
    · have hc2 : ¬ ((parse_integer u16 (sign_text negative ++ ds) 0 base).1 ≠ [] ∨
          (parse_integer u16 (sign_text negative ++ ds) 0 base).2 > 255) := hc
      rw [if_neg hc2]
      simp [hc, M.bind, write_instruction_ok _ _ hcap']
      rfl
  rw [hrun, hparse]
  have hmask : ∀ n : Nat, n ≤ 255 → n &&& 0xFF = n := by
    intro n hn
    have := Nat.and_pow_two_sub_one_eq_mod n 8
    simp only [Nat.reducePow, Nat.add_one_sub_one] at this
    rw [this]
    omega
  by_cases hfit : digits_value base ds 0 ≤ 65535
  · have hp := hnn.1 hfit
    cases negative with
    | true =>
      simp only [token_value, if_true, hp]
      constructor
      · intro hv
        have h1 : (-(digits_value base ds 0 : Int)) % 65536 ≤ 255 := by omega
        have h2 : ¬ (([] : List Char) ≠ [] ∨ (-(digits_value base ds 0 : Int)) % 65536 > 255) := by
          simp
          omega
        rw [if_neg h2]
        have h3 : ((-(digits_value base ds 0 : Int)) % 65536).toNat ≤ 255 := by omega
        rw [hmask _ h3]
        rfl
      · intro hv
        have h2 : (([] : List Char) ≠ [] ∨ (-(digits_value base ds 0 : Int)) % 65536 > 255) := by
          right
          omega
        rw [if_pos h2]
    | false =>
      simp only [token_value, Bool.false_eq_true, if_false, hp]
      constructor
      · intro hv
        have h2 : ¬ (([] : List Char) ≠ [] ∨ (digits_value base ds 0 : Int) > 255) := by
          simp
          omega
        rw [if_neg h2]
        have h3 : (digits_value base ds 0 : Int).toNat ≤ 255 := by omega
        rw [hmask _ h3]
        simp only [to_u16]
        have h4 : ((digits_value base ds 0 : Int) % 65536).toNat = (digits_value base ds 0 : Int).toNat := by
          omega
        rw [h4]
      · intro hv
        have h2 : (([] : List Char) ≠ [] ∨ (digits_value base ds 0 : Int) > 255) := by
          right
          omega
        rw [if_pos h2]
  · have hp := hnn.2 (by omega)
    have hrej : ¬ ((0 ≤ token_value base negative ds ∧ token_value base negative ds ≤ 255) ∨
        (-65535 ≤ token_value base negative ds ∧ token_value base negative ds ≤ -65281)) := by
      simp only [token_value]
      cases negative <;> simp <;> omega
    constructor
    · intro hv
      exact absurd hv hrej
    · intro _
      cases negative with
      | true =>
        simp only [if_true]
        rw [if_pos (Or.inl hp)]
      | false =>
        simp only [Bool.false_eq_true, if_false]
        rw [if_pos (Or.inl hp)]

/-- C6 (witness): `TRAP #255` emits `0xF0FF` without an error. -/
theorem C6_assemble_trap_witness :
    assemble_trap ⟨"TRAP".toList, 0xF000, encoder.assemble_trap⟩ trap_state
      = Res.ok () { after_token trap_state with object := [0x3000, 0xF0FF] } :=
  (C6_assemble_trap trap_state ⟨"TRAP".toList, 0xF000, encoder.assemble_trap⟩ '#' false
      "255".toList 10 (Or.inl rfl) (by decide!) (by decide!) (by decide!) (by decide!)
      (by decide!) rfl).1 (by decide!)

/-! ## Resolving a label operand -/

theorem location_counter_apply (s : Asm) (load : Nat) (ws : List Nat)
    (hobj : s.object = load :: ws) :
    location_counter s = Res.ok ((load + ws.length % 65536) % 65536) s := by
  simp [location_counter, hobj]

theorem read_symbol_apply (s : Asm) (i : Nat) (sym : symbol_t) (h : s.symbols[i]? = some sym) :
    read_symbol i s = Res.ok sym s := by
  simp [read_symbol, h]

/-- The call `assemble_label` for a symbol that is defined. -/
theorem assemble_label_defined (s : Asm) (a : Nat) (symbol : Nat)
    (sym : symbol_t) (base_code n : Nat) (ha : location_counter s = Res.ok a s)
    (hcap : s.object.length ≤ 65536) (hsym : s.symbols[symbol]? = some sym)
    (hdef : sym.line_number ≠ 0) :
    assemble_label symbol base_code n s =
      Res.ok ()
        { s with
          error_count := s.error_count +
            (if (sym.location : Int) - ((a : Int) + (1 : Int)) < -((1 <<< (n - 1) : Nat) : Int)
              then 1 else 0),
          object := s.object ++
            [(base_code ||| int_and ((sym.location : Int) - ((a : Int) + (1 : Int))) ((1 <<< n) - 1))
              % 65536] } := by
  simp only [assemble_label, bind_apply, M.bind, read_symbol_apply s symbol sym hsym,
    ha, if_pos hdef]
  by_cases h : (sym.location : Int) - ((a : Int) + (1 : Int)) < -((1 <<< (n - 1) : Nat) : Int)
  · rw [if_pos h, if_pos h]
    simp only [bind_apply, M.bind, error_zero_apply]
    rw [write_instruction_ok _ _ (by simpa using hcap)]
  · rw [if_neg h, if_neg h]
    simp only [bind_apply, M.bind, pure_apply]
    rw [write_instruction_ok _ _ (by simpa using hcap)]
    rfl

theorem set_append_cons {α : Type} (l r : List α) (x y : α) :
    (l ++ x :: r).set l.length y = l ++ y :: r := by
  induction l with
  | nil => rfl
  | cons a l ih => simp [ih]

theorem getElem?_append_cons {α : Type} (l r : List α) (x : α) :
    (l ++ x :: r)[l.length]? = some x := by
  induction l with
  | nil => simp
  | cons a l ih => simpa using ih

/-- The call `fix_forward_references` for a position whose word is in the image. -/
theorem fix_forward_references_apply (s : Asm) (load : Nat) (ws more : List Nat)
    (instruction position t : Nat) (hobj : s.object = (load :: ws) ++ instruction :: more)
    (hpos : position = load + ws.length) (ht : location_counter s = Res.ok t s) :
    fix_forward_references position s =
      match patch_width instruction with
      | some w =>
        Res.ok ()
          { s with
            error_count := s.error_count +
              (if (t : Int) - (position : Int) - (1 : Int) > ((1 <<< (w - 1) : Nat) : Int) - (1 : Int) then 1 else 0),
            object := (load :: ws) ++
              (instruction ||| (to_u16 ((t : Int) - (position : Int) - (1 : Int)) &&& ((1 <<< w) - 1))) :: more }
      | none => Res.ok () s := by
  have h0 : s.object[0]? = some load := by rw [hobj]; simp
  have hidx : (position : Int) + 1 - load = ((ws.length + 1 : Nat) : Int) := by
    subst hpos
    push_cast
    omega
  have hget : s.object[ws.length + 1]? = some instruction := by
    rw [hobj]
    exact getElem?_append_cons (load :: ws) more instruction
  have hset : ∀ y, s.object.set (ws.length + 1) y = (load :: ws) ++ y :: more := by
    intro y
    rw [hobj]
    exact set_append_cons (load :: ws) more instruction y
  have hneg : ¬ (((ws.length + 1 : Nat) : Int) < 0) := by omega
  simp only [fix_forward_references, bind_apply, M.bind, get_apply, h0, access, M_pure_apply,
    hidx, Int.toNat_ofNat, hget, ht, if_neg hneg, pure_apply]
  unfold patch_width
  by_cases hn : instruction >>> 12 ∈ [0, 2, 3, 10, 11, 14]
  · rw [if_pos hn, if_pos hn]
    simp only [Nat.reduceShiftLeft, Nat.reduceSub, Nat.cast_ofNat, Int.reduceSub]
    by_cases he : (t : Int) - (position : Int) - (1 : Int) > (255 : Int)
    · rw [if_pos he, if_pos he]
      simp only [bind_apply, M.bind, error_zero_apply, modify_apply, hset]
    · rw [if_neg he, if_neg he]
      simp only [bind_apply, M.bind, pure_apply, modify_apply, hset]
      rfl
  · rw [if_neg hn, if_neg hn]
    by_cases h4 : instruction >>> 12 = 4
    · rw [if_pos h4, if_pos h4]
      simp only [Nat.reduceShiftLeft, Nat.reduceSub, Nat.cast_ofNat, Int.reduceSub]
      by_cases he : (t : Int) - (position : Int) - (1 : Int) > (1023 : Int)
      · rw [if_pos he, if_pos he]
        simp only [bind_apply, M.bind, error_zero_apply, modify_apply, hset]
      · rw [if_neg he, if_neg he]
        simp only [bind_apply, M.bind, pure_apply, modify_apply, hset]
        rfl
    · rw [if_neg h4, if_neg h4]
      rfl

/-! ## C3: the two ways to resolve a label agree -/

theorem int_and_mask (x : Int) (w : Nat) (hw : w = 9 ∨ w = 11) :
    int_and x ((1 <<< w) - 1) = (x % 2 ^ w).toNat := by
  unfold int_and to_u32
  rcases hw with h | h <;> subst h
  · have := Nat.and_pow_two_sub_one_eq_mod (x % 4294967296).toNat 9
    simp only [Nat.reducePow, Nat.reduceSub] at this
    simp only [Nat.reduceShiftLeft, Nat.reduceSub, this]
    norm_num
    omega
  · have := Nat.and_pow_two_sub_one_eq_mod (x % 4294967296).toNat 11
    simp only [Nat.reducePow, Nat.reduceSub] at this
    simp only [Nat.reduceShiftLeft, Nat.reduceSub, this]
    norm_num
    omega

theorem to_u16_mask (x : Int) (w : Nat) (hw : w = 9 ∨ w = 11) :
    to_u16 x &&& ((1 <<< w) - 1) = (x % 2 ^ w).toNat := by
  unfold to_u16
  rcases hw with h | h <;> subst h
  · have := Nat.and_pow_two_sub_one_eq_mod (x % 65536).toNat 9
    simp only [Nat.reducePow, Nat.reduceSub] at this
    simp only [Nat.reduceShiftLeft, Nat.reduceSub, this]
    norm_num
    omega
  · have := Nat.and_pow_two_sub_one_eq_mod (x % 65536).toNat 11
    simp only [Nat.reducePow, Nat.reduceSub] at this
    simp only [Nat.reduceShiftLeft, Nat.reduceSub, this]
    norm_num
    omega

theorem patch_width_cases (x w : Nat) (h : patch_width x = some w) : w = 9 ∨ w = 11 := by
  unfold patch_width at h
  split at h
  · left
    exact (Option.some.inj h).symm
  · split at h
    · right
      exact (Option.some.inj h).symm
    · exact absurd h (by simp)

theorem field_lt (x : Int) (w : Nat) (hw : w = 9 ∨ w = 11) : (x % 2 ^ w).toNat < 2 ^ 16 := by
  rcases hw with h | h <;> subst h <;> norm_num <;> omega

theorem or_field_mod (base_code : Nat) (x : Int) (w : Nat) (hb : base_code < 65536)
    (hw : w = 9 ∨ w = 11) :
    (base_code ||| (x % 2 ^ w).toNat) % 65536 = base_code ||| (x % 2 ^ w).toNat := by
  apply Nat.mod_eq_of_lt
  exact Nat.or_lt_two_pow (n := 16) hb (field_lt x w hw)

/-- C3: for a base pattern whose top four bits select the field width `w`
(9 for nibbles 0, 2, 3, 10, 11, 14; 11 for nibble 4), an instruction address
`a` and a target address `t`: the word `assemble_label` emits at `a` for a
symbol defined at `t` is the word that stands at `a` after the bare pattern
was emitted there and `fix_forward_references` ran for position `a` with the
location counter at `t`; both are `base | ((t - (a + 1)) mod 2^w)`. -/
theorem C3_resolution_paths_agree (s s' : Asm) (load : Nat) (ws more : List Nat)
    (symbol : Nat) (sym : symbol_t) (base_code w a t : Nat)
    (hw : patch_width base_code = some w) (hbase : base_code < 65536)
    (hobj : s.object = load :: ws) (ha : a = load + ws.length) (hnowrap : a < 65536)
    (hsym : s.symbols[symbol]? = some sym) (hdef : sym.line_number ≠ 0)
    (hloc : sym.location = t)
    (hobj' : s'.object = s.object ++ base_code :: more)
    (ht : location_counter s' = Res.ok t s') :
    ∃ s1 s2,
      assemble_label symbol base_code w s = Res.ok () s1 ∧
      s1.object = s.object ++ [base_code ||| (((t : Int) - ((a : Int) + 1)) % 2 ^ w).toNat] ∧
      fix_forward_references a s' = Res.ok () s2 ∧
      s2.object = s.object ++ (base_code ||| (((t : Int) - ((a : Int) + 1)) % 2 ^ w).toNat) :: more := by
  have hw' := patch_width_cases base_code w hw
  have hlc : location_counter s = Res.ok a s := by
    rw [location_counter_apply s load ws hobj]
    have : (load + ws.length % 65536) % 65536 = a := by omega
    rw [this]
  have hcap : s.object.length ≤ 65536 := by
    rw [hobj]
    simp only [List.length_cons]
    omega
  have h1 := assemble_label_defined s a symbol sym base_code w hlc hcap hsym hdef
  have h2 := fix_forward_references_apply s' load ws more base_code a t
    (by rw [hobj', hobj]) ha ht
  rw [hw] at h2
  refine ⟨_, _, h1, ?_, h2, ?_⟩
  · simp only [hloc, int_and_mask _ w hw', or_field_mod base_code _ w hbase hw']
  · simp only [to_u16_mask _ w hw', hobj]
    have : (t : Int) - (a : Int) - 1 = (t : Int) - ((a : Int) + 1) := by omega
    rw [this]

/-- C3 (witness): `BR` at `0x3000` to a label at `0x3002` is `0x0E01` on both paths. -/
theorem C3_resolution_paths_agree_witness :
    ∃ s1 s2,
      assemble_label 0 0x0E00 9 paths_state = Res.ok () s1 ∧
      s1.object = [0x3000, 0x0E01] ∧
      fix_forward_references 0x3000 { paths_state with object := [0x3000, 0x0E00, 0xF025] }
        = Res.ok () s2 ∧
      s2.object = [0x3000, 0x0E01, 0xF025] :=
  C3_resolution_paths_agree paths_state { paths_state with object := [0x3000, 0x0E00, 0xF025] }
    0x3000 [] [0xF025] 0 ⟨"X".toList, 1, 0x3002⟩ 0x0E00 9 0x3000 0x3002
    (by decide!) (by decide!) rfl rfl (by decide!) rfl (by decide!) rfl rfl (by decide!)

/-- The width an encoder passes to `assemble_label` is the width
`fix_forward_references` takes from the word the encoder emits, for every
entry of the table and every register field. -/
theorem patch_width_of_table :
    (opcodes.all (fun op =>
      match op.assemble_fn with
      | encoder.assemble_branch => patch_width op.base_code == some 9
      | encoder.assemble_jump_subroutine => patch_width op.base_code == some 11
      | encoder.assemble_load_store =>
        (List.range 8).all (fun r => patch_width (op.base_code ||| (r <<< 9)) == some 9)
      | _ => true)) = true := by
  decide!

/-! ## C9: offsets that do not fit -/

/-- C9 (as stated, refuted): in `source_wrap` the branch at address `299` is
resolved against `X` at `0xFFFF`; `t - (a + 1) = 65235` does not fit nine
bits, nor does its 16-bit wrap-around `-301`, and no error is recorded: the
branch word `0x0ED3` is emitted and the run ends with zero errors. -/
theorem C9_unreported_offset :
    ((main_loop source_wrap.dropLast >>= fun _ => location_counter) Asm.init).value = some 299 ∧
    (run source_wrap).returned.map
        (fun s => (s.error_count, s.symbols, s.object.length, s.object.getLast?))
      = some (0, [⟨"X".toList, 2, 0xFFFF⟩], 302, some 0x0ED3) ∧
    ¬ fits 9 ((0xFFFF : Int) - (299 + 1)) ∧
    ¬ fits 9 (to_i16 ((0xFFFF : Int) - (299 + 1))) := by
  decide!

/-- C9 (amended): while the location counter has not wrapped (the target `t`
of a defined symbol is not behind the instruction address `a`, and the
location counter `t` at patch time is not before the patched position `a`),
resolving a label operand records an "offset too large" error exactly when
`t - (a + 1)` does not fit the signed field, and returns: in `assemble_label`
for a defined symbol and a field of `n` bits, and in `fix_forward_references`
for the field of 9 or 11 bits the stored word selects. -/
theorem C9_offset_too_large :
    (∀ (s : Asm) (a symbol : Nat) (sym : symbol_t) (base_code n : Nat),
      location_counter s = Res.ok a s → s.object.length ≤ 65536 →
      s.symbols[symbol]? = some sym → sym.line_number ≠ 0 → 0 < n → sym.location ≤ a →
      ∃ s1, assemble_label symbol base_code n s = Res.ok () s1 ∧
        s1.error_count = s.error_count +
          (if fits n ((sym.location : Int) - ((a : Int) + 1)) then 0 else 1)) ∧
    (∀ (s : Asm) (load : Nat) (ws more : List Nat) (instruction a t w : Nat),
      s.object = (load :: ws) ++ instruction :: more → a = load + ws.length →
      location_counter s = Res.ok t s → patch_width instruction = some w → a ≤ t →
      ∃ s2, fix_forward_references a s = Res.ok () s2 ∧
        s2.error_count = s.error_count +
          (if fits w ((t : Int) - ((a : Int) + 1)) then 0 else 1)) := by
  constructor
  · intro s a symbol sym base_code n ha hcap hsym hdef hn hle
    refine ⟨_, assemble_label_defined s a symbol sym base_code n ha hcap hsym hdef, ?_⟩
    simp only [fits]
    have hp : (0 : Int) < 2 ^ (n - 1) := by positivity
    have hsh : ((1 <<< (n - 1) : Nat) : Int) = 2 ^ (n - 1) := by
      rw [Nat.one_shiftLeft]
      push_cast
      rfl
    rw [hsh]
    by_cases h : (sym.location : Int) - ((a : Int) + 1) < -(2 ^ (n - 1) : Int)
    · rw [if_pos h, if_neg (by omega)]
    · rw [if_neg h, if_pos (by constructor <;> omega)]
  · intro s load ws more instruction a t w hobj ha ht hw hle
    have h2 := fix_forward_references_apply s load ws more instruction a t hobj ha ht
    rw [hw] at h2
    refine ⟨_, h2, ?_⟩
    simp only [fits]
    rcases patch_width_cases instruction w hw with h | h <;> subst h
    · simp only [Nat.reduceSub, Nat.reduceShiftLeft, Nat.reducePow, Nat.cast_ofNat]
      split_ifs <;> omega
    · simp only [Nat.reduceSub, Nat.reduceShiftLeft, Nat.reducePow, Nat.cast_ofNat]
      split_ifs <;> omega

/-- C9 (witness): a branch at `0x3001` back to `0x3000` and a patch of the
branch at `0x3000` for the location counter `0x3002` record no error. -/
theorem C9_offset_too_large_witness :
    (∃ s1, assemble_label 0 0x0E00 9 backward_state = Res.ok () s1 ∧
      s1.error_count = backward_state.error_count +
        (if fits 9 (((0x3000 : Nat) : Int) - (((0x3001 : Nat) : Int) + 1)) then 0 else 1)) ∧
    (∃ s2, fix_forward_references 0x3000 { paths_state with object := [0x3000, 0x0E00, 0xF025] }
        = Res.ok () s2 ∧
      s2.error_count = paths_state.error_count +
        (if fits 9 (((0x3002 : Nat) : Int) - (((0x3000 : Nat) : Int) + 1)) then 0 else 1)) :=
  ⟨C9_offset_too_large.1 backward_state 0x3001 0 ⟨"X".toList, 2, 0x3000⟩ 0x0E00 9
      (by decide!) (by decide!) (by decide!) (by decide!) (by decide!) (by decide!),
   C9_offset_too_large.2 { paths_state with object := [0x3000, 0x0E00, 0xF025] } 0x3000 []
      [0xF025] 0x0E00 0x3000 0x3002 9 rfl rfl (by decide!) (by decide!) (by decide!)⟩

/-! ## Chains of the pool -/

namespace list_pool

theorem index_inj (x y : Nat) (hx : x < 65536) (hy : y < 65536) (h : index x = index y) :
    x = y := by
  unfold index to_u16 at h
  omega

theorem node_set_node_self (p q : list_pool) (x : Nat) (n : node_t)
    (h : p.set_node x n = some q) : q.node x = some n := by
  unfold set_node at h
  split at h
  · rename_i hlt
    cases h
    simp [node, List.getElem?_set, hlt]
  · exact absurd h (by simp)

theorem node_set_node_other (p q : list_pool) (x y : Nat) (n : node_t)
    (h : p.set_node x n = some q) (hxy : index y ≠ index x) : q.node y = p.node y := by
  unfold set_node at h
  split at h
  · cases h
    simp only [node]
    rw [List.getElem?_set]
    simp [Ne.symm hxy]
  · exact absurd h (by simp)

theorem set_node_free_list (p q : list_pool) (x : Nat) (n : node_t)
    (h : p.set_node x n = some q) : q._free_list = p._free_list := by
  unfold set_node at h
  split at h
  · cases h
    rfl
  · exact absurd h (by simp)

theorem set_node_of_node (p : list_pool) (x : Nat) (nd n : node_t) (h : p.node x = some nd) :
    ∃ q, p.set_node x n = some q := by
  unfold node at h
  have hlt : index x < p._pool.length := by
    by_contra hge
    rw [List.getElem?_eq_none (by omega)] at h
    exact absurd h (by simp)
  exact ⟨{ p with _pool := p._pool.set (index x) n }, by simp [set_node, hlt]⟩

/-- The effect of `free` on a node that is in the vector. -/
theorem free_of_node (p : list_pool) (head : Nat) (nd : node_t) (h : p.node head = some nd) :
    ∃ q, p.free head = some (nd.next, q) ∧ q._free_list = head ∧
      q.node head = some ⟨nd.value, p._free_list⟩ ∧
      ∀ y, index y ≠ index head → q.node y = p.node y := by
  obtain ⟨r, hr⟩ := set_node_of_node p head nd ⟨nd.value, p._free_list⟩ h
  refine ⟨{ r with _free_list := head }, ?_, rfl, ?_, ?_⟩
  · simp [free, h, hr]
  · exact node_set_node_self p r head _ hr
  · intro y hy
    exact node_set_node_other p r head y _ hr hy

theorem segment_congr (p q : list_pool) (ns : List Nat) (x : Nat)
    (h : ∀ n ∈ ns, q.node n = p.node n) : q.segment x ns = p.segment x ns := by
  induction ns generalizing x with
  | nil => rfl
  | cons n ns ih =>
    simp only [segment]
    split
    · rename_i hx
      rw [hx.1, h n (List.mem_cons_self n ns)]
      cases p.node n with
      | none => rfl
      | some nd => exact ih nd.next (fun m hm => h m (List.mem_cons_of_mem n hm))
    · rfl

theorem segment_append (p : list_pool) (ns ms : List Nat) (x y : Nat)
    (h : p.segment x ns = some y) : p.segment x (ns ++ ms) = p.segment y ms := by
  induction ns generalizing x with
  | nil =>
    simp only [segment] at h
    cases h
    rfl
  | cons n ns ih =>
    simp only [segment, List.cons_append] at h ⊢
    split
    · rename_i hx
      rw [if_pos hx] at h
      cases hn : p.node x with
      | none => simp [hn] at h
      | some nd =>
        rw [hn] at h
        exact ih nd.next h
    · rename_i hx
      rw [if_neg hx] at h
      exact absurd h (by simp)

end list_pool

/-! ## C2: patching the forward references of a label -/

theorem patch_at_length (load d : Nat) (object : List Nat) (a : Nat) :
    (patch_at load d object a).length = object.length := by
  simp [patch_at]

theorem patch_at_other (load d : Nat) (object : List Nat) (a j : Nat) (h : j ≠ a + 1 - load) :
    (patch_at load d object a)[j]? = object[j]? := by
  simp only [patch_at]
  rw [List.getElem?_set]
  simp [Ne.symm h]

theorem patch_at_self (load d : Nat) (object : List Nat) (a x : Nat)
    (h : object[a + 1 - load]? = some x) :
    (patch_at load d object a)[a + 1 - load]? = some (patch_word d a x) := by
  have hlt : a + 1 - load < object.length := by
    by_contra hge
    rw [List.getElem?_eq_none (by omega)] at h
    exact absurd h (by simp)
  simp only [patch_at]
  rw [List.getElem?_set]
  simp [hlt, List.getD_eq_getElem?_getD, h]

theorem foldl_patch_at_length (load d : Nat) (as : List Nat) (object : List Nat) :
    (as.foldl (patch_at load d) object).length = object.length := by
  induction as generalizing object with
  | nil => rfl
  | cons a as ih => simp [List.foldl, ih, patch_at_length]

theorem foldl_patch_at_other (load d : Nat) (as : List Nat) (object : List Nat) (j : Nat)
    (h : ∀ a ∈ as, j ≠ a + 1 - load) :
    (as.foldl (patch_at load d) object)[j]? = object[j]? := by
  induction as generalizing object with
  | nil => rfl
  | cons a as ih =>
    simp only [List.foldl]
    rw [ih _ (fun b hb => h b (List.mem_cons_of_mem a hb))]
    exact patch_at_other load d object a j (h a (List.mem_cons_self a as))

/-- Every position of a list of distinct positions is patched once. -/
theorem foldl_patch_at_self (load d : Nat) (as : List Nat) (object : List Nat)
    (hlo : ∀ a ∈ as, load ≤ a) (hnd : as.Nodup) (a x : Nat) (ha : a ∈ as)
    (hx : object[a + 1 - load]? = some x) :
    (as.foldl (patch_at load d) object)[a + 1 - load]? = some (patch_word d a x) := by
  induction as generalizing object with
  | nil => exact absurd ha (List.not_mem_nil a)
  | cons b bs ih =>
    simp only [List.foldl]
    have hnd' := List.nodup_cons.mp hnd
    rcases List.mem_cons.mp ha with hab | hab
    · subst hab
      rw [foldl_patch_at_other]
      · exact patch_at_self load d object a x hx
      · intro c hc heq
        have h1 := hlo c (List.mem_cons_of_mem a hc)
        have h2 := hlo a (List.mem_cons_self a bs)
        have : a = c := by omega
        subst this
        exact hnd'.1 hc
    · apply ih _ (fun c hc => hlo c (List.mem_cons_of_mem b hc)) hnd'.2 hab
      rw [patch_at_other]
      · exact hx
      · intro heq
        have h1 := hlo a ha
        have h2 := hlo b (List.mem_cons_self b bs)
        have : a = b := by omega
        subst this
        exact hnd'.1 hab

/-- The call `fix_forward_references` for a position inside the image. -/
theorem fix_forward_references_at (s : Asm) (load a t x : Nat)
    (hload : s.object[0]? = some load) (hlo : load ≤ a)
    (hx : s.object[a + 1 - load]? = some x) (ht : location_counter s = Res.ok t s) :
    ∃ e, fix_forward_references a s =
      Res.ok () { s with error_count := s.error_count + e,
                         object := patch_at load t s.object a } := by
  have hidx : (a : Int) + 1 - load = ((a + 1 - load : Nat) : Int) := by omega
  have hneg : ¬ (((a + 1 - load : Nat) : Int) < 0) := by omega
  have hgetD : s.object.getD (a + 1 - load) 0 = x := by
    simp [List.getD_eq_getElem?_getD, hx]
  simp only [fix_forward_references, bind_apply, M.bind, get_apply, hload, access, M_pure_apply,
    hidx, Int.toNat_ofNat, hx, ht, if_neg hneg, pure_apply, patch_at, hgetD, patch_word]
  unfold patch_width
  have e1 : (t : Int) - (a : Int) - 1 = (t : Int) - ((a : Int) + 1) := by omega
  by_cases hn : x >>> 12 ∈ [0, 2, 3, 10, 11, 14]
  · rw [if_pos hn, if_pos hn]
    have hm := to_u16_mask ((t : Int) - (a : Int) - 1) 9 (Or.inl rfl)
    simp only [Nat.reduceShiftLeft, Nat.reduceSub] at hm
    rw [hm, e1]
    by_cases he : (t : Int) - ((a : Int) + 1) > 255
    · rw [if_pos he]
      exact ⟨1, by simp only [bind_apply, M.bind, error_zero_apply, modify_apply]⟩
    · rw [if_neg he]
      exact ⟨0, by simp only [bind_apply, M.bind, pure_apply, modify_apply]; rfl⟩
  · rw [if_neg hn, if_neg hn]
    by_cases h4 : x >>> 12 = 4
    · rw [if_pos h4, if_pos h4]
      have hm := to_u16_mask ((t : Int) - (a : Int) - 1) 11 (Or.inr rfl)
      simp only [Nat.reduceShiftLeft, Nat.reduceSub] at hm
      rw [hm, e1]
      by_cases he : (t : Int) - ((a : Int) + 1) > 1023
      · rw [if_pos he]
        exact ⟨1, by simp only [bind_apply, M.bind, error_zero_apply, modify_apply]⟩
      · rw [if_neg he]
        exact ⟨0, by simp only [bind_apply, M.bind, pure_apply, modify_apply]; rfl⟩
    · rw [if_neg h4, if_neg h4]
      refine ⟨0, ?_⟩
      simp only [pure_apply]
      have : s.object.set (a + 1 - load) x = s.object := by
        apply List.ext_getElem?
        intro j
        rw [List.getElem?_set]
        by_cases hj : a + 1 - load = j
        · subst hj
          have hlt : a + 1 - load < s.object.length := by
            by_contra hge
            rw [List.getElem?_eq_none (by omega)] at hx
            exact absurd hx (by simp)
          simp [hlt, hx]
        · simp [hj]
      rw [this]
      rfl

theorem fix_chain_end (fuel : Nat) (s : Asm) : fix_chain (fuel + 1) 0 s = Res.ok () s := by
  simp [fix_chain, list_pool.is_end, list_pool.end]

theorem fix_chain_step (fuel head : Nat) (s : Asm) (h : list_pool.is_end head = false) :
    fix_chain (fuel + 1) head s =
      M.bind (pool_value head) (fun v => M.bind (fix_forward_references v)
        (fun _ => M.bind (pool_free head) (fun tail => fix_chain fuel tail))) s := by
  simp [fix_chain, h]
  rfl

theorem location_counter_of (s : Asm) (load len : Nat) (h0 : s.object[0]? = some load)
    (hlen : s.object.length = len) :
    location_counter s = Res.ok ((load + (len - 1) % 65536) % 65536) s := by
  cases hobj : s.object with
  | nil => rw [hobj] at h0; simp at h0
  | cons w ws =>
    rw [hobj] at h0 hlen
    simp only [List.getElem?_cons_zero, Option.some.injEq] at h0
    subst h0
    subst hlen
    simp [location_counter, hobj]

theorem pool_value_apply (s : Asm) (x v : Nat) (h : s.pool.value x = some v) :
    pool_value x s = Res.ok v s := by
  simp [pool_value, h]

theorem pool_free_apply (s : Asm) (x nx : Nat) (q : list_pool)
    (h : s.pool.free x = some (nx, q)) :
    pool_free x s = Res.ok nx { s with pool := q } := by
  simp [pool_free, h]

/-- The loop of the label definition over a chain `nodes` that holds the
positions `addresses`: every position is patched, and the nodes are pushed on
the free list one after the other. -/
theorem fix_chain_spec (load len d : Nat) (hd : d = (load + (len - 1) % 65536) % 65536) :
    ∀ (nodes addresses : List Nat) (s : Asm) (head fuel : Nat) (done : List Nat) (f0 : Nat),
      s.object[0]? = some load → s.object.length = len →
      s.pool.segment head nodes = some 0 →
      nodes.map s.pool.value = addresses.map some →
      (∀ a ∈ addresses, load ≤ a ∧ a + 1 - load < len) →
      s.pool.segment s.pool._free_list done = some f0 →
      nodes.Nodup → (∀ n ∈ nodes, n ∉ done) → (∀ n ∈ nodes, n < 65536) →
      (∀ n ∈ done, n < 65536) → nodes.length < fuel →
      ∃ s', fix_chain fuel head s = Res.ok () s' ∧
        s'.object = addresses.foldl (patch_at load d) s.object ∧
        s'.pool.segment s'.pool._free_list (nodes.reverse ++ done) = some f0 ∧
        s'.symbols = s.symbols ∧ s'.line_number = s.line_number := by
  intro nodes
  induction nodes with
  | nil =>
    intro addresses s head fuel done f0 h0 hlen hseg hvals _ hfree _ _ _ _ hfuel
    simp only [list_pool.segment, Option.some.injEq] at hseg
    subst hseg
    cases addresses with
    | cons a as => simp at hvals
    | nil =>
      cases fuel with
      | zero => simp at hfuel
      | succ k => exact ⟨s, fix_chain_end k s, rfl, by simpa using hfree, rfl, rfl⟩
  | cons n ns ih =>
    intro addresses s head fuel done f0 h0 hlen hseg hvals hrange hfree hnd hdisj hlt hdone hfuel
    cases addresses with
    | nil => simp at hvals
    | cons a as =>
      simp only [List.map_cons, List.cons.injEq] at hvals
      obtain ⟨hva, hvas⟩ := hvals
      simp only [list_pool.segment] at hseg
      split at hseg
      case isFalse => simp at hseg
      case isTrue hx =>
      obtain ⟨hhead, hne⟩ := hx
      subst hhead
      cases hnode : s.pool.node head with
      | none => simp [hnode] at hseg
      | some nd =>
      rw [hnode] at hseg
      simp only at hseg
      cases fuel with
      | zero => simp at hfuel
      | succ k =>
      have hra := hrange a (List.mem_cons_self a as)
      have hnd' := List.nodup_cons.mp hnd
      obtain ⟨x, hx⟩ : ∃ x, s.object[a + 1 - load]? = some x := by
        have hlt' : a + 1 - load < s.object.length := by omega
        exact ⟨s.object[a + 1 - load], List.getElem?_eq_getElem hlt'⟩
      have hlc := location_counter_of s load len h0 hlen
      rw [← hd] at hlc
      obtain ⟨e, hfix⟩ := fix_forward_references_at s load a d x h0 hra.1 hx hlc
      obtain ⟨q, hq, hqf, hqn, hqo⟩ := list_pool.free_of_node s.pool head nd hnode
      have hother : ∀ m, m < 65536 → m ≠ head → q.node m = s.pool.node m := by
        intro m hm hmh
        apply hqo
        intro hidx
        exact hmh (list_pool.index_inj m head hm (hlt head (List.mem_cons_self head ns)) hidx)
      have hstep : fix_chain (k + 1) head s =
          fix_chain k nd.next
            { s with error_count := s.error_count + e,
                     object := patch_at load d s.object a, pool := q } := by
        rw [fix_chain_step k head s hne]
        simp only [M.bind, pool_value_apply s head a hva, hfix]
        have hpf : pool_free head
            ({ s with error_count := s.error_count + e, object := patch_at load d s.object a } : Asm)
            = Res.ok nd.next
              { s with error_count := s.error_count + e, object := patch_at load d s.object a,
                       pool := q } :=
          pool_free_apply _ head nd.next q hq
        rw [hpf]
      have hns_other : ∀ m ∈ ns, q.node m = s.pool.node m := by
        intro m hm
        apply hother m (hlt m (List.mem_cons_of_mem head hm))
        intro hmh
        subst hmh
        exact hnd'.1 hm
      have hdone_other : ∀ m ∈ done, q.node m = s.pool.node m := by
        intro m hm
        apply hother m (hdone m hm)
        intro hmh
        subst hmh
        exact hdisj m (List.mem_cons_self m ns) hm
      obtain ⟨s', hs', hobj', hseg', hsym', hln'⟩ :=
        ih as { s with error_count := s.error_count + e,
                       object := patch_at load d s.object a, pool := q }
          nd.next k (head :: done) f0
          (by
            show (patch_at load d s.object a)[0]? = some load
            rw [patch_at_other load d s.object a 0 (by omega)]
            exact h0)
          (by
            show (patch_at load d s.object a).length = len
            rw [patch_at_length]
            exact hlen)
          (by
            show q.segment nd.next ns = some 0
            rw [list_pool.segment_congr s.pool q ns nd.next hns_other]
            exact hseg)
          (by
            show ns.map q.value = as.map some
            rw [← hvas]
            apply List.map_congr_left
            intro m hm
            simp only [list_pool.value, hns_other m hm])
          (fun b hb => hrange b (List.mem_cons_of_mem a hb))
          (by
            show q.segment q._free_list (head :: done) = some f0
            rw [hqf]
            simp only [list_pool.segment, hne, and_self, if_true, hqn]
            rw [list_pool.segment_congr s.pool q done _ hdone_other]
            exact hfree)
          hnd'.2
          (by
            intro m hm hmem
            rcases List.mem_cons.mp hmem with h | h
            · subst h
              exact hnd'.1 hm
            · exact hdisj m (List.mem_cons_of_mem head hm) h)
          (fun m hm => hlt m (List.mem_cons_of_mem head hm))
          (by
            intro m hm
            rcases List.mem_cons.mp hm with h | h
            · subst h
              exact hlt m (List.mem_cons_self m ns)
            · exact hdone m h)
          (by simpa using hfuel)
      refine ⟨s', by rw [hstep]; exact hs', ?_, ?_, hsym', hln'⟩
      · rw [hobj']
        rfl
      · simpa [List.reverse_cons, List.append_assoc] using hseg'

theorem list_pool.segment_node (p : list_pool) (ns : List Nat) (x y : Nat)
    (h : p.segment x ns = some y) : ∀ n ∈ ns, ∃ nd, p.node n = some nd := by
  induction ns generalizing x with
  | nil => intro n hn; exact absurd hn (List.not_mem_nil n)
  | cons m ms ih =>
    simp only [list_pool.segment] at h
    split at h
    case isFalse => simp at h
    case isTrue hx =>
    cases hnode : p.node x with
    | none => simp [hnode] at h
    | some nd =>
      rw [hnode] at h
      intro n hn
      rcases List.mem_cons.mp hn with hnm | hnm
      · subst hnm
        exact ⟨nd, by rw [← hx.1]; exact hnode⟩
      · exact ih nd.next h n hnm

theorem nodup_length_le (l : List Nat) (k : Nat) (hnd : l.Nodup) (hlt : ∀ n ∈ l, n < k) :
    l.length ≤ k := by
  have hsub : l ⊆ List.range k := fun n hn => List.mem_range.mpr (hlt n hn)
  have := (List.Nodup.subperm hnd hsub).length_le
  simpa using this

/-- A chain without a repeated node is not longer than the pool. -/
theorem list_pool.chain_length_le (p : list_pool) (ns : List Nat) (x y : Nat)
    (h : p.segment x ns = some y) (hnd : ns.Nodup) (hlt : ∀ n ∈ ns, n < 65536) :
    ns.length ≤ p.size := by
  have hidx : (ns.map list_pool.index).Nodup := by
    apply List.Nodup.map_on _ hnd
    intro a ha b hb hab
    exact list_pool.index_inj a b (hlt a ha) (hlt b hb) hab
  have hb : ∀ j ∈ ns.map list_pool.index, j < p.size := by
    intro j hj
    obtain ⟨n, hn, rfl⟩ := List.mem_map.mp hj
    obtain ⟨nd, hnd'⟩ := list_pool.segment_node p ns x y h n hn
    unfold list_pool.node at hnd'
    by_contra hge
    rw [List.getElem?_eq_none (by unfold list_pool.size at hge; omega)] at hnd'
    exact absurd hnd' (by simp)
  have := nodup_length_le _ _ hidx hb
  simpa using this

theorem write_symbol_apply (s : Asm) (i : Nat) (sym : symbol_t) (h : i < s.symbols.length) :
    write_symbol i sym s = Res.ok () { s with symbols := s.symbols.set i sym } := by
  simp [write_symbol, h]

/-- C2: a symbol of the table that is undefined, with the pending chain
`nodes` holding the distinct positions `addresses`, all from the load address
on and before the location counter `d`, which has not wrapped.  The label
definition returns; behind it the word at every position `a` is the word `x`
that stood there or-ed with `(d - (a + 1)) mod 2^w`, `w` the width the top
four bits of `x` select; the symbol is defined at `d` in the current line;
and the free list of the pool starts with the nodes of the chain (in reverse
order) and continues with the former free list. -/
theorem C2_forward_references_patched (s : Asm) (name : token_t) (i : Nat) (sym : symbol_t)
    (load d : Nat) (nodes addresses : List Nat)
    (hget : get_symbol name.text s = Res.ok i s)
    (hsym : s.symbols[i]? = some sym) (hundef : sym.line_number = 0)
    (hload : s.object[0]? = some load)
    (hd : d + 1 = load + s.object.length) (hnowrap : d < 65536)
    (hchain : s.pool.segment sym.location nodes = some 0)
    (hvals : nodes.map s.pool.value = addresses.map some)
    (hrange : ∀ a ∈ addresses, load ≤ a ∧ a < d)
    (hdistinct : addresses.Nodup)
    (hu16 : ∀ n ∈ nodes, n < 65536) :
    ∃ s', define_label name s = Res.ok () s' ∧
      (∀ a ∈ addresses, ∀ x w, s.object[a + 1 - load]? = some x → patch_width x = some w →
        s'.object[a + 1 - load]? = some (x ||| (((d : Int) - ((a : Int) + 1)) % 2 ^ w).toNat)) ∧
      s'.symbols[i]? = some ⟨sym.name, s.line_number, d⟩ ∧
      s'.pool.segment s'.pool._free_list nodes.reverse = some s.pool._free_list := by
  have hnodes : nodes.Nodup := by
    have h1 : (addresses.map some).Nodup :=
      List.Nodup.map (Option.some_injective Nat) hdistinct
    rw [← hvals] at h1
    exact List.Nodup.of_map _ h1
  have hfuel : nodes.length < s.pool.size + 1 := by
    have := list_pool.chain_length_le s.pool nodes _ _ hchain hnodes hu16
    omega
  have hlen0 : 0 < s.object.length := by
    by_contra h
    have : s.object = [] := List.length_eq_zero.mp (by omega)
    rw [this] at hload
    simp at hload
  have hdd : d = (load + (s.object.length - 1) % 65536) % 65536 := by omega
  obtain ⟨s1, hs1, hobj1, hseg1, hsym1, hln1⟩ :=
    fix_chain_spec load s.object.length d hdd nodes addresses s sym.location (s.pool.size + 1)
      [] s.pool._free_list hload rfl hchain hvals
      (fun a ha => ⟨(hrange a ha).1, by have := (hrange a ha).2; omega⟩)
      rfl hnodes (fun n _ h => absurd h (List.not_mem_nil n)) hu16
      (fun n h => absurd h (List.not_mem_nil n)) hfuel
  have hi : i < s.symbols.length := by
    by_contra hge
    rw [List.getElem?_eq_none (by omega)] at hsym
    exact absurd hsym (by simp)
  have h01 : s1.object[0]? = some load := by
    rw [hobj1, foldl_patch_at_other load d addresses s.object 0
      (fun a ha => by have := (hrange a ha).1; omega)]
    exact hload
  have hlc1 : location_counter s1 = Res.ok d s1 := by
    have := location_counter_of s1 load s.object.length h01
      (by rw [hobj1, foldl_patch_at_length])
    rw [← hdd] at this
    exact this
  have hi1 : i < s1.symbols.length := by rw [hsym1]; exact hi
  refine ⟨{ s1 with symbols := s1.symbols.set i ⟨sym.name, s1.line_number, d⟩ }, ?_, ?_, ?_, ?_⟩
  · simp only [define_label, bind_apply, M.bind, hget, read_symbol_apply s i sym hsym, hundef,
      ne_eq, not_true_eq_false, if_false, get_apply, hs1, pure_apply, hlc1]
    exact write_symbol_apply s1 i _ hi1
  · intro a ha x w hx hw
    show s1.object[a + 1 - load]? = _
    rw [hobj1, foldl_patch_at_self load d addresses s.object (fun b hb => (hrange b hb).1)
      hdistinct a x ha hx]
    simp only [patch_word, hw]
  · show (s1.symbols.set i _)[i]? = _
    rw [List.getElem?_set]
    simp [hi1, hln1]
  · simpa using hseg1

/-- C2 (witness): the definition of `X` at `0x3003` behind a `BR`, a `JSR` and
an `LD` that refer to it. -/
theorem C2_forward_references_patched_witness :
    ∃ s', define_label ⟨TOKEN_NAME, "X".toList, 16⟩ pending_state = Res.ok () s' ∧
      (∀ a ∈ ([0x3002, 0x3001, 0x3000] : List Nat), ∀ x w,
        pending_state.object[a + 1 - 0x3000]? = some x → patch_width x = some w →
        s'.object[a + 1 - 0x3000]?
          = some (x ||| ((((0x3003 : Nat) : Int) - ((a : Int) + 1)) % 2 ^ w).toNat)) ∧
      s'.symbols[0]? = some ⟨"X".toList, pending_state.line_number, 0x3003⟩ ∧
      s'.pool.segment s'.pool._free_list [3, 2, 1].reverse = some pending_state.pool._free_list :=
  C2_forward_references_patched pending_state ⟨TOKEN_NAME, "X".toList, 16⟩ 0
    ⟨"X".toList, 0, 3⟩ 0x3000 0x3003 [3, 2, 1] [0x3002, 0x3001, 0x3000]
    (by decide!) (by decide!) (by decide!) (by decide!) (by decide!) (by decide!) (by decide!)
    (by decide!) (by decide!) (by decide!) (by decide!)

/-! ## Relations between the state before and after a procedure -/

theorem Preserves.pure {α : Type} {R : Asm → Asm → Prop} (hrefl : ∀ s, R s s) (a : α) :
    Preserves R (pure a : M α) :=
  fun s => hrefl s

theorem Preserves.bind {α β : Type} {R : Asm → Asm → Prop}
    (htrans : ∀ a b c, R a b → R b c → R a c) {m : M α} {f : α → M β}
    (hm : Preserves R m) (hf : ∀ a, Preserves R (f a)) : Preserves R (m >>= f) := by
  intro s
  have h1 := hm s
  simp only [bind_apply, M.bind]
  cases h : m s with
  | ok a t =>
    rw [h] at h1
    have h2 := hf a t
    simp only [Res.holds] at h1 h2 ⊢
    cases h' : f a t with
    | ok b u => rw [h'] at h2; exact htrans _ _ _ h1 h2
    | exit u => rw [h'] at h2; exact htrans _ _ _ h1 h2
    | undef => trivial
  | exit t =>
    rw [h] at h1
    exact h1
  | undef => trivial

theorem Preserves.ite {α : Type} {R : Asm → Asm → Prop} {c : Prop} [Decidable c]
    {m1 m2 : M α} (h1 : Preserves R m1) (h2 : Preserves R m2) :
    Preserves R (if c then m1 else m2) := by
  split
  · exact h1
  · exact h2

theorem same_symbols_refl (s : Asm) : same_symbols s s := rfl

theorem same_symbols_trans (a b c : Asm) (h1 : same_symbols a b) (h2 : same_symbols b c) :
    same_symbols a c := by
  unfold same_symbols at *
  rw [h2, h1]

theorem same_get : Preserves same_symbols get := fun _ => rfl

theorem same_peek (x : token_kind) : Preserves same_symbols (peek x) := fun _ => rfl

theorem same_error (n : Nat) : Preserves same_symbols (error n) := by
  intro s
  unfold error
  simp only
  split <;> rfl

theorem same_fatal_error {α : Type} : Preserves same_symbols (fatal_error : M α) := fun _ => rfl

theorem same_undef {α : Type} : Preserves same_symbols (undef : M α) := fun _ => trivial

theorem same_next_token : Preserves same_symbols next_token := by
  intro s
  rw [next_token_apply]
  split <;> rfl

theorem same_peek_register : Preserves same_symbols peek_register := fun _ => rfl

theorem same_location_counter : Preserves same_symbols location_counter := by
  intro s
  unfold location_counter
  split
  · trivial
  · rfl

theorem same_access {α : Type} (o : Option α) : Preserves same_symbols (access o) := by
  intro s
  cases o <;> simp [access, Res.holds, same_symbols]

theorem same_pool_value (x : Nat) : Preserves same_symbols (pool_value x) := by
  intro s
  unfold pool_value
  split <;> simp [Res.holds, same_symbols]

theorem same_pool_allocate (v t : Nat) : Preserves same_symbols (pool_allocate v t) := by
  intro s
  unfold pool_allocate
  split <;> simp [Res.holds, same_symbols]

theorem same_pool_free (x : Nat) : Preserves same_symbols (pool_free x) := by
  intro s
  unfold pool_free
  split <;> simp [Res.holds, same_symbols]

theorem same_read_symbol (i : Nat) : Preserves same_symbols (read_symbol i) := by
  intro s
  unfold read_symbol
  split <;> simp [Res.holds, same_symbols]

theorem same_match (x : token_kind) : Preserves same_symbols («match» x) := by
  unfold «match»
  with_reducible repeat (first
    | exact same_next_token
    | exact same_peek _
    | apply Preserves.pure same_symbols_refl
    | apply Preserves.bind same_symbols_trans
    | apply Preserves.ite
    | intro _)

theorem same_modify (f : Asm → Asm) (h : ∀ s, (f s).symbols = s.symbols) :
    Preserves same_symbols (modify f) := fun s => h s

theorem same_expect : Preserves same_symbols expect := by
  unfold expect
  with_reducible repeat (first
    | exact same_next_token
    | exact same_get
    | apply Preserves.pure same_symbols_refl
    | apply Preserves.bind same_symbols_trans
    | apply Preserves.ite
    | intro _)

theorem same_expect_kind (x : token_kind) : Preserves same_symbols (expect_kind x) := by
  unfold expect_kind
  with_reducible repeat (first
    | exact same_expect
    | exact same_peek _
    | exact same_fatal_error
    | apply Preserves.pure same_symbols_refl
    | apply Preserves.bind same_symbols_trans
    | apply Preserves.ite
    | intro _)

theorem same_expect_register : Preserves same_symbols expect_register := by
  unfold expect_register
  with_reducible repeat (first
    | exact same_next_token
    | exact same_peek_register
    | exact same_get
    | exact same_error _
    | apply Preserves.pure same_symbols_refl
    | apply Preserves.bind same_symbols_trans
    | apply Preserves.ite
    | intro _)

theorem same_write_instruction (x : Nat) : Preserves same_symbols (write_instruction x) := by
  unfold write_instruction
  with_reducible repeat (first
    | exact same_get
    | exact same_fatal_error
    | exact same_modify _ (fun _ => rfl)
    | apply Preserves.pure same_symbols_refl
    | apply Preserves.bind same_symbols_trans
    | apply Preserves.ite
    | intro _)

theorem same_assemble_add_and (op : opcode_t) : Preserves same_symbols (assemble_add_and op) := by
  unfold assemble_add_and
  with_reducible repeat (first
    | exact same_expect_register
    | exact same_match _
    | exact same_peek_register
    | exact same_peek _
    | exact same_expect
    | exact same_error _
    | exact same_fatal_error
    | exact same_write_instruction _
    | apply Preserves.pure same_symbols_refl
    | apply Preserves.bind same_symbols_trans
    | apply Preserves.ite
    | intro _)

theorem same_assemble_jump (op : opcode_t) : Preserves same_symbols (assemble_jump op) := by
  unfold assemble_jump
  with_reducible repeat (first
    | exact same_next_token
    | exact same_get
    | exact same_peek _
    | exact same_peek_register
    | exact same_error _
    | exact same_fatal_error
    | exact same_undef
    | exact same_location_counter
    | exact same_access _
    | exact same_pool_value _
    | exact same_pool_free _
    | exact same_match _
    | exact same_expect
    | exact same_expect_kind _
    | exact same_expect_register
    | exact same_write_instruction _
    | exact same_modify _ (fun _ => rfl)
    | apply Preserves.pure same_symbols_refl
    | apply Preserves.bind same_symbols_trans
    | apply Preserves.ite
    | intro _)

theorem same_assemble_load_store_relative (op : opcode_t) : Preserves same_symbols (assemble_load_store_relative op) := by
  unfold assemble_load_store_relative
  with_reducible repeat (first
    | exact same_next_token
    | exact same_get
    | exact same_peek _
    | exact same_peek_register
    | exact same_error _
    | exact same_fatal_error
    | exact same_undef
    | exact same_location_counter
    | exact same_access _
    | exact same_pool_value _
    | exact same_pool_free _
    | exact same_match _
    | exact same_expect
    | exact same_expect_kind _
    | exact same_expect_register
    | exact same_write_instruction _
    | exact same_modify _ (fun _ => rfl)
    | apply Preserves.pure same_symbols_refl
    | apply Preserves.bind same_symbols_trans
    | apply Preserves.ite
    | intro _)

theorem same_assemble_not (op : opcode_t) : Preserves same_symbols (assemble_not op) := by
  unfold assemble_not
  with_reducible repeat (first
    | exact same_next_token
    | exact same_get
    | exact same_peek _
    | exact same_peek_register
    | exact same_error _
    | exact same_fatal_error
    | exact same_undef
    | exact same_location_counter
    | exact same_access _
    | exact same_pool_value _
    | exact same_pool_free _
    | exact same_match _
    | exact same_expect
    | exact same_expect_kind _
    | exact same_expect_register
    | exact same_write_instruction _
    | exact same_modify _ (fun _ => rfl)
    | apply Preserves.pure same_symbols_refl
    | apply Preserves.bind same_symbols_trans
    | apply Preserves.ite
    | intro _)

theorem same_assemble_trap (op : opcode_t) : Preserves same_symbols (assemble_trap op) := by
  unfold assemble_trap
  with_reducible repeat (first
    | exact same_next_token
    | exact same_get
    | exact same_peek _
    | exact same_peek_register
    | exact same_error _
    | exact same_fatal_error
    | exact same_undef
    | exact same_location_counter
    | exact same_access _
    | exact same_pool_value _
    | exact same_pool_free _
    | exact same_match _
    | exact same_expect
    | exact same_expect_kind _
    | exact same_expect_register
    | exact same_write_instruction _
    | exact same_modify _ (fun _ => rfl)
    | apply Preserves.pure same_symbols_refl
    | apply Preserves.bind same_symbols_trans
    | apply Preserves.ite
    | intro _)

theorem same_assemble_base_code (op : opcode_t) : Preserves same_symbols (assemble_base_code op) := by
  unfold assemble_base_code
  with_reducible repeat (first
    | exact same_next_token
    | exact same_get
    | exact same_peek _
    | exact same_peek_register
    | exact same_error _
    | exact same_fatal_error
    | exact same_undef
    | exact same_location_counter
    | exact same_access _
    | exact same_pool_value _
    | exact same_pool_free _
    | exact same_match _
    | exact same_expect
    | exact same_expect_kind _
    | exact same_expect_register
    | exact same_write_instruction _
    | exact same_modify _ (fun _ => rfl)
    | apply Preserves.pure same_symbols_refl
    | apply Preserves.bind same_symbols_trans
    | apply Preserves.ite
    | intro _)

theorem same_directive_end (op : opcode_t) : Preserves same_symbols (directive_end op) := by
  unfold directive_end
  with_reducible repeat (first
    | exact same_next_token
    | exact same_get
    | exact same_peek _
    | exact same_peek_register
    | exact same_error _
    | exact same_fatal_error
    | exact same_undef
    | exact same_location_counter
    | exact same_access _
    | exact same_pool_value _
    | exact same_pool_free _
    | exact same_match _
    | exact same_expect
    | exact same_expect_kind _
    | exact same_expect_register
    | exact same_write_instruction _
    | exact same_modify _ (fun _ => rfl)
    | apply Preserves.pure same_symbols_refl
    | apply Preserves.bind same_symbols_trans
    | apply Preserves.ite
    | intro _)

theorem same_write_zeros (n : Nat) : Preserves same_symbols (write_zeros n) := by
  induction n with
  | zero => exact Preserves.pure same_symbols_refl ()
  | succ n ih =>
    unfold write_zeros
    exact Preserves.bind same_symbols_trans (same_write_instruction 0) (fun _ => ih)

theorem same_write_chars (cs : List Char) : Preserves same_symbols (write_chars cs) := by
  induction cs with
  | nil => exact Preserves.pure same_symbols_refl ()
  | cons c cs ih =>
    unfold write_chars
    exact Preserves.bind same_symbols_trans (same_write_instruction _) (fun _ => ih)

theorem same_directive_blkw (op : opcode_t) : Preserves same_symbols (directive_blkw op) := by
  unfold directive_blkw
  with_reducible repeat (first
    | exact same_next_token
    | exact same_get
    | exact same_peek _
    | exact same_peek_register
    | exact same_error _
    | exact same_fatal_error
    | exact same_undef
    | exact same_location_counter
    | exact same_access _
    | exact same_pool_value _
    | exact same_pool_free _
    | exact same_match _
    | exact same_expect
    | exact same_expect_kind _
    | exact same_expect_register
    | exact same_write_instruction _
    | exact same_modify _ (fun _ => rfl)
    | exact same_write_zeros _
    | exact same_write_chars _
    | split
    | apply Preserves.pure same_symbols_refl
    | apply Preserves.bind same_symbols_trans
    | apply Preserves.ite
    | intro _)

theorem same_directive_fill (op : opcode_t) : Preserves same_symbols (directive_fill op) := by
  unfold directive_fill
  with_reducible repeat (first
    | exact same_next_token
    | exact same_get
    | exact same_peek _
    | exact same_peek_register
    | exact same_error _
    | exact same_fatal_error
    | exact same_undef
    | exact same_location_counter
    | exact same_access _
    | exact same_pool_value _
    | exact same_pool_free _
    | exact same_match _
    | exact same_expect
    | exact same_expect_kind _
    | exact same_expect_register
    | exact same_write_instruction _
    | exact same_modify _ (fun _ => rfl)
    | exact same_write_zeros _
    | exact same_write_chars _
    | split
    | apply Preserves.pure same_symbols_refl
    | apply Preserves.bind same_symbols_trans
    | apply Preserves.ite
    | intro _)

theorem same_directive_stringz (op : opcode_t) : Preserves same_symbols (directive_stringz op) := by
  unfold directive_stringz
  with_reducible repeat (first
    | exact same_next_token
    | exact same_get
    | exact same_peek _
    | exact same_peek_register
    | exact same_error _
    | exact same_fatal_error
    | exact same_undef
    | exact same_location_counter
    | exact same_access _
    | exact same_pool_value _
    | exact same_pool_free _
    | exact same_match _
    | exact same_expect
    | exact same_expect_kind _
    | exact same_expect_register
    | exact same_write_instruction _
    | exact same_modify _ (fun _ => rfl)
    | exact same_write_zeros _
    | exact same_write_chars _
    | split
    | apply Preserves.pure same_symbols_refl
    | apply Preserves.bind same_symbols_trans
    | apply Preserves.ite
    | intro _)

theorem same_fix_forward_references (position : Nat) :
    Preserves same_symbols (fix_forward_references position) := by
  unfold fix_forward_references
  with_reducible repeat (first
    | exact same_next_token
    | exact same_get
    | exact same_peek _
    | exact same_peek_register
    | exact same_error _
    | exact same_fatal_error
    | exact same_undef
    | exact same_location_counter
    | exact same_access _
    | exact same_pool_value _
    | exact same_pool_free _
    | exact same_match _
    | exact same_expect
    | exact same_expect_kind _
    | exact same_expect_register
    | exact same_write_instruction _
    | exact same_modify _ (fun _ => rfl)
    | apply Preserves.pure same_symbols_refl
    | apply Preserves.bind same_symbols_trans
    | apply Preserves.ite
    | intro _)

theorem same_fix_chain (fuel list : Nat) : Preserves same_symbols (fix_chain fuel list) := by
  induction fuel generalizing list with
  | zero => exact same_undef
  | succ k ih =>
    unfold fix_chain
    with_reducible repeat (first
      | exact ih _
      | exact same_fix_forward_references _
      | exact same_pool_value _
      | exact same_pool_free _
      | apply Preserves.pure same_symbols_refl
      | apply Preserves.bind same_symbols_trans
      | apply Preserves.ite
      | intro _)

theorem Preserves.mono {α : Type} {R R' : Asm → Asm → Prop} (h : ∀ s t, R s t → R' s t)
    {m : M α} (hm : Preserves R m) : Preserves R' m := by
  intro s
  have := hm s
  cases hr : m s with
  | ok a t => rw [hr] at this; exact h s t this
  | exit t => rw [hr] at this; exact h s t this
  | undef => trivial

theorem kept_refl (S : List symbol_t) : kept S S :=
  ⟨⟨[], by simp⟩, fun _ _ h _ => h, fun h => h⟩

theorem kept_trans (S T U : List symbol_t) (h1 : kept S T) (h2 : kept T U) : kept S U := by
  obtain ⟨⟨e1, he1⟩, hd1, hn1⟩ := h1
  obtain ⟨⟨e2, he2⟩, hd2, hn2⟩ := h2
  refine ⟨⟨e1 ++ e2, by rw [he2, he1, List.append_assoc]⟩, ?_, fun h => hn2 (hn1 h)⟩
  intro i sym hs hdef
  exact hd2 i sym (hd1 i sym hs hdef) hdef

theorem symbols_kept_refl (s : Asm) : symbols_kept s s := kept_refl _

theorem symbols_kept_trans (a b c : Asm) (h1 : symbols_kept a b) (h2 : symbols_kept b c) :
    symbols_kept a c := kept_trans _ _ _ h1 h2

theorem symbols_kept_of_same (s t : Asm) (h : same_symbols s t) : symbols_kept s t := by
  unfold symbols_kept
  rw [h]
  exact kept_refl _

theorem findIdx_names (S : List symbol_t) (name : List Char) :
    S.findIdx (fun symbol => symbol.name == name) = (names S).findIdx (fun n => n == name) := by
  induction S with
  | nil => rfl
  | cons x xs ih =>
    simp only [names, List.map_cons, List.findIdx_cons] at ih ⊢
    rw [ih]

/-- A symbol that is appended under a name that is not in the table. -/
theorem kept_append (S : List symbol_t) (sym : symbol_t)
    (h : S.findIdx (fun symbol => symbol.name == sym.name) = S.length) :
    kept S (S ++ [sym]) := by
  refine ⟨⟨[sym.name], by simp [names]⟩, ?_, ?_⟩
  · intro i x hx _
    have hi : i < S.length := by
      by_contra hge
      rw [List.getElem?_eq_none (by omega)] at hx
      exact absurd hx (by simp)
    rw [List.getElem?_append_left hi]
    exact hx
  · intro hnd
    have hnot : sym.name ∉ names S := by
      intro hmem
      obtain ⟨y, hy, hyn⟩ := List.mem_map.mp hmem
      have := (List.findIdx_eq_length.mp h) y hy
      simp [hyn] at this
    have : names (S ++ [sym]) = names S ++ [sym.name] := by simp [names]
    rw [this]
    exact List.nodup_append.mpr ⟨hnd, List.nodup_singleton _, by
      intro a ha hb
      rw [List.mem_singleton] at hb
      subst hb
      exact hnot ha⟩

/-- A symbol that is undefined is overwritten under its name. -/
theorem kept_set (S : List symbol_t) (i : Nat) (old new : symbol_t)
    (hold : S[i]? = some old) (hundef : old.line_number = 0) (hname : new.name = old.name) :
    kept S (S.set i new) := by
  have hnames : names (S.set i new) = names S := by
    simp only [names, List.map_set]
    apply List.ext_getElem?
    intro j
    rw [List.getElem?_set]
    by_cases hij : i = j
    · subst hij
      have hi : i < S.length := by
        by_contra hge
        rw [List.getElem?_eq_none (by omega)] at hold
        exact absurd hold (by simp)
      have hold' : S[i] = old := by
        have := List.getElem?_eq_getElem hi
        rw [hold] at this
        exact (Option.some.inj this).symm
      simp [hi, hold', hname]
    · simp [hij]
  refine ⟨⟨[], by rw [hnames]; simp⟩, ?_, by rw [hnames]; exact fun h => h⟩
  intro j x hx hdef
  rw [List.getElem?_set]
  by_cases hij : i = j
  · subst hij
    rw [hold] at hx
    cases hx
    exact absurd hundef hdef
  · simp [hij, hx]

theorem kept_get_symbol (name : List Char) : Preserves symbols_kept (get_symbol name) := by
  intro s
  unfold get_symbol
  simp only
  split
  · exact symbols_kept_refl s
  · rename_i hnot
    have hle := @List.findIdx_le_length symbol_t (fun symbol => symbol.name == name) s.symbols
    have hidx : s.symbols.findIdx (fun symbol => symbol.name == name) = s.symbols.length := by
      omega
    exact kept_append s.symbols ⟨name, 0, 0⟩ hidx

theorem kept_write_symbol_state (s : Asm) (i : Nat) (old new : symbol_t)
    (hold : s.symbols[i]? = some old) (hundef : old.line_number = 0)
    (hname : new.name = old.name) :
    (write_symbol i new s).holds (symbols_kept s) := by
  unfold write_symbol
  split
  · exact kept_set s.symbols i old new hold hundef hname
  · trivial

theorem holds_bind {α β : Type} (R : Asm → Asm → Prop)
    (htrans : ∀ a b c, R a b → R b c → R a c) (m : M α) (f : α → M β) (s : Asm)
    (h1 : (m s).holds (R s))
    (h2 : ∀ a t, m s = Res.ok a t → (f a t).holds (R t)) :
    (M.bind m f s).holds (R s) := by
  unfold M.bind
  cases h : m s with
  | ok a t =>
    rw [h] at h1
    have h3 := h2 a t h
    simp only [Res.holds] at h1 h3 ⊢
    cases h' : f a t with
    | ok b u => rw [h'] at h3; exact htrans _ _ _ h1 h3
    | exit u => rw [h'] at h3; exact htrans _ _ _ h1 h3
    | undef => trivial
  | exit t =>
    rw [h] at h1
    exact h1
  | undef => trivial

theorem kept_assemble_label (symbol base_code n : Nat) :
    Preserves symbols_kept (assemble_label symbol base_code n) := by
  intro s
  unfold assemble_label
  simp only [bind_apply]
  cases hsym : s.symbols[symbol]? with
  | none => simp [M.bind, read_symbol, hsym, Res.holds]
  | some sym =>
    rw [M_bind_ok _ _ s s sym (read_symbol_apply s symbol sym hsym)]
    by_cases hdef : sym.line_number ≠ 0
    · rw [if_pos hdef]
      have : Preserves same_symbols (do
          let a ← location_counter
          let offset : Int := (sym.location : Int) - ((a : Int) + 1)
          if offset < -((1 <<< (n - 1) : Nat) : Int) then error 0
          write_instruction ((base_code ||| int_and offset ((1 <<< n) - 1)) % 65536) : M Unit) := by
        with_reducible repeat (first
          | exact same_location_counter
          | exact same_error _
          | exact same_write_instruction _
          | apply Preserves.pure same_symbols_refl
          | apply Preserves.bind same_symbols_trans
          | apply Preserves.ite
          | intro _)
      exact Preserves.mono symbols_kept_of_same this s
    · rw [if_neg hdef]
      have hundef : sym.line_number = 0 := by omega
      simp only [bind_apply]
      apply holds_bind symbols_kept symbols_kept_trans
      · exact Preserves.mono symbols_kept_of_same same_location_counter s
      · intro a t ht
        have hts : t = s := by
          unfold location_counter at ht
          split at ht
          · exact absurd ht (by simp)
          · cases ht
            rfl
        subst hts
        apply holds_bind symbols_kept symbols_kept_trans
        · exact Preserves.mono symbols_kept_of_same (same_pool_allocate _ _) t
        · intro head u hu
          have hus : u.symbols = t.symbols := by
            unfold pool_allocate at hu
            split at hu
            · cases hu
              rfl
            · exact absurd hu (by simp)
          apply holds_bind symbols_kept symbols_kept_trans
          · exact kept_write_symbol_state u symbol sym _ (by rw [hus]; exact hsym) hundef rfl
          · intro _ v _
            exact Preserves.mono symbols_kept_of_same (same_write_instruction _) v

theorem kept_define_label (name : token_t) : Preserves symbols_kept (define_label name) := by
  intro s
  unfold define_label
  simp only [bind_apply]
  apply holds_bind symbols_kept symbols_kept_trans
  · exact kept_get_symbol _ s
  · intro i t _
    simp only [bind_apply]
    cases hsym : t.symbols[i]? with
    | none => simp [M.bind, read_symbol, hsym, Res.holds]
    | some sym =>
      rw [M_bind_ok _ _ t t sym (read_symbol_apply t i sym hsym)]
      by_cases hdef : sym.line_number ≠ 0
      · rw [if_pos hdef]
        exact Preserves.mono symbols_kept_of_same (same_error 0) t
      · rw [if_neg hdef]
        have hundef : sym.line_number = 0 := by omega
        simp only [bind_apply, M.bind, get_apply]
        have hfix := same_fix_chain (t.pool.size + 1) sym.location t
        cases hr : fix_chain (t.pool.size + 1) sym.location t with
        | undef => trivial
        | exit u =>
          rw [hr] at hfix
          exact symbols_kept_of_same t u hfix
        | ok _ u =>
          rw [hr] at hfix
          have hfix' : u.symbols = t.symbols := hfix
          simp only
          cases hlc : location_counter u with
          | undef => trivial
          | exit v =>
            have := same_location_counter u
            rw [hlc] at this
            exact symbols_kept_trans _ _ _ (symbols_kept_of_same t u hfix)
              (symbols_kept_of_same u v this)
          | ok d v =>
            have hvu : v = u := by
              unfold location_counter at hlc
              split at hlc
              · exact absurd hlc (by simp)
              · cases hlc
                rfl
            subst hvu
            simp only
            have := kept_write_symbol_state v i sym
              { sym with line_number := v.line_number, location := d }
              (by rw [hfix']; exact hsym) hundef rfl
            cases hw : write_symbol i { sym with line_number := v.line_number, location := d } v with
            | undef => trivial
            | exit w =>
              rw [hw] at this
              exact symbols_kept_trans _ _ _ (symbols_kept_of_same t v hfix) this
            | ok _ w =>
              rw [hw] at this
              exact symbols_kept_trans _ _ _ (symbols_kept_of_same t v hfix) this

theorem kept_assemble_branch (op : opcode_t) : Preserves symbols_kept (assemble_branch op) := by
  unfold assemble_branch
  with_reducible repeat (first
    | exact kept_get_symbol _
    | exact kept_assemble_label _ _ _
    | exact kept_define_label _
    | exact Preserves.mono symbols_kept_of_same same_get
    | exact Preserves.mono symbols_kept_of_same same_next_token
    | exact Preserves.mono symbols_kept_of_same (same_peek _)
    | exact Preserves.mono symbols_kept_of_same (same_error _)
    | exact Preserves.mono symbols_kept_of_same same_fatal_error
    | exact Preserves.mono symbols_kept_of_same (same_match _)
    | exact Preserves.mono symbols_kept_of_same (same_expect_kind _)
    | exact Preserves.mono symbols_kept_of_same same_expect_register
    | exact Preserves.mono symbols_kept_of_same (same_modify _ (fun _ => rfl))
    | apply Preserves.pure symbols_kept_refl
    | apply Preserves.bind symbols_kept_trans
    | apply Preserves.ite
    | intro _)

theorem kept_assemble_jump_subroutine (op : opcode_t) : Preserves symbols_kept (assemble_jump_subroutine op) := by
  unfold assemble_jump_subroutine
  with_reducible repeat (first
    | exact kept_get_symbol _
    | exact kept_assemble_label _ _ _
    | exact kept_define_label _
    | exact Preserves.mono symbols_kept_of_same same_get
    | exact Preserves.mono symbols_kept_of_same same_next_token
    | exact Preserves.mono symbols_kept_of_same (same_peek _)
    | exact Preserves.mono symbols_kept_of_same (same_error _)
    | exact Preserves.mono symbols_kept_of_same same_fatal_error
    | exact Preserves.mono symbols_kept_of_same (same_match _)
    | exact Preserves.mono symbols_kept_of_same (same_expect_kind _)
    | exact Preserves.mono symbols_kept_of_same same_expect_register
    | exact Preserves.mono symbols_kept_of_same (same_modify _ (fun _ => rfl))
    | apply Preserves.pure symbols_kept_refl
    | apply Preserves.bind symbols_kept_trans
    | apply Preserves.ite
    | intro _)

theorem kept_assemble_load_store (op : opcode_t) : Preserves symbols_kept (assemble_load_store op) := by
  unfold assemble_load_store
  with_reducible repeat (first
    | exact kept_get_symbol _
    | exact kept_assemble_label _ _ _
    | exact kept_define_label _
    | exact Preserves.mono symbols_kept_of_same same_get
    | exact Preserves.mono symbols_kept_of_same same_next_token
    | exact Preserves.mono symbols_kept_of_same (same_peek _)
    | exact Preserves.mono symbols_kept_of_same (same_error _)
    | exact Preserves.mono symbols_kept_of_same same_fatal_error
    | exact Preserves.mono symbols_kept_of_same (same_match _)
    | exact Preserves.mono symbols_kept_of_same (same_expect_kind _)
    | exact Preserves.mono symbols_kept_of_same same_expect_register
    | exact Preserves.mono symbols_kept_of_same (same_modify _ (fun _ => rfl))
    | apply Preserves.pure symbols_kept_refl
    | apply Preserves.bind symbols_kept_trans
    | apply Preserves.ite
    | intro _)

theorem kept_run_encoder (orig : opcode_t → M Unit) (horig : ∀ op, Preserves symbols_kept (orig op))
    (op : opcode_t) : Preserves symbols_kept (run_encoder orig op) := by
  unfold run_encoder
  split
  · exact Preserves.mono symbols_kept_of_same (same_assemble_add_and op)
  · exact kept_assemble_branch op
  · exact Preserves.mono symbols_kept_of_same (same_assemble_jump op)
  · exact kept_assemble_jump_subroutine op
  · exact kept_assemble_load_store op
  · exact Preserves.mono symbols_kept_of_same (same_assemble_load_store_relative op)
  · exact Preserves.mono symbols_kept_of_same (same_assemble_not op)
  · exact Preserves.mono symbols_kept_of_same (same_assemble_trap op)
  · exact Preserves.mono symbols_kept_of_same (same_assemble_base_code op)
  · exact Preserves.mono symbols_kept_of_same (same_directive_end op)
  · exact Preserves.mono symbols_kept_of_same (same_directive_blkw op)
  · exact Preserves.mono symbols_kept_of_same (same_directive_fill op)
  · exact Preserves.mono symbols_kept_of_same (same_directive_stringz op)
  · exact horig op

theorem kept_abort {α : Type} : Preserves symbols_kept (abort : M α) :=
  fun s => symbols_kept_refl s

theorem kept_directive_orig_nested (op : opcode_t) :
    Preserves symbols_kept (directive_orig_nested op) := fun s => symbols_kept_refl s

theorem kept_directive_orig (op : opcode_t) : Preserves symbols_kept (directive_orig op) := by
  unfold directive_orig
  with_reducible repeat (first
    | exact kept_get_symbol _
    | exact kept_assemble_label _ _ _
    | exact kept_define_label _
    | exact kept_directive_orig_nested _
    | exact kept_abort
    | exact kept_run_encoder _ kept_directive_orig_nested _
    | exact Preserves.mono symbols_kept_of_same same_get
    | exact Preserves.mono symbols_kept_of_same same_next_token
    | exact Preserves.mono symbols_kept_of_same (same_peek _)
    | exact Preserves.mono symbols_kept_of_same (same_error _)
    | exact Preserves.mono symbols_kept_of_same same_fatal_error
    | exact Preserves.mono symbols_kept_of_same (same_match _)
    | exact Preserves.mono symbols_kept_of_same (same_expect_kind _)
    | exact Preserves.mono symbols_kept_of_same same_expect_register
    | exact Preserves.mono symbols_kept_of_same (same_modify _ (fun _ => rfl))
    | apply Preserves.pure symbols_kept_refl
    | apply Preserves.bind symbols_kept_trans
    | apply Preserves.ite
    | intro _)

theorem kept_dispatch (op : opcode_t) : Preserves symbols_kept (dispatch op) := by
  unfold dispatch
  with_reducible repeat (first
    | exact kept_get_symbol _
    | exact kept_assemble_label _ _ _
    | exact kept_define_label _
    | exact kept_directive_orig _
    | exact kept_run_encoder _ kept_directive_orig _
    | exact Preserves.mono symbols_kept_of_same same_get
    | exact Preserves.mono symbols_kept_of_same same_next_token
    | exact Preserves.mono symbols_kept_of_same (same_peek _)
    | exact Preserves.mono symbols_kept_of_same (same_error _)
    | exact Preserves.mono symbols_kept_of_same same_fatal_error
    | exact Preserves.mono symbols_kept_of_same (same_match _)
    | exact Preserves.mono symbols_kept_of_same (same_expect_kind _)
    | exact Preserves.mono symbols_kept_of_same same_expect_register
    | exact Preserves.mono symbols_kept_of_same (same_modify _ (fun _ => rfl))
    | apply Preserves.pure symbols_kept_refl
    | apply Preserves.bind symbols_kept_trans
    | apply Preserves.ite
    | intro _)

theorem kept_label_part (name : token_t) : Preserves symbols_kept (label_part name) := by
  unfold label_part
  with_reducible repeat (first
    | exact kept_get_symbol _
    | exact kept_assemble_label _ _ _
    | exact kept_define_label _
    | exact Preserves.mono symbols_kept_of_same same_get
    | exact Preserves.mono symbols_kept_of_same same_next_token
    | exact Preserves.mono symbols_kept_of_same (same_peek _)
    | exact Preserves.mono symbols_kept_of_same (same_error _)
    | exact Preserves.mono symbols_kept_of_same same_fatal_error
    | exact Preserves.mono symbols_kept_of_same (same_match _)
    | exact Preserves.mono symbols_kept_of_same (same_expect_kind _)
    | exact Preserves.mono symbols_kept_of_same same_expect_register
    | exact Preserves.mono symbols_kept_of_same (same_modify _ (fun _ => rfl))
    | apply Preserves.pure symbols_kept_refl
    | apply Preserves.bind symbols_kept_trans
    | apply Preserves.ite
    | intro _)

theorem kept_assemble_statement (name : token_t) :
    Preserves symbols_kept (assemble_statement name) := by
  unfold assemble_statement
  split
  · exact Preserves.mono symbols_kept_of_same (same_error _)
  · with_reducible repeat (first
      | exact kept_get_symbol _
      | exact kept_assemble_label _ _ _
      | exact kept_define_label _
      | exact kept_dispatch _
        | exact Preserves.mono symbols_kept_of_same same_get
      | exact Preserves.mono symbols_kept_of_same same_next_token
      | exact Preserves.mono symbols_kept_of_same (same_peek _)
      | exact Preserves.mono symbols_kept_of_same (same_error _)
      | exact Preserves.mono symbols_kept_of_same same_fatal_error
      | exact Preserves.mono symbols_kept_of_same (same_match _)
      | exact Preserves.mono symbols_kept_of_same (same_expect_kind _)
      | exact Preserves.mono symbols_kept_of_same same_expect_register
      | exact Preserves.mono symbols_kept_of_same (same_modify _ (fun _ => rfl))
      | apply Preserves.pure symbols_kept_refl
      | apply Preserves.bind symbols_kept_trans
      | apply Preserves.ite
      | intro _)

theorem kept_statement : Preserves symbols_kept statement := by
  unfold statement
  with_reducible repeat (first
    | exact kept_get_symbol _
    | exact kept_assemble_label _ _ _
    | exact kept_define_label _
    | exact kept_label_part _
    | exact kept_assemble_statement _
    | exact Preserves.mono symbols_kept_of_same same_get
    | exact Preserves.mono symbols_kept_of_same same_next_token
    | exact Preserves.mono symbols_kept_of_same (same_peek _)
    | exact Preserves.mono symbols_kept_of_same (same_error _)
    | exact Preserves.mono symbols_kept_of_same same_fatal_error
    | exact Preserves.mono symbols_kept_of_same (same_match _)
    | exact Preserves.mono symbols_kept_of_same (same_expect_kind _)
    | exact Preserves.mono symbols_kept_of_same same_expect_register
    | exact Preserves.mono symbols_kept_of_same (same_modify _ (fun _ => rfl))
    | apply Preserves.pure symbols_kept_refl
    | apply Preserves.bind symbols_kept_trans
    | apply Preserves.ite
    | intro _)

theorem kept_process_line (text : List Char) : Preserves symbols_kept (process_line text) := by
  unfold process_line
  with_reducible repeat (first
    | exact kept_get_symbol _
    | exact kept_assemble_label _ _ _
    | exact kept_define_label _
    | exact kept_statement
    | exact Preserves.mono symbols_kept_of_same same_get
    | exact Preserves.mono symbols_kept_of_same same_next_token
    | exact Preserves.mono symbols_kept_of_same (same_peek _)
    | exact Preserves.mono symbols_kept_of_same (same_error _)
    | exact Preserves.mono symbols_kept_of_same same_fatal_error
    | exact Preserves.mono symbols_kept_of_same (same_match _)
    | exact Preserves.mono symbols_kept_of_same (same_expect_kind _)
    | exact Preserves.mono symbols_kept_of_same same_expect_register
    | exact Preserves.mono symbols_kept_of_same (same_modify _ (fun _ => rfl))
    | apply Preserves.pure symbols_kept_refl
    | apply Preserves.bind symbols_kept_trans
    | apply Preserves.ite
    | intro _)

theorem kept_main_loop (lines : List (List Char)) : Preserves symbols_kept (main_loop lines) := by
  induction lines with
  | nil => exact Preserves.pure symbols_kept_refl ()
  | cons text rest ih =>
    unfold main_loop
    with_reducible repeat (first
      | exact ih
      | exact kept_process_line _
      | exact Preserves.mono symbols_kept_of_same same_get
      | apply Preserves.pure symbols_kept_refl
      | apply Preserves.bind symbols_kept_trans
      | apply Preserves.ite
      | intro _)

/-! ## C7: a label that is defined twice -/

theorem get_symbol_found (name : List Char) (s : Asm) (i : Nat)
    (h : get_symbol name s = Res.ok i s) :
    i = (names s.symbols).findIdx (fun n => n == name) ∧ i < s.symbols.length := by
  unfold get_symbol at h
  simp only at h
  split at h
  · rename_i hlt
    injection h with h1 _
    rw [← h1, findIdx_names]
    exact ⟨rfl, by rw [← findIdx_names]; exact hlt⟩
  · injection h with _ h2
    have := congrArg (fun t : Asm => t.symbols.length) h2
    simp at this

theorem get_symbol_kept (name : List Char) (s t : Asm) (i : Nat)
    (h : get_symbol name s = Res.ok i s) (hk : symbols_kept s t) :
    get_symbol name t = Res.ok i t := by
  obtain ⟨hi, hlt⟩ := get_symbol_found name s i h
  obtain ⟨⟨extra, hex⟩, _, _⟩ := hk
  have hlen : (names s.symbols).length = s.symbols.length := by simp [names]
  have hidx : (names t.symbols).findIdx (fun n => n == name) = i := by
    rw [hex, List.findIdx_append, ← hi, if_pos (by rw [hlen]; exact hlt)]
  have hlt' : i < t.symbols.length := by
    have : (names t.symbols).length = t.symbols.length := by simp [names]
    rw [← this, hex, List.length_append, hlen]
    omega
  unfold get_symbol
  simp only
  rw [findIdx_names, hidx, if_pos hlt']

/-- C7: for a label that is in the table and defined (at `sym.location`, in
line `sym.line_number`), the label definition of `main` returns with exactly
one more error and leaves everything else, the symbol table, the image and
the pool included, as it is.  The rest of the statement and all further lines
keep the symbol (`symbols_kept`), and in every state `t` that keeps it a
reference to the label finds the same symbol and emits the word with the
offset `sym.location - (a + 1)` for the location counter `a`. -/
theorem C7_redefinition (s : Asm) (name : token_t) (i : Nat) (sym : symbol_t)
    (hget : get_symbol name.text s = Res.ok i s) (hsym : s.symbols[i]? = some sym)
    (hdef : sym.line_number ≠ 0) :
    define_label name s = Res.ok () { s with error_count := s.error_count + 1 } ∧
    (∀ (mnemonic : token_t) (lines : List (List Char)),
      ((assemble_statement mnemonic >>= fun _ => main_loop lines)
        { s with error_count := s.error_count + 1 }).holds (symbols_kept s)) ∧
    (∀ (t : Asm) (base_code n a : Nat), symbols_kept s t →
      location_counter t = Res.ok a t → t.object.length ≤ 65536 →
      base_code < 65536 → n = 9 ∨ n = 11 →
      ∃ t', (get_symbol name.text >>= fun symbol => assemble_label symbol base_code n) t
          = Res.ok () t' ∧
        t'.symbols[i]? = some sym ∧
        t'.object = t.object ++
          [base_code ||| (((sym.location : Int) - ((a : Int) + 1)) % 2 ^ n).toNat]) := by
  refine ⟨?_, ?_, ?_⟩
  · simp only [define_label, bind_apply, M.bind, hget, read_symbol_apply s i sym hsym,
      if_pos hdef, error_zero_apply]
  · intro mnemonic lines
    have h := Preserves.bind symbols_kept_trans (kept_assemble_statement mnemonic)
      (fun _ => kept_main_loop lines) { s with error_count := s.error_count + 1 }
    cases hr : (assemble_statement mnemonic >>= fun _ => main_loop lines)
        { s with error_count := s.error_count + 1 } with
    | ok a t => rw [hr] at h; exact h
    | exit t => rw [hr] at h; exact h
    | undef => trivial
  · intro t base_code n a hk ha hcap hbase hn
    have hg := get_symbol_kept name.text s t i hget hk
    have hs : t.symbols[i]? = some sym := hk.2.1 i sym hsym hdef
    have hl := assemble_label_defined t a i sym base_code n ha hcap hs hdef
    have hrun : (get_symbol name.text >>= fun symbol => assemble_label symbol base_code n) t
        = assemble_label i base_code n t := by
      simp only [bind_apply, M.bind, hg]
    rw [hrun, hl]
    refine ⟨_, rfl, hs, ?_⟩
    simp only [int_and_mask _ n hn, or_field_mod base_code _ n hbase hn]

/-- C7 (witness): a second definition of `X` behind `X: HALT`. -/
theorem C7_redefinition_witness :
    define_label ⟨TOKEN_NAME, "X".toList, 16⟩ defined_state
      = Res.ok () { defined_state with error_count := defined_state.error_count + 1 } :=
  (C7_redefinition defined_state ⟨TOKEN_NAME, "X".toList, 16⟩ 0 ⟨"X".toList, 2, 0x3000⟩
    (by decide!) (by decide!) (by decide!)).1

/-! ## C8: the sweep over the symbol table -/

theorem sweep_apply (symbols : List symbol_t) (s : Asm) :
    sweep symbols s = Res.ok ()
      { s with error_count := s.error_count +
          (symbols.filter (fun symbol => symbol.line_number = 0)).length } := by
  induction symbols generalizing s with
  | nil => rfl
  | cons x xs ih =>
    simp only [sweep]
    by_cases h : x.line_number = 0
    · rw [if_pos h]
      simp only [bind_apply, M.bind, error_zero_apply, ih]
      have hf : ((x :: xs).filter (fun symbol => decide (symbol.line_number = 0))).length
          = (xs.filter (fun symbol => decide (symbol.line_number = 0))).length + 1 := by
        simp [List.filter_cons, h]
      rw [hf, Nat.add_assoc, Nat.add_comm 1]
    · rw [if_neg h]
      simp only [bind_apply, M.bind, pure_apply, ih]
      have hf : ((x :: xs).filter (fun symbol => decide (symbol.line_number = 0)))
          = (xs.filter (fun symbol => decide (symbol.line_number = 0))) := by
        simp [List.filter_cons, h]
      rw [hf]

/-- C8: when the loop of `main` over a source returns, the names of the symbol
table are pairwise distinct and the sweep records one error for each symbol
that is undefined and none for the others; a run that ends with a non-zero
error count writes no object file and has the status `EXIT_FAILURE`; and the
program `.ORIG $3000`, `BR UNDEFINED` ends its loop without an error and with
the one undefined symbol `UNDEFINED`, and the run with one error and no
object file; three references to one undefined symbol beside a defined one
give one error as well. -/
theorem C8_sweep :
    (∀ (lines : List (List Char)) (s : Asm), main_loop lines Asm.init = Res.ok () s →
      (names s.symbols).Nodup ∧
      sweep s.symbols s = Res.ok ()
        { s with error_count := s.error_count +
            (s.symbols.filter (fun symbol => symbol.line_number = 0)).length }) ∧
    (∀ (lines : List (List Char)) (o : outcome), main lines = some o → o.error_count ≠ 0 →
      o.object_file = none ∧ o.status = EXIT_FAILURE) ∧
    (main_loop (getlines ".ORIG $3000\nBR UNDEFINED\n".toList) Asm.init).returned.map
        (fun s => (s.error_count, s.symbols)) = some (0, [⟨"UNDEFINED".toList, 0, 1⟩]) ∧
    assemble ".ORIG $3000\nBR UNDEFINED\n" = some ⟨EXIT_FAILURE, 1, none⟩ ∧
    assemble ".ORIG $3000\nBR U\nJSR U\nLD R1,U\nD: BR D\n" = some ⟨EXIT_FAILURE, 1, none⟩ := by
  refine ⟨?_, ?_, by decide!, by decide!, by decide!⟩
  · intro lines s h
    have hk := kept_main_loop lines Asm.init
    rw [h] at hk
    exact ⟨hk.2.2 (by simp [names, Asm.init]), sweep_apply s.symbols s⟩
  · intro lines o h hne
    unfold main at h
    split at h
    · exact absurd h (by simp)
    · cases h
      exact ⟨rfl, rfl⟩
    · split at h
      · cases h
        exact ⟨rfl, rfl⟩
      · rename_i hz
        cases h
        exact absurd hne hz

/-- C8 (witness): the sweep behind `.ORIG $3000`, `BR UNDEFINED`. -/
theorem C8_sweep_witness :
    (names (undefined_state).symbols).Nodup ∧
    sweep undefined_state.symbols undefined_state = Res.ok ()
      { undefined_state with error_count := undefined_state.error_count +
          (undefined_state.symbols.filter (fun symbol => symbol.line_number = 0)).length } :=
  C8_sweep.1 [".ORIG $3000".toList, "BR UNDEFINED".toList] undefined_state (by decide!)

/-! ## C11: a first statement that is not `.ORIG` -/

/-- C11 (as stated, refuted): with `HALT $3000` as the first statement the
run is not terminated: one recoverable error is recorded, the encoder of
`HALT` emits its word `0xF025`, the operand is read as the load address and
the second line is assembled.  With `HALT` alone the process is terminated in
line 1, by `expect(TOKEN_INTEGER)`, and the word `0xF025` is in the image. -/
theorem C11_as_stated_fails :
    assemble "HALT $3000\nHALT\n" = some ⟨EXIT_FAILURE, 1, none⟩ ∧
    ((run (getlines "HALT $3000\nHALT\n".toList)).returned.map
        (fun s => (s.line_number, s.error_count, s.object)))
      = some (2, 1, [0x3000, 0xF025, 0xF025]) ∧
    ((run (getlines "HALT\nHALT\n".toList)).exited.map
        (fun s => (s.line_number, s.error_count, s.object)))
      = some (1, 2, [0, 0xF025]) := by
  decide!

/-! ## C12: the capacity of the image -/

/-- C12 (code at the failing input): behind `.ORIG $FFFF` and one word the
location counter is at its last value; the second `HALT` is appended by
`write_instruction` without an error, the load address and the two words
written make 65537, the location counter has wrapped to `1`, and the object
file is written.  `write_instruction` tests the number of entries of the
image alone: it appends whenever the image has at most 65536 entries,
whatever the load address, and leaves up to 65537 entries. -/
theorem C12_location_counter_wraps :
    assemble ".ORIG $FFFF\nHALT\nHALT\n"
      = some ⟨EXIT_SUCCESS, 0, some [0xFF, 0xFF, 0xF0, 0x25, 0xF0, 0x25]⟩ ∧
    ((run (getlines ".ORIG $FFFF\nHALT\nHALT\n".toList)).returned.map
        (fun s => (s.error_count, s.object, (location_counter s).value)))
      = some (0, [0xFFFF, 0xF025, 0xF025], some 1) ∧
    (∀ (s : Asm) (x : Nat), s.object.length ≤ 65536 →
      write_instruction x s = Res.ok () { s with object := s.object ++ [x] }) := by
  refine ⟨by decide!, by decide!, ?_⟩
  intro s x h
  exact write_instruction_ok x s h

theorem C12_location_counter_wraps_witness :
    write_instruction 0xF025 wrap_state
      = Res.ok () { wrap_state with object := wrap_state.object ++ [0xF025] } :=
  C12_location_counter_wraps.2.2 wrap_state 0xF025 (by decide)

/-! ## C13: `.BLKW` -/

theorem write_zeros_ok (n : Nat) (s : Asm) (h : s.object.length + n ≤ 65537) :
    write_zeros n s = Res.ok () { s with object := s.object ++ List.replicate n 0 } := by
  induction n generalizing s with
  | zero => simp [write_zeros]
  | succ n ih =>
    simp only [write_zeros, bind_apply, M.bind]
    rw [write_instruction_ok 0 s (by omega)]
    simp only
    rw [ih _ (by simp only [List.length_append, List.length_singleton]; omega)]
    simp [List.replicate_succ]

/-- C13: for `.BLKW` with an integer token operand whose digits are
representable in 16 bits, `n` the 16-bit value of the operand, in a state
whose location counter `lc = load + words` has not wrapped and with a rest of
the line whose next token lexes without a fatal error: if `n <= 65536 - lc`,
`directive_blkw` returns with exactly `n` zero words appended to the image,
which is otherwise unchanged, so that the load address and the number of
words make `lc + n`, and `location_counter` returns that number as a 16-bit
value (`lc + n` itself below 65536, `0` for `lc + n = 65536`); if
`n > 65536 - lc` it raises a fatal error and the image is unchanged. -/
theorem C13_directive_blkw (s : Asm) (op : opcode_t) (marker : Char) (negative : Bool)
    (ds : List Char) (base load : Nat) (ws : List Nat) (hbase : base = 10 ∨ base = 16)
    (hds : ds ≠ []) (hdig : digits_of base ds = true)
    (htok : s.token = ⟨TOKEN_INTEGER, marker :: (sign_text negative ++ ds), base⟩)
    (hlex : (lex base s.line_cursor 0).fatal = false)
    (hobj : s.object = load :: ws) (hnowrap : load + ws.length < 65536)
    (hrep : digits_value base ds 0 ≤ 65535) :
    (to_u16 (token_value base negative ds) ≤ 65536 - (load + ws.length) →
      directive_blkw op s = Res.ok ()
        { after_token s with
          object := s.object ++ List.replicate (to_u16 (token_value base negative ds)) 0 } ∧
      (location_counter
        { after_token s with
          object := s.object ++ List.replicate (to_u16 (token_value base negative ds)) 0 }).value
        = some ((load + ws.length + to_u16 (token_value base negative ds)) % 65536)) ∧
    (65536 - (load + ws.length) < to_u16 (token_value base negative ds) →
      directive_blkw op s = Res.exit
        { after_token s with error_count := (after_token s).error_count + 1 }) := by
  have hb0 : 0 < base := by omega
  have hb1 : base ≤ 65536 := by omega
  have hk : s.token.kind = TOKEN_INTEGER := by rw [htok]
  have hbs : s.token.base = base := by rw [htok]
  have hlex' : (lex s.token.base s.line_cursor 0).fatal = false := by rw [hbs]; exact hlex
  have hexp := expect_kind_ok s TOKEN_INTEGER hk hlex'
  have hparse := parse_integer_u16_token base negative ds hds hdig
  have hnn := (parse_integer_nonnegative_u16 base hb0 hb1 ds hdig 0 (by omega)).1
    (by simpa using hrep)
  simp only [Nat.cast_zero] at hnn
  have htxt : s.token.text.drop 1 = sign_text negative ++ ds := by rw [htok]; rfl
  have hpair : parse_integer u16 (sign_text negative ++ ds) 0 base
      = ([], ((to_u16 (token_value base negative ds) : Nat) : Int)) := by
    rw [hparse, hnn]
    cases negative with
    | true =>
      simp only [if_true, token_value, to_u16]
      congr 1
      omega
    | false =>
      simp only [Bool.false_eq_true, if_false, token_value, to_u16]
      congr 1
      omega
  have hlc : location_counter (after_token s) = Res.ok (load + ws.length) (after_token s) := by
    have hobj' : (after_token s).object = load :: ws := hobj
    rw [location_counter_apply _ load ws hobj']
    have : (load + ws.length % 65536) % 65536 = load + ws.length := by omega
    rw [this]
  have hrun : directive_blkw op s =
      (if (65536 : Int) - ((load + ws.length : Nat) : Int)
          < ((to_u16 (token_value base negative ds) : Nat) : Int) then
        Res.exit { after_token s with error_count := (after_token s).error_count + 1 }
      else write_zeros (to_u16 (token_value base negative ds)) (after_token s)) := by
    simp only [directive_blkw, bind_apply, M.bind, hexp, htxt, hbs, hpair, ne_eq,
      not_true_eq_false, if_false, pure_apply, hlc, Int.toNat_ofNat]
    split
    · rfl
    · rfl
  rw [hrun]
  constructor
  · intro hle
    rw [if_neg (by omega)]
    have hlen : (after_token s).object.length + to_u16 (token_value base negative ds) ≤ 65537 := by
      have : (after_token s).object.length = ws.length + 1 := by
        show s.object.length = _
        rw [hobj]
        rfl
      omega
    rw [write_zeros_ok _ _ hlen]
    refine ⟨rfl, ?_⟩
    rw [location_counter_apply _ load (ws ++ List.replicate (to_u16 (token_value base negative ds)) 0)
      (by simp only [hobj, List.cons_append])]
    simp only [Res.value, List.length_append, List.length_replicate, Option.some.injEq]
    omega
  · intro hgt
    rw [if_pos (by omega)]

/-- C13 (witness): `.BLKW #3` at `0x3001`. -/
theorem C13_directive_blkw_witness :
    directive_blkw ⟨".BLKW".toList, 0, encoder.directive_blkw⟩ blkw_state
      = Res.ok () { after_token blkw_state with object := [0x3000, 0xF025, 0, 0, 0] } ∧
    (location_counter
      { after_token blkw_state with object := [0x3000, 0xF025, 0, 0, 0] }).value
      = some 0x3004 :=
  (C13_directive_blkw blkw_state ⟨".BLKW".toList, 0, encoder.directive_blkw⟩ '#' false
    "3".toList 10 0x3000 [0xF025] (Or.inl rfl) (by decide!) (by decide!) (by decide!)
    (by decide!) rfl (by decide!) (by decide!)).1 (by decide!)

/-! ## C14: `.STRINGZ` -/

/-- C14 (code at the failing input): for the string token `""`, whose body
is empty, in a state behind `.ORIG` with room in the image, `directive_stringz`
does not append the zero word alone: the first `write_instruction(*f++)` is
not guarded and appends the closing quote `0x22`, and the loop `while (f != l)`
then starts behind `l` and leaves the token. -/
theorem C14_empty_string (s : Asm) (op : opcode_t) (base load : Nat) (ws : List Nat)
    (htok : s.token = ⟨TOKEN_STRING, ['"', '"'], base⟩)
    (hlex : (lex base s.line_cursor 0).fatal = false)
    (hobj : s.object = load :: ws) (hroom : ws.length < 65536) :
    directive_stringz op s = (write_instruction 0x22 >>= fun _ => undef) (after_token s) ∧
    write_instruction 0x22 (after_token s)
      = Res.ok () { after_token s with object := s.object ++ [0x22] } ∧
    directive_stringz op s ≠ Res.ok () { after_token s with object := s.object ++ [0] } := by
  have hk : s.token.kind = TOKEN_STRING := by rw [htok]
  have hbs : s.token.base = base := by rw [htok]
  have hlex2 : (lex s.token.base s.line_cursor 0).fatal = false := by rw [hbs]; exact hlex
  have hexp := expect_kind_ok s TOKEN_STRING hk hlex2
  have hobj2 : (after_token s).object = load :: ws := hobj
  have hlc := location_counter_apply (after_token s) load ws hobj2
  have hlen : (after_token s).object.length ≤ 65536 := by
    rw [hobj2]
    simp only [List.length_cons]
    omega
  have hw := write_instruction_ok 0x22 (after_token s) hlen
  have hrun : directive_stringz op s =
      (write_instruction 0x22 >>= fun _ => undef) (after_token s) := by
    have hlt : ¬ ((65536 : Int) - (((load + ws.length % 65536) % 65536 : Nat) : Int) < 0 + 1) := by
      omega
    simp only [directive_stringz, bind_apply, M.bind, hexp, htok, List.drop_succ_cons,
      List.drop_zero, List.dropLast_single, hlc, List.length_nil, Nat.cast_zero, hlt, if_false,
      pure_apply, List.headD_cons]
    rfl
  refine ⟨hrun, hw, ?_⟩
  rw [hrun]
  simp only [bind_apply, M.bind, hw, undef]
  exact fun h => by cases h

theorem C14_empty_string_witness :
    directive_stringz ⟨".STRINGZ".toList, 0, encoder.directive_stringz⟩ stringz_state
      ≠ Res.ok () { after_token stringz_state with object := stringz_state.object ++ [0] } :=
  (C14_empty_string stringz_state ⟨".STRINGZ".toList, 0, encoder.directive_stringz⟩ 0 0x3000 []
    rfl (by decide!) rfl (by decide)).2.2

/-! ## C15: the object file -/

theorem store_big_endian_two (x : Nat) (h : x < 65536) :
    store_big_endian 2 x = [x >>> 8, x &&& 0xFF] := by
  have h1 : (x >>> 8) &&& 255 = x >>> 8 := by
    have := Nat.and_pow_two_sub_one_eq_mod (x >>> 8) 8
    simp only [Nat.reducePow, Nat.add_one_sub_one] at this
    rw [this, Nat.shiftRight_eq_div_pow]
    apply Nat.mod_eq_of_lt
    norm_num
    omega
  simp [store_big_endian, List.range, List.range.loop, h1]

theorem flatMap_store_getElem (image : List Nat) (h : ∀ w ∈ image, w < 65536) (i : Nat)
    (w : Nat) (hw : image[i]? = some w) :
    (image.flatMap (store_big_endian 2))[2 * i]? = some (w >>> 8) ∧
    (image.flatMap (store_big_endian 2))[2 * i + 1]? = some (w &&& 0xFF) := by
  induction image generalizing i with
  | nil => simp at hw
  | cons x xs ih =>
    have hx := store_big_endian_two x (h x (List.mem_cons_self x xs))
    simp only [List.flatMap_cons, hx, List.cons_append, List.nil_append]
    cases i with
    | zero =>
      simp only [List.getElem?_cons_zero, Option.some.injEq] at hw
      subst hw
      simp
    | succ j =>
      simp only [List.getElem?_cons_succ] at hw
      have := ih (fun v hv => h v (List.mem_cons_of_mem x hv)) j hw
      have e1 : 2 * (j + 1) = (2 * j) + 1 + 1 := by omega
      have e2 : 2 * (j + 1) + 1 = (2 * j + 1) + 1 + 1 := by omega
      rw [e2, e1]
      simpa using this

theorem flatMap_store_length (image : List Nat) :
    (image.flatMap (store_big_endian 2)).length = 2 * image.length := by
  induction image with
  | nil => rfl
  | cons x xs ih =>
    simp only [List.flatMap_cons, List.length_append, ih, List.length_cons]
    simp [store_big_endian]
    omega

/-- C15: the byte stream `main` writes is the image of the final state,
word by word; for an image of 16-bit words `w0 .. wk` it has `2 (k + 1)` bytes,
and its bytes `2 i` and `2 i + 1` are `wi >> 8` and `wi & 0xFF`: big-endian,
the load address first, nothing before or between the words. -/
theorem C15_serialization :
    (∀ (lines : List (List Char)) (o : outcome) (bytes : List Nat),
      main lines = some o → o.object_file = some bytes →
      ∃ s, run lines = Res.ok () s ∧ bytes = s.object.flatMap (store_big_endian 2)) ∧
    (∀ (image : List Nat), (∀ w ∈ image, w < 65536) →
      (image.flatMap (store_big_endian 2)).length = 2 * image.length ∧
      ∀ (i w : Nat), image[i]? = some w →
        (image.flatMap (store_big_endian 2))[2 * i]? = some (w >>> 8) ∧
        (image.flatMap (store_big_endian 2))[2 * i + 1]? = some (w &&& 0xFF)) := by
  constructor
  · intro lines o bytes hmain hbytes
    unfold main at hmain
    split at hmain
    · exact absurd hmain (by simp)
    · cases hmain
      exact absurd hbytes (by simp)
    · rename_i u s hrun
      split at hmain
      · cases hmain
        exact absurd hbytes (by simp)
      · cases hmain
        simp only [Option.some.injEq] at hbytes
        exact ⟨s, hrun, hbytes.symm⟩
  · intro image h
    exact ⟨flatMap_store_length image, fun i w hw => flatMap_store_getElem image h i w hw⟩

/-- C15 (witness): the bytes of the image `[0x3000, 0xF025]`. -/
theorem C15_serialization_witness :
    ([0x3000, 0xF025].flatMap (store_big_endian 2)).length = 2 * [0x3000, 0xF025].length ∧
    ∀ (i w : Nat), [0x3000, 0xF025][i]? = some w →
      ([0x3000, 0xF025].flatMap (store_big_endian 2))[2 * i]? = some (w >>> 8) ∧
      ([0x3000, 0xF025].flatMap (store_big_endian 2))[2 * i + 1]? = some (w &&& 0xFF) :=
  C15_serialization.2 [0x3000, 0xF025] (by decide)

/-! ## The allocator: single calls -/

theorem set_last {α : Type} (l : List α) (a b : α) : (l ++ [a]).set l.length b = l ++ [b] := by
  induction l with
  | nil => rfl
  | cons x l ih => simp [ih]

theorem set_same {α : Type} (l : List α) (i : Nat) (a : α) (h : l[i]? = some a) :
    l.set i a = l := by
  apply List.ext_getElem?
  intro j
  by_cases hj : i = j
  · subst hj
    rw [h]
    have hlt : i < l.length := by
      by_contra hge
      rw [List.getElem?_eq_none (by omega)] at h
      exact absurd h (by simp)
    simp [hlt]
  · rw [List.getElem?_set_ne hj]

namespace list_pool

theorem index_lt (x : Nat) : index x < 65536 := by
  unfold index to_u16
  omega

theorem index_new (n : Nat) : index ((n + 1) % 65536) = n % 65536 := by
  unfold index to_u16
  omega

theorem node_lt (p : list_pool) (x : Nat) (nd : node_t) (h : p.node x = some nd) :
    index x < p._pool.length := by
  unfold node at h
  by_contra hge
  rw [List.getElem?_eq_none (by omega)] at h
  exact absurd h (by simp)

theorem set_node_pool (p q : list_pool) (x : Nat) (n : node_t) (h : p.set_node x n = some q) :
    q._pool = p._pool.set (index x) n ∧ q._free_list = p._free_list := by
  unfold set_node at h
  split at h
  · cases h
    exact ⟨rfl, rfl⟩
  · exact absurd h (by simp)

/-- The call `allocate` with a free list that is not empty. -/
theorem allocate_reuse (p : list_pool) (val tail : Nat) (nd : node_t)
    (hne : is_end p._free_list = false) (hnode : p.node p._free_list = some nd) :
    ∃ q, p.allocate val tail = some (p._free_list, q) ∧ q._free_list = nd.next ∧
      q._pool = p._pool.set (index p._free_list) ⟨val, tail⟩ := by
  have hlt := node_lt p _ nd hnode
  refine ⟨⟨p._pool.set (index p._free_list) ⟨val, tail⟩, nd.next⟩, ?_, rfl, rfl⟩
  simp [allocate, hne, next, hnode, set_node, hlt]

/-- The call `allocate` with an empty free list. -/
theorem allocate_grow (p : list_pool) (val tail : Nat) (he : is_end p._free_list = true) :
    ∃ q, p.allocate val tail = some ((p.size + 1) % 65536, q) ∧ q._free_list = p._free_list ∧
      q._pool = (p._pool ++ [node_t.mk 0 0]).set (p.size % 65536) ⟨val, tail⟩ := by
  have hidx : index ((p._pool.length + 1) % 65536) = p._pool.length % 65536 := index_new _
  have hlt : p._pool.length % 65536 < p._pool.length + 1 := by
    have := Nat.mod_le p._pool.length 65536
    omega
  refine ⟨⟨(p._pool ++ [node_t.mk 0 0]).set (p.size % 65536) ⟨val, tail⟩, p._free_list⟩, ?_, rfl, rfl⟩
  simp [allocate, he, new_list, set_node, hidx, hlt, size]

theorem allocate_grow_size (p q : list_pool) (val tail : Nat)
    (hp : q._pool = (p._pool ++ [node_t.mk 0 0]).set (p.size % 65536) ⟨val, tail⟩) :
    q.size = p.size + 1 := by
  simp only [size, hp, List.length_set, List.length_append, List.length_singleton]

theorem pushed_size (k : Nat) : (pushed k).size = k := by
  simp [pushed, size]

end list_pool

namespace list_pool

theorem pushed_step (k : Nat) (hk : k + 1 ≤ 65535) :
    (pushed k).allocate 0 k = some (k + 1, pushed (k + 1)) := by
  obtain ⟨q, hq, hf, hp⟩ := allocate_grow (pushed k) 0 k rfl
  rw [pushed_size] at hq hp
  rw [hq, Nat.mod_eq_of_lt (by omega)]
  have hq2 : q = pushed (k + 1) := by
    cases q with
    | mk pool fl =>
      simp only at hf hp
      subst hf hp
      simp only [pushed, mk.injEq, and_true]
      rw [Nat.mod_eq_of_lt (by omega), List.range_succ, List.map_append]
      have := set_last (List.map (fun i => node_t.mk 0 i) (List.range k)) ⟨0, 0⟩ ⟨0, k⟩
      simp only [List.length_map, List.length_range] at this
      rw [this]
      rfl
  rw [hq2]

/-- The pool after `k` pushes on one chain, for at most 65535 of them. -/
theorem push_many_succ (k : Nat) (r : Nat × list_pool) :
    push_many (k + 1) r = (push_many k r).bind (fun q => q.2.allocate 0 q.1) := rfl

theorem push_many_eq (k : Nat) (hk : k ≤ 65535) :
    push_many k (0, empty) = some (k, pushed k) := by
  induction k with
  | zero => rfl
  | succ k ih =>
    simp only [push_many, ih (by omega), Option.some_bind]
    exact pushed_step k hk

end list_pool

/-! ## C17: the result of `allocate` and the empty sentinel -/

/-- C17, as stated: the 65536th of a sequence of `allocate` calls on the
empty pool of the assembler returns the empty sentinel `0`. -/
theorem C17_allocate_returns_end :
    (list_pool.push_many 65536 (0, list_pool.empty)).map (fun r => (r.1, list_pool.is_end r.1)) =
      some (0, true) := by
  obtain ⟨q, hq, -, -⟩ := list_pool.allocate_grow (list_pool.pushed 65535) 0 65535 rfl
  rw [list_pool.pushed_size] at hq
  rw [show (65536 : Nat) = 65535 + 1 from rfl, list_pool.push_many_succ,
    list_pool.push_many_eq 65535 (le_refl _), Option.some_bind, hq]
  rfl

/-- C17, amended: in every pool state, a call of `allocate` that leaves at
most 65535 nodes in the pool does not return the empty sentinel. -/
theorem C17_allocate_not_end (p q : list_pool) (val tail head : Nat)
    (h : p.allocate val tail = some (head, q)) (hsize : q.size ≤ 65535) :
    list_pool.is_end head = false := by
  cases he : list_pool.is_end p._free_list with
  | true =>
    obtain ⟨r, hr, -, hp⟩ := list_pool.allocate_grow p val tail he
    rw [hr] at h
    simp only [Option.some.injEq, Prod.mk.injEq] at h
    obtain ⟨h1, h2⟩ := h
    subst h2
    have hlen : r.size = p.size + 1 := by simp [list_pool.size, hp]
    rw [← h1]
    simp only [list_pool.is_end, list_pool.«end», beq_eq_false_iff_ne, ne_eq]
    omega
  | false =>
    unfold list_pool.allocate at h
    rw [he] at h
    simp only [Bool.false_eq_true, if_false] at h
    split at h
    · exact absurd h (by simp)
    · simp only [Option.map_eq_some', Prod.mk.injEq] at h
      obtain ⟨_, -, h1, -⟩ := h
      rw [← h1]
      exact he

theorem C17_allocate_not_end_witness :
    list_pool.is_end 1 = false :=
  C17_allocate_not_end list_pool.empty ⟨[⟨7, 0⟩], 0⟩ 7 0 1 (by decide!) (by decide!)

/-! ## C18: the effect of `allocate` -/

/-- C18, as stated: with 65535 nodes in the pool and an empty free list the
result of `allocate` is `0`, not the new size 65536. -/
theorem C18_result_is_not_size :
    ((list_pool.pushed 65535).allocate 7 0).map (fun r => (r.1, r.2.size)) = some (0, 65536) := by
  obtain ⟨q, hq, -, hp⟩ := list_pool.allocate_grow (list_pool.pushed 65535) 7 0 rfl
  have hsz := list_pool.allocate_grow_size _ q 7 0 hp
  rw [list_pool.pushed_size] at hq hsz
  rw [hq, Option.map_some', hsz]

/-- C18, amended: with a free list that is not empty `allocate` returns its
head, the free list advances to the successor of that node and the size is
unchanged; with an empty free list the size grows by one and the result is
the new size as a 16-bit index, which is the new size while that is at most
65535. In both cases the node of the result holds `val` and `tail`
afterwards, and the node of every index that addresses another element of
the vector is unchanged. -/
theorem C18_allocate (p : list_pool) (val tail : Nat) :
    (list_pool.is_end p._free_list = false →
      ∀ nd, p.node p._free_list = some nd →
        ∃ q, p.allocate val tail = some (p._free_list, q) ∧ q._free_list = nd.next ∧
          q.size = p.size ∧ q.value p._free_list = some val ∧ q.next p._free_list = some tail ∧
          ∀ y, list_pool.index y ≠ list_pool.index p._free_list → q.node y = p.node y) ∧
    (list_pool.is_end p._free_list = true →
      ∃ q, p.allocate val tail = some ((p.size + 1) % 65536, q) ∧
        (p.size + 1 ≤ 65535 → (p.size + 1) % 65536 = q.size) ∧
        q._free_list = p._free_list ∧ q.size = p.size + 1 ∧
        q.value ((p.size + 1) % 65536) = some val ∧ q.next ((p.size + 1) % 65536) = some tail ∧
        ∀ y, list_pool.index y ≠ list_pool.index ((p.size + 1) % 65536) →
          q.node y = p.node y) := by
  constructor
  · intro hne nd hnode
    obtain ⟨q, hq, hf, hp⟩ := list_pool.allocate_reuse p val tail nd hne hnode
    have hlt := list_pool.node_lt p _ nd hnode
    refine ⟨q, hq, hf, by simp [list_pool.size, hp], ?_, ?_, ?_⟩
    · simp [list_pool.value, list_pool.node, hp, hlt]
    · simp [list_pool.next, list_pool.node, hp, hlt]
    · intro y hy
      simp only [list_pool.node, hp]
      rw [List.getElem?_set_ne (Ne.symm hy)]
  · intro he
    obtain ⟨q, hq, hf, hp⟩ := list_pool.allocate_grow p val tail he
    have hlt : p._pool.length % 65536 < p._pool.length + 1 := by
      have := Nat.mod_le p._pool.length 65536
      omega
    have hsz : q.size = p.size + 1 := by simp [list_pool.size, hp]
    have hidx := list_pool.index_new p.size
    refine ⟨q, hq, ?_, hf, hsz, ?_, ?_, ?_⟩
    · intro hle
      rw [hsz]
      omega
    · simp [list_pool.value, list_pool.node, hp, list_pool.index_new, list_pool.size, hlt]
    · simp [list_pool.next, list_pool.node, hp, list_pool.index_new, list_pool.size, hlt]
    · intro y hy
      rw [hidx] at hy
      simp only [list_pool.node, hp]
      rw [List.getElem?_set_ne (Ne.symm hy)]
      have hy2 := list_pool.index_lt y
      unfold list_pool.size at hy
      by_cases hlen : list_pool.index y < p._pool.length
      · rw [List.getElem?_append_left hlen]
      · have hmod := Nat.mod_eq_of_lt (show p._pool.length < 65536 by omega)
        rw [List.getElem?_eq_none (by simp; omega), List.getElem?_eq_none (by omega)]

theorem C18_allocate_witness :
    ∃ q, list_pool.empty.allocate 7 0 = some ((list_pool.empty.size + 1) % 65536, q) ∧
      q.size = list_pool.empty.size + 1 ∧ q.value ((list_pool.empty.size + 1) % 65536) = some 7 :=
  ((C18_allocate list_pool.empty 7 0).2 rfl).imp (fun _ h => ⟨h.1, h.2.2.2.1, h.2.2.2.2.1⟩)

/-! ## C19: `free` -/

/-- C19: `free` applied to the result of `allocate(v, t)` returns `t`; and
`free` applied to a node `x` other than the sentinel returns the successor
`x` had, leaves the size and every stored value as they were, and the next
call of `allocate` returns `x`. -/
theorem C19_free (p : list_pool) :
    (∀ v t head q, p.allocate v t = some (head, q) →
      ∃ r, q.free head = some (t, r)) ∧
    (∀ x nd, list_pool.is_end x = false → p.node x = some nd →
      ∃ q, p.free x = some (nd.next, q) ∧ q.size = p.size ∧
        q._pool.map (fun n => n.value) = p._pool.map (fun n => n.value) ∧
        ∀ v t, ∃ r, q.allocate v t = some (x, r)) := by
  constructor
  · intro v t head q h
    have hnode : q.node head = some ⟨v, t⟩ := by
      cases he : list_pool.is_end p._free_list with
      | true =>
        obtain ⟨r, hr, -, hp⟩ := list_pool.allocate_grow p v t he
        rw [hr] at h
        simp only [Option.some.injEq, Prod.mk.injEq] at h
        obtain ⟨h1, h2⟩ := h
        subst h2 h1
        have hlt : p._pool.length % 65536 < p._pool.length + 1 := by
          have := Nat.mod_le p._pool.length 65536
          omega
        simp [list_pool.node, hp, list_pool.index_new, list_pool.size, hlt]
      | false =>
        cases hn : p.node p._free_list with
        | none => simp [list_pool.allocate, he, list_pool.next, hn] at h
        | some nd =>
          obtain ⟨r, hr, -, hp⟩ := list_pool.allocate_reuse p v t nd he hn
          have hlt := list_pool.node_lt p _ nd hn
          rw [hr] at h
          simp only [Option.some.injEq, Prod.mk.injEq] at h
          obtain ⟨h1, h2⟩ := h
          subst h2 h1
          simp [list_pool.node, hp, hlt]
    obtain ⟨r, hr, -⟩ := list_pool.free_of_node q head ⟨v, t⟩ hnode
    exact ⟨r, hr⟩
  · intro x nd hx hnode
    obtain ⟨r, hr⟩ := list_pool.set_node_of_node p x nd ⟨nd.value, p._free_list⟩ hnode
    obtain ⟨hp, hf⟩ := list_pool.set_node_pool p r x _ hr
    have hlt := list_pool.node_lt p x nd hnode
    have hfree : p.free x = some (nd.next, { r with _free_list := x }) := by
      simp [list_pool.free, hnode, hr]
    refine ⟨{ r with _free_list := x }, hfree, by simp [list_pool.size, hp], ?_, ?_⟩
    · simp only [hp, List.map_set]
      apply set_same
      unfold list_pool.node at hnode
      simp [hnode]
    · intro v t
      have hnode2 : ({ r with _free_list := x } : list_pool).node
          ({ r with _free_list := x } : list_pool)._free_list = some ⟨nd.value, p._free_list⟩ := by
        simp [list_pool.node, hp, hlt]
      obtain ⟨r2, hr2, -⟩ := list_pool.allocate_reuse _ v t _ hx hnode2
      exact ⟨r2, hr2⟩

theorem C19_free_witness :
    ∃ q, (list_pool.mk [⟨7, 0⟩, ⟨8, 1⟩] 0).free 2 = some (1, q) ∧ q.size = 2 ∧
      q._pool.map (fun n => n.value) = [7, 8] ∧ ∀ v t, ∃ r, q.allocate v t = some (2, r) :=
  (C19_free ⟨[⟨7, 0⟩, ⟨8, 1⟩], 0⟩).2 2 ⟨8, 1⟩ (by decide) (by decide)

/-! ## C16: the partition of the nodes -/

theorem forall₂_imp_mem {α β : Type} {R Q : α → β → Prop} {l1 : List α} {l2 : List β}
    (h : List.Forall₂ R l1 l2) (himp : ∀ a b, b ∈ l2 → R a b → Q a b) :
    List.Forall₂ Q l1 l2 := by
  induction h with
  | nil => exact List.Forall₂.nil
  | cons hab _ ih =>
    exact List.Forall₂.cons (himp _ _ (List.mem_cons_self _ _) hab)
      (ih (fun a b hb => himp a b (List.mem_cons_of_mem _ hb)))

theorem forall₂_get {α β : Type} {R : α → β → Prop} {l1 : List α} {l2 : List β}
    (h : List.Forall₂ R l1 l2) (j : Nat) (a : α) (hj : l1[j]? = some a) :
    ∃ b, l2[j]? = some b ∧ R a b := by
  induction h generalizing j with
  | nil => simp at hj
  | cons hab _ ih =>
    cases j with
    | zero =>
      simp only [List.getElem?_cons_zero, Option.some.injEq] at hj
      subst hj
      exact ⟨_, List.getElem?_cons_zero, hab⟩
    | succ j =>
      obtain ⟨b, hb, hR⟩ := ih j (by simpa using hj)
      exact ⟨b, by simpa using hb, hR⟩

theorem forall₂_set {α β : Type} {R : α → β → Prop} {l1 : List α} {l2 : List β}
    (h : List.Forall₂ R l1 l2) (j : Nat) (a : α) (b : β) (hab : R a b) :
    List.Forall₂ R (l1.set j a) (l2.set j b) := by
  induction h generalizing j with
  | nil => exact List.Forall₂.nil
  | cons hab2 ht ih =>
    cases j with
    | zero => exact List.Forall₂.cons hab ht
    | succ j => exact List.Forall₂.cons hab2 (ih j)

theorem forall₂_concat {α β : Type} {R : α → β → Prop} {l1 : List α} {l2 : List β}
    (h : List.Forall₂ R l1 l2) (a : α) (b : β) (hab : R a b) :
    List.Forall₂ R (l1 ++ [a]) (l2 ++ [b]) := by
  induction h with
  | nil => exact List.Forall₂.cons hab List.Forall₂.nil
  | cons hab2 _ ih => exact List.Forall₂.cons hab2 ih

/-- Replace the chain at position `j`, where the other chains are kept by
the change because they share no index with the chain replaced. -/
theorem forall₂_set_of_nodup {α : Type} {R Q : α → List Nat → Prop} {l1 : List α}
    {l2 : List (List Nat)} (h : List.Forall₂ R l1 l2) (j : Nat) (C C2 : List Nat) (a : α)
    (hj : l2[j]? = some C) (hnd : l2.flatten.Nodup)
    (himp : ∀ a b, b ∈ l2 → (∀ n ∈ b, n ∉ C) → R a b → Q a b) (hab : Q a C2) :
    List.Forall₂ Q (l1.set j a) (l2.set j C2) := by
  induction h generalizing j with
  | nil => exact List.Forall₂.nil
  | @cons a1 b1 t1 t2 hab2 ht ih =>
    rw [List.flatten_cons, List.nodup_append] at hnd
    obtain ⟨_, hnd2, hdis⟩ := hnd
    cases j with
    | zero =>
      simp only [List.getElem?_cons_zero, Option.some.injEq] at hj
      subst hj
      refine List.Forall₂.cons hab (forall₂_imp_mem ht ?_)
      intro a b hb hR
      refine himp a b (List.mem_cons_of_mem _ hb) ?_ hR
      intro n hn hn2
      exact hdis hn2 (List.mem_flatten.mpr ⟨b, hb, hn⟩)
    | succ j =>
      have hj2 : t2[j]? = some C := by simpa using hj
      refine List.Forall₂.cons (himp _ _ (List.mem_cons_self _ _) ?_ hab2)
        (ih j hj2 hnd2 (fun a b hb => himp a b (List.mem_cons_of_mem _ hb)))
      intro n hn hn2
      exact hdis hn (List.mem_flatten.mpr ⟨C, List.getElem?_mem hj2, hn2⟩)

theorem flatten_set_perm (l : List (List Nat)) (j : Nat) (C C2 : List Nat)
    (hj : l[j]? = some C) :
    ∃ rest, l.flatten.Perm (C ++ rest) ∧ (l.set j C2).flatten.Perm (C2 ++ rest) := by
  induction l generalizing j with
  | nil => simp at hj
  | cons b t ih =>
    cases j with
    | zero =>
      simp only [List.getElem?_cons_zero, Option.some.injEq] at hj
      subst hj
      exact ⟨t.flatten, List.Perm.refl _, List.Perm.refl _⟩
    | succ j =>
      obtain ⟨rest, h1, h2⟩ := ih j (by simpa using hj)
      refine ⟨b ++ rest, ?_, ?_⟩
      · simp only [List.flatten_cons]
        exact ((List.Perm.refl b).append h1).trans (by
          rw [← List.append_assoc, ← List.append_assoc]
          exact (List.perm_append_comm).append_right rest)
      · simp only [List.set_cons_succ, List.flatten_cons]
        exact ((List.Perm.refl b).append h2).trans (by
          rw [← List.append_assoc, ← List.append_assoc]
          exact (List.perm_append_comm).append_right rest)

namespace list_pool

theorem segment_end (p : list_pool) (ns : List Nat) (y : Nat) (h : p.segment 0 ns = some y) :
    ns = [] := by
  cases ns with
  | nil => rfl
  | cons n ns => simp [segment, is_end, «end»] at h

theorem segment_cons (p : list_pool) (x : Nat) (ns : List Nat) (y : Nat)
    (hx : is_end x = false) (h : p.segment x ns = some y) (hy : is_end y = true) :
    ∃ nd ms, ns = x :: ms ∧ p.node x = some nd ∧ p.segment nd.next ms = some y := by
  cases ns with
  | nil =>
    simp only [segment, Option.some.injEq] at h
    subst h
    rw [hx] at hy
    exact absurd hy (by simp)
  | cons n ms =>
    simp only [segment] at h
    split at h
    case isFalse => simp at h
    case isTrue hxn =>
      cases hnode : p.node x with
      | none => simp [hnode] at h
      | some nd =>
        rw [hnode] at h
        exact ⟨nd, ms, by rw [hxn.1], rfl, h⟩

theorem walk_of_segment (p : list_pool) (ns : List Nat) (x fuel : Nat)
    (h : p.segment x ns = some 0) (hfuel : ns.length < fuel) : p.walk fuel x = ns := by
  induction ns generalizing x fuel with
  | nil =>
    simp only [segment, Option.some.injEq] at h
    subst h
    cases fuel with
    | zero => rfl
    | succ f => simp [walk, is_end, «end»]
  | cons n ms ih =>
    simp only [segment] at h
    split at h
    case isFalse => simp at h
    case isTrue hxn =>
      cases hnode : p.node x with
      | none => simp [hnode] at h
      | some nd =>
        rw [hnode] at h
        cases fuel with
        | zero => simp at hfuel
        | succ f =>
          simp only [List.length_cons, Nat.add_lt_add_iff_right] at hfuel
          simp only [walk, hxn.2, Bool.false_eq_true, if_false, next, hnode, Option.map_some']
          rw [ih nd.next f h hfuel, hxn.1]

theorem free_size (p q : list_pool) (x t : Nat) (h : p.free x = some (t, q)) :
    q.size = p.size := by
  unfold free at h
  split at h
  · exact absurd h (by simp)
  · simp only [Option.map_eq_some', Prod.mk.injEq] at h
    obtain ⟨r, hr, -, h2⟩ := h
    obtain ⟨hp, -⟩ := set_node_pool p r x _ hr
    subst h2
    simp [size, hp]

theorem allocate_grow_nodes (p q : list_pool) (val tail : Nat)
    (hp : q._pool = (p._pool ++ [node_t.mk 0 0]).set (p.size % 65536) ⟨val, tail⟩) :
    q.node ((p.size + 1) % 65536) = some ⟨val, tail⟩ ∧
      ∀ y, index y ≠ index ((p.size + 1) % 65536) → q.node y = p.node y := by
  have hlt : p._pool.length % 65536 < p._pool.length + 1 := by
    have := Nat.mod_le p._pool.length 65536
    omega
  have hidx := index_new p.size
  constructor
  · simp [node, hp, index_new, size, hlt]
  · intro y hy
    rw [hidx] at hy
    simp only [node, hp]
    rw [List.getElem?_set_ne (Ne.symm hy)]
    have hy2 := index_lt y
    unfold size at hy
    by_cases hlen : index y < p._pool.length
    · rw [List.getElem?_append_left hlen]
    · have hmod := Nat.mod_eq_of_lt (show p._pool.length < 65536 by omega)
      rw [List.getElem?_eq_none (by simp; omega), List.getElem?_eq_none (by omega)]

theorem allocate_reuse_nodes (p q : list_pool) (val tail : Nat) (nd : node_t)
    (hnode : p.node p._free_list = some nd)
    (hp : q._pool = p._pool.set (index p._free_list) ⟨val, tail⟩) :
    q.size = p.size ∧ q.node p._free_list = some ⟨val, tail⟩ ∧
      ∀ y, index y ≠ index p._free_list → q.node y = p.node y := by
  have hlt := node_lt p _ nd hnode
  refine ⟨by simp [size, hp], by simp [node, hp, hlt], ?_⟩
  intro y hy
  simp only [node, hp]
  rw [List.getElem?_set_ne (Ne.symm hy)]

end list_pool

namespace list_pool

theorem segment_keep (p q : list_pool) (x : Nat) (hx : x < 65536)
    (hother : ∀ y, index y ≠ index x → q.node y = p.node y) (a : Nat) (ns : List Nat)
    (hns : ∀ n ∈ ns, n < 65536 ∧ n ≠ x) : q.segment a ns = p.segment a ns := by
  apply segment_congr
  intro n hn
  apply hother
  intro hidx
  exact (hns n hn).2 (index_inj n x (hns n hn).1 hx hidx)

theorem is_end_eq (x : Nat) (h : is_end x = true) : x = 0 := by
  simpa [is_end, «end»] using h

/-- The chains of the pool over a call of `allocate`. -/
theorem allocate_chains (p q : list_pool) (val tail head : Nat) (F rest : List Nat)
    (hF : p.segment p._free_list F = some 0)
    (hperm : (F ++ rest).Perm (List.range' 1 p.size))
    (ha : p.allocate val tail = some (head, q)) (hsize : q.size ≤ 65535) :
    ∃ F2, q.segment q._free_list F2 = some 0 ∧
      (F2 ++ head :: rest).Perm (List.range' 1 q.size) ∧
      q.node head = some ⟨val, tail⟩ ∧ is_end head = false ∧
      ∀ a ns, (∀ n ∈ ns, n ∈ rest) → q.segment a ns = p.segment a ns := by
  have hnd : (F ++ rest).Nodup := hperm.nodup_iff.mpr (List.nodup_range' 1 p.size)
  have hmem : ∀ n ∈ F ++ rest, 1 ≤ n ∧ n ≤ p.size := by
    intro n hn
    have := List.mem_range'_1.mp (hperm.mem_iff.mp hn)
    omega
  cases he : is_end p._free_list with
  | true =>
    have hfl := is_end_eq _ he
    rw [hfl] at hF
    have hnil := segment_end p F 0 hF
    subst hnil
    obtain ⟨r, hr, hf, hp⟩ := allocate_grow p val tail he
    rw [hr] at ha
    simp only [Option.some.injEq, Prod.mk.injEq] at ha
    obtain ⟨h1, h2⟩ := ha
    subst h2
    have hsz := allocate_grow_size p r val tail hp
    obtain ⟨hself, hother⟩ := allocate_grow_nodes p r val tail hp
    have hhead : head = p.size + 1 := by
      rw [← h1]
      exact Nat.mod_eq_of_lt (by omega)
    rw [h1] at hself hother
    refine ⟨[], ?_, ?_, hself, ?_, ?_⟩
    · rw [hf, hfl]
      rfl
    · rw [hsz, List.range'_1_concat, hhead, Nat.add_comm 1 p.size]
      simp only [List.nil_append] at hperm ⊢
      exact (List.perm_append_singleton _ _).symm.trans (hperm.append_right _) |>.symm |>.symm
    · rw [hhead]
      simp [is_end, «end»]
    · intro a ns hns
      apply segment_keep p r head (by omega) hother
      intro n hn
      have := hmem n (by simpa using hns n hn)
      omega
  | false =>
    obtain ⟨nd, ms, hFeq, hnode, hms⟩ := segment_cons p _ F 0 he hF rfl
    subst hFeq
    obtain ⟨r, hr, hf, hp⟩ := allocate_reuse p val tail nd he hnode
    rw [hr] at ha
    simp only [Option.some.injEq, Prod.mk.injEq] at ha
    obtain ⟨h1, h2⟩ := ha
    subst h2
    obtain ⟨hsz, hself, hother⟩ := allocate_reuse_nodes p r val tail nd hnode hp
    rw [h1] at hself hother
    have hhd : 1 ≤ head ∧ head ≤ p.size := by
      rw [← h1]
      exact hmem _ (by simp)
    rw [h1] at hnd hperm
    simp only [List.cons_append, List.nodup_cons, List.mem_append, not_or] at hnd
    refine ⟨ms, ?_, ?_, hself, ?_, ?_⟩
    · rw [hf]
      rw [segment_keep p r head (by omega) hother]
      · exact hms
      · intro n hn
        have := hmem n (by simp [hn])
        refine ⟨by omega, ?_⟩
        rintro rfl
        exact hnd.1.1 hn
    · rw [hsz]
      exact List.perm_middle.trans hperm
    · rw [← h1]
      exact he
    · intro a ns hns
      apply segment_keep p r head (by omega) hother
      intro n hn
      have := hmem n (by simp [hns n hn])
      refine ⟨by omega, ?_⟩
      rintro rfl
      exact hnd.1.2 (hns _ hn)

/-- The chains of the pool over a call of `free` on the head of a chain. -/
theorem free_chains (p q : list_pool) (x t : Nat) (F C rest : List Nat)
    (hF : p.segment p._free_list F = some 0) (hC : p.segment x C = some 0)
    (hx : is_end x = false)
    (hperm : (F ++ (C ++ rest)).Perm (List.range' 1 p.size))
    (hfree : p.free x = some (t, q)) (hsize : q.size ≤ 65535) :
    ∃ C2, C = x :: C2 ∧ q.segment q._free_list (x :: F) = some 0 ∧
      q.segment t C2 = some 0 ∧ q.size = p.size ∧
      ∀ a ns, (∀ n ∈ ns, n ∈ rest) → q.segment a ns = p.segment a ns := by
  have hnd : (F ++ (C ++ rest)).Nodup := hperm.nodup_iff.mpr (List.nodup_range' 1 p.size)
  have hmem : ∀ n ∈ F ++ (C ++ rest), 1 ≤ n ∧ n ≤ p.size := by
    intro n hn
    have := List.mem_range'_1.mp (hperm.mem_iff.mp hn)
    omega
  have hsz := free_size p q x t hfree
  obtain ⟨nd, ms, hCeq, hnode, hms⟩ := segment_cons p x C 0 hx hC rfl
  subst hCeq
  obtain ⟨r, hr, hfl, hself, hother⟩ := free_of_node p x nd hnode
  rw [hr] at hfree
  simp only [Option.some.injEq, Prod.mk.injEq] at hfree
  obtain ⟨h1, h2⟩ := hfree
  subst h2 h1
  have hxb := hmem x (by simp)
  have hnd2 := hnd
  rw [List.nodup_append] at hnd2
  obtain ⟨-, hnd3, hdis⟩ := hnd2
  simp only [List.cons_append, List.nodup_cons, List.mem_append, not_or] at hnd3
  refine ⟨ms, rfl, ?_, ?_, hsz, ?_⟩
  · rw [hfl]
    simp only [segment, hx, and_self, if_true, hself]
    rw [segment_keep p r x (by omega) hother]
    · exact hF
    · intro n hn
      have := hmem n (by simp [hn])
      refine ⟨by omega, ?_⟩
      rintro rfl
      exact hdis hn (by simp)
  · rw [segment_keep p r x (by omega) hother]
    · exact hms
    · intro n hn
      have := hmem n (by simp [hn])
      refine ⟨by omega, ?_⟩
      rintro rfl
      exact hnd3.1.1 hn
  · intro a ns hns
    apply segment_keep p r x (by omega) hother
    intro n hn
    have := hmem n (by simp [hns n hn])
    refine ⟨by omega, ?_⟩
    rintro rfl
    exact hnd3.1.2 (hns _ hn)

end list_pool

theorem pool_client.call_size (c c2 : pool_client) (x : pool_call) (h : c.call x = some c2) :
    c.pool.size ≤ c2.pool.size := by
  have hall : ∀ (p q : list_pool) (v t hd : Nat), p.allocate v t = some (hd, q) →
      p.size ≤ q.size := by
    intro p q v t hd ha
    cases he : list_pool.is_end p._free_list with
    | true =>
      obtain ⟨r, hr, -, hp⟩ := list_pool.allocate_grow p v t he
      rw [hr] at ha
      simp only [Option.some.injEq, Prod.mk.injEq] at ha
      rw [← ha.2, list_pool.allocate_grow_size p r v t hp]
      omega
    | false =>
      cases hn : p.node p._free_list with
      | none => simp [list_pool.allocate, he, list_pool.next, hn] at ha
      | some nd =>
        obtain ⟨r, hr, -, hp⟩ := list_pool.allocate_reuse p v t nd he hn
        rw [hr] at ha
        simp only [Option.some.injEq, Prod.mk.injEq] at ha
        rw [← ha.2, (list_pool.allocate_reuse_nodes p r v t nd hn hp).1]
  cases x with
  | allocate val chain =>
    cases chain with
    | none =>
      simp only [pool_client.call, Option.map_eq_some'] at h
      obtain ⟨⟨hd, q⟩, ha, rfl⟩ := h
      exact hall _ _ _ _ _ ha
    | some j =>
      simp only [pool_client.call] at h
      split at h
      · exact absurd h (by simp)
      · simp only [Option.map_eq_some'] at h
        obtain ⟨⟨hd, q⟩, ha, rfl⟩ := h
        exact hall _ _ _ _ _ ha
  | free j =>
    simp only [pool_client.call] at h
    split at h
    · exact absurd h (by simp)
    · split at h
      · exact absurd h (by simp)
      · simp only [Option.map_eq_some'] at h
        obtain ⟨⟨t, q⟩, hf, rfl⟩ := h
        exact le_of_eq (list_pool.free_size _ q _ t hf).symm

theorem pool_client.calls_size (xs : List pool_call) (c c2 : pool_client)
    (h : pool_client.calls xs c = some c2) : c.pool.size ≤ c2.pool.size := by
  induction xs generalizing c with
  | nil =>
    simp only [pool_client.calls, Option.some.injEq] at h
    rw [h]
  | cons x xs ih =>
    simp only [pool_client.calls, Option.bind_eq_some] at h
    obtain ⟨c1, h1, h2⟩ := h
    exact le_trans (pool_client.call_size c c1 x h1) (ih c1 h2)

/-- One call keeps the partition, while the pool has at most 65535 nodes. -/
theorem pool_client.partitioned_call (c c2 : pool_client) (x : pool_call) (F : List Nat)
    (Cs : List (List Nat)) (h : c.partitioned F Cs) (hcall : c.call x = some c2)
    (hsize : c2.pool.size ≤ 65535) : ∃ F2 Cs2, c2.partitioned F2 Cs2 := by
  obtain ⟨hF, hCs, hperm⟩ := h
  cases x with
  | allocate val chain =>
    cases chain with
    | none =>
      simp only [pool_client.call, Option.map_eq_some'] at hcall
      obtain ⟨⟨hd, q⟩, ha, rfl⟩ := hcall
      obtain ⟨F2, hF2, hperm2, hnode, hne, hkeep⟩ :=
        list_pool.allocate_chains c.pool q val _ hd F Cs.flatten hF hperm ha hsize
      refine ⟨F2, Cs ++ [[hd]], hF2, ?_, ?_⟩
      · apply forall₂_concat
        · apply forall₂_imp_mem hCs
          intro a b hb hR
          show q.segment a b = some 0
          rw [hkeep a b (fun n hn => List.mem_flatten.mpr ⟨b, hb, hn⟩)]
          exact hR
        · show q.segment hd [hd] = some 0
          simp only [list_pool.segment, hne, and_self, if_true, hnode]
          rfl
      · simp only [List.flatten_append, List.flatten_cons, List.flatten_nil, List.append_nil]
        refine List.Perm.trans ?_ hperm2
        exact (List.Perm.refl F2).append (List.perm_append_singleton hd Cs.flatten)
    | some j =>
      simp only [pool_client.call] at hcall
      split at hcall
      · exact absurd hcall (by simp)
      · rename_i tail htail
        simp only [Option.map_eq_some'] at hcall
        obtain ⟨⟨hd, q⟩, ha, rfl⟩ := hcall
        obtain ⟨C, hC, hseg⟩ := forall₂_get hCs j tail htail
        obtain ⟨F2, hF2, hperm2, hnode, hne, hkeep⟩ :=
          list_pool.allocate_chains c.pool q val tail hd F Cs.flatten hF hperm ha hsize
        obtain ⟨rest, hr1, hr2⟩ := flatten_set_perm Cs j C (hd :: C) hC
        refine ⟨F2, Cs.set j (hd :: C), hF2, ?_, ?_⟩
        · apply forall₂_set
          · apply forall₂_imp_mem hCs
            intro a b hb hR
            show q.segment a b = some 0
            rw [hkeep a b (fun n hn => List.mem_flatten.mpr ⟨b, hb, hn⟩)]
            exact hR
          · show q.segment hd (hd :: C) = some 0
            simp only [list_pool.segment, hne, and_self, if_true, hnode]
            rw [hkeep tail C (fun n hn => List.mem_flatten.mpr ⟨C, List.getElem?_mem hC, hn⟩)]
            exact hseg
        · refine List.Perm.trans ?_ hperm2
          refine (List.Perm.refl F2).append ?_
          refine hr2.trans ?_
          exact List.Perm.cons hd hr1.symm
  | free j =>
    simp only [pool_client.call] at hcall
    split at hcall
    · exact absurd hcall (by simp)
    · rename_i head hhead
      split at hcall
      · exact absurd hcall (by simp)
      · rename_i hne
        simp only [Bool.not_eq_true] at hne
        simp only [Option.map_eq_some'] at hcall
        obtain ⟨⟨t, q⟩, hf, rfl⟩ := hcall
        obtain ⟨C, hC, hseg⟩ := forall₂_get hCs j head hhead
        obtain ⟨rest, hr1, hr2⟩ := flatten_set_perm Cs j C C.tail hC
        have hperm3 : (F ++ (C ++ rest)).Perm (List.range' 1 c.pool.size) :=
          ((List.Perm.refl F).append hr1.symm).trans hperm
        obtain ⟨C2, hCeq, hF2, hC2, hsz, hkeep⟩ :=
          list_pool.free_chains c.pool q head t F C rest hF hseg hne hperm3 hf hsize
        have hnd : Cs.flatten.Nodup :=
          (List.nodup_append.mp (hperm.nodup_iff.mpr (List.nodup_range' 1 c.pool.size))).2.1
        refine ⟨head :: F, Cs.set j C2, hF2, ?_, ?_⟩
        · refine forall₂_set_of_nodup hCs j C C2 t hC hnd ?_ hC2
          intro a b hb hdis hR
          show q.segment a b = some 0
          rw [hkeep a b ?_]
          · exact hR
          · intro n hn
            have h1 : n ∈ C ++ rest := hr1.mem_iff.mp (List.mem_flatten.mpr ⟨b, hb, hn⟩)
            rcases List.mem_append.mp h1 with h2 | h2
            · exact absurd h2 (hdis n hn)
            · exact h2
        · show (head :: F ++ (Cs.set j C2).flatten).Perm (List.range' 1 q.size)
          rw [hsz]
          refine List.Perm.trans ?_ hperm3
          rw [hCeq] at hr2 ⊢
          simp only [List.tail_cons] at hr2
          refine List.Perm.trans ((List.Perm.refl (head :: F)).append hr2) ?_
          simp only [List.cons_append]
          exact List.perm_middle.symm

/-- A sequence of calls keeps the partition, while the pool has at most
65535 nodes. -/
theorem pool_client.partitioned_calls (xs : List pool_call) (c c2 : pool_client) (F : List Nat)
    (Cs : List (List Nat)) (h : c.partitioned F Cs) (hcalls : pool_client.calls xs c = some c2)
    (hsize : c2.pool.size ≤ 65535) : ∃ F2 Cs2, c2.partitioned F2 Cs2 := by
  induction xs generalizing c F Cs with
  | nil =>
    simp only [pool_client.calls, Option.some.injEq] at hcalls
    subst hcalls
    exact ⟨F, Cs, h⟩
  | cons x xs ih =>
    simp only [pool_client.calls, Option.bind_eq_some] at hcalls
    obtain ⟨c1, h1, h2⟩ := hcalls
    have hs1 : c1.pool.size ≤ 65535 := le_trans (pool_client.calls_size xs c1 c2 h2) hsize
    obtain ⟨F1, Cs1, hp1⟩ := pool_client.partitioned_call c c1 x F Cs h h1 hs1
    exact ih c1 F1 Cs1 hp1 h2

theorem flatMap_of_forall₂ {α : Type} (f : α → List Nat) {l1 : List α} {l2 : List (List Nat)}
    (h : List.Forall₂ (fun a C => f a = C) l1 l2) : l1.flatMap f = l2.flatten := by
  induction h with
  | nil => rfl
  | cons hab _ ih => simp only [List.flatMap_cons, List.flatten_cons, hab, ih]

/-- The indices the walks reach are those of the partition. -/
theorem pool_client.reached_eq (c : pool_client) (F : List Nat) (Cs : List (List Nat))
    (h : c.partitioned F Cs) (hsize : c.pool.size ≤ 65535) : c.reached = F ++ Cs.flatten := by
  obtain ⟨hF, hCs, hperm⟩ := h
  have hnd : (F ++ Cs.flatten).Nodup := hperm.nodup_iff.mpr (List.nodup_range' 1 c.pool.size)
  have hmem : ∀ n ∈ F ++ Cs.flatten, n < 65536 := by
    intro n hn
    have := List.mem_range'_1.mp (hperm.mem_iff.mp hn)
    omega
  have hreach : ∀ a ns, c.pool.segment a ns = some 0 → (∀ n ∈ ns, n ∈ F ++ Cs.flatten) →
      ns.Nodup → c.pool.reachable a = ns := by
    intro a ns hseg hsub hnd2
    have hlen := list_pool.chain_length_le c.pool ns a 0 hseg hnd2
      (fun n hn => hmem n (hsub n hn))
    exact list_pool.walk_of_segment c.pool ns a _ hseg (by omega)
  rw [List.nodup_append] at hnd
  unfold pool_client.reached
  rw [hreach _ F hF (fun n hn => List.mem_append_left _ hn) hnd.1]
  congr 1
  have hall : ∀ C ∈ Cs, (∀ n ∈ C, n ∈ F ++ Cs.flatten) ∧ C.Nodup := by
    intro C hC
    constructor
    · intro n hn
      exact List.mem_append_right _ (List.mem_flatten.mpr ⟨C, hC, hn⟩)
    · exact (List.nodup_flatten.mp hnd.2.1).1 C hC
  have hCs2 : List.Forall₂ (fun a C => c.pool.reachable a = C) c.heads Cs :=
    forall₂_imp_mem hCs (fun a b hb hR => hreach a b hR (hall b hb).1 (hall b hb).2)
  exact flatMap_of_forall₂ _ hCs2

theorem pool_client.calls_append (xs ys : List pool_call) (c : pool_client) :
    pool_client.calls (xs ++ ys) c = (pool_client.calls xs c).bind (pool_client.calls ys) := by
  induction xs generalizing c with
  | nil => rfl
  | cons x xs ih =>
    simp only [List.cons_append, pool_client.calls]
    cases c.call x with
    | none => rfl
    | some c1 => exact ih c1

theorem pool_client.calls_cons (x : pool_call) (xs : List pool_call) (c : pool_client) :
    pool_client.calls (x :: xs) c = (c.call x).bind (pool_client.calls xs) := rfl

theorem pool_client.push_first :
    (pool_client.mk list_pool.empty []).call (pool_call.allocate 0 none) =
      some ⟨list_pool.pushed 1, [1]⟩ := by
  have h := list_pool.pushed_step 0 (by omega)
  simp only [pool_client.call]
  rw [show list_pool.empty = list_pool.pushed 0 from rfl, show list_pool.«end» = 0 from rfl, h]
  rfl

theorem pool_client.calls_push (k m : Nat) (h : m + k ≤ 65535) :
    pool_client.calls (List.replicate k (pool_call.allocate 0 (some 0)))
      ⟨list_pool.pushed m, [m]⟩ = some ⟨list_pool.pushed (m + k), [m + k]⟩ := by
  induction k generalizing m with
  | zero => rfl
  | succ k ih =>
    have hstep := list_pool.pushed_step m (by omega)
    simp only [List.replicate_succ, pool_client.calls, pool_client.call,
      List.getElem?_cons_zero, hstep, Option.map_some', Option.some_bind, List.set_cons_zero]
    rw [ih (m + 1) (by omega)]
    congr 3 <;> omega

/-- With the partition, a call the client may make stays inside the vector. -/
theorem pool_client.call_some (c : pool_client) (F : List Nat) (Cs : List (List Nat))
    (h : c.partitioned F Cs) (x : pool_call) (hx : c.admits x = true) : (c.call x).isSome := by
  obtain ⟨hF, hCs, -⟩ := h
  have hall : ∀ v t, (c.pool.allocate v t).isSome := by
    intro v t
    cases he : list_pool.is_end c.pool._free_list with
    | true =>
      obtain ⟨q, hq, -⟩ := list_pool.allocate_grow c.pool v t he
      rw [hq]
      rfl
    | false =>
      obtain ⟨nd, ms, -, hnode, -⟩ := list_pool.segment_cons c.pool _ F 0 he hF rfl
      obtain ⟨q, hq, -⟩ := list_pool.allocate_reuse c.pool v t nd he hnode
      rw [hq]
      rfl
  cases x with
  | allocate val chain =>
    cases chain with
    | none => simp only [pool_client.call, Option.isSome_map', hall]
    | some j =>
      simp only [pool_client.admits, decide_eq_true_eq] at hx
      simp only [pool_client.call, List.getElem?_eq_getElem hx, Option.isSome_map', hall]
  | free j =>
    simp only [pool_client.admits] at hx
    cases hj : c.heads[j]? with
    | none => simp [hj] at hx
    | some head =>
      simp only [hj, Bool.not_eq_true'] at hx
      obtain ⟨C, -, hseg⟩ := forall₂_get hCs j head hj
      obtain ⟨nd, ms, -, hnode, -⟩ := list_pool.segment_cons c.pool head C 0 hx hseg rfl
      obtain ⟨q, hq, -⟩ := list_pool.free_of_node c.pool head nd hnode
      simp only [pool_client.call, hj, hx, Bool.false_eq_true, if_false, hq, Option.map_some',
        Option.isSome_some]

/-- C16, as stated: 65536 calls of `allocate` that push on one chain leave
a pool of 65536 nodes with an empty free list and a chain whose head is the
empty sentinel, so that no index is reachable. -/
theorem C16_partition_fails :
    ∃ c, pool_client.calls
        (pool_call.allocate 0 none :: List.replicate 65535 (pool_call.allocate 0 (some 0)))
        ⟨list_pool.empty, []⟩ = some c ∧
      c.pool.size = 65536 ∧ c.reached = [] := by
  obtain ⟨q, hq, hf, hp⟩ := list_pool.allocate_grow (list_pool.pushed 65535) 0 65535 rfl
  have hsz := list_pool.allocate_grow_size _ q 0 65535 hp
  rw [list_pool.pushed_size] at hq hsz
  have hfl : q._free_list = 0 := hf
  have hlast : (pool_client.mk (list_pool.pushed 65535) [65535]).call (pool_call.allocate 0 (some 0)) =
      some ⟨q, [0]⟩ := by
    simp only [pool_client.call, List.getElem?_cons_zero, hq, Option.map_some', List.set_cons_zero]
  refine ⟨⟨q, [0]⟩, ?_, hsz, ?_⟩
  · rw [show (65535 : Nat) = 65534 + 1 from rfl, List.replicate_succ', ← List.cons_append,
      pool_client.calls_append]
    have h1 : pool_client.calls (List.replicate 65534 (pool_call.allocate 0 (some 0)))
        ⟨list_pool.pushed 1, [1]⟩ = some ⟨list_pool.pushed 65535, [65535]⟩ :=
      pool_client.calls_push 65534 1 (by omega)
    rw [pool_client.calls_cons, pool_client.push_first, Option.some_bind, h1, Option.some_bind,
      pool_client.calls_cons, hlast, Option.some_bind]
    rfl
  · simp [pool_client.reached, list_pool.reachable, list_pool.walk, list_pool.is_end,
      list_pool.«end», hfl]

/-- C16, amended: starting from the empty pool, after every sequence of
calls in which `free` is applied to the head of a live chain and the tail
given to `allocate` is the head of a live chain, which the call extends, or
the empty sentinel, and which leaves at most 65535 nodes in the pool, the
indices reachable from the free list and from the heads of the live chains
are each of `1, ..., size()` once: no index is reached twice, an index is
reached exactly if it is between `1` and `size()`, and their number is
`size()`.  In that state every further call of this form stays inside the
vector of the pool. -/
theorem C16_partition (xs : List pool_call) (c : pool_client)
    (h : pool_client.calls xs ⟨list_pool.empty, []⟩ = some c) (hsize : c.pool.size ≤ 65535) :
    c.reached.Nodup ∧ (∀ n, n ∈ c.reached ↔ 1 ≤ n ∧ n ≤ c.pool.size) ∧
      c.reached.length = c.pool.size ∧
      ∀ x, c.admits x = true → (c.call x).isSome := by
  have h0 : pool_client.partitioned ⟨list_pool.empty, []⟩ [] [] :=
    ⟨rfl, List.Forall₂.nil, List.Perm.refl _⟩
  obtain ⟨F, Cs, hp⟩ := pool_client.partitioned_calls xs _ c [] [] h0 h hsize
  have hperm : c.reached.Perm (List.range' 1 c.pool.size) := by
    rw [pool_client.reached_eq c F Cs hp hsize]
    exact hp.2.2
  refine ⟨hperm.nodup_iff.mpr (List.nodup_range' 1 c.pool.size), ?_, ?_, ?_⟩
  · intro n
    rw [hperm.mem_iff, List.mem_range'_1]
    omega
  · rw [hperm.length_eq, List.length_range']
  · exact fun x hx => pool_client.call_some c F Cs hp x hx

theorem C16_partition_witness :
    (pool_client.mk ⟨[⟨7, 0⟩, ⟨8, 0⟩], 1⟩ [0, 2]).reached.Nodup ∧
      (∀ n, n ∈ (pool_client.mk ⟨[⟨7, 0⟩, ⟨8, 0⟩], 1⟩ [0, 2]).reached ↔
        1 ≤ n ∧ n ≤ (pool_client.mk ⟨[⟨7, 0⟩, ⟨8, 0⟩], 1⟩ [0, 2]).pool.size) ∧
      (pool_client.mk ⟨[⟨7, 0⟩, ⟨8, 0⟩], 1⟩ [0, 2]).reached.length =
        (pool_client.mk ⟨[⟨7, 0⟩, ⟨8, 0⟩], 1⟩ [0, 2]).pool.size :=
  (fun h => ⟨h.1, h.2.1, h.2.2.1⟩)
    (C16_partition [.allocate 7 none, .allocate 8 none, .free 0] _ (by decide!) (by decide!))

/-! ## C20: register operands -/

theorem peek_register_apply (s : Asm) :
    peek_register s = Res.ok (register_of s.token).isSome s := by
  unfold peek_register register_of
  congr 1
  rcases htext : s.token.text with _ | ⟨c, _ | ⟨d, _ | ⟨e, rest⟩⟩⟩
  · simp
  · simp
  · by_cases hk : s.token.kind = TOKEN_NAME
    · by_cases hc : c = 'r' ∨ c = 'R'
      · by_cases hd : 48 ≤ d.toNat ∧ d.toNat ≤ 55
        · simp [hk, hc, hd]
        · have : ¬ (s.token.kind = TOKEN_NAME ∧ (c = 'r' ∨ c = 'R') ∧ 48 ≤ d.toNat ∧ d.toNat ≤ 55) :=
            fun h => hd h.2.2
          simp only [this, if_false, Option.isSome_none]
          simp only [not_and_or, not_le] at hd
          simp
          intro _ _ h1
          omega
      · have : ¬ (s.token.kind = TOKEN_NAME ∧ (c = 'r' ∨ c = 'R') ∧ 48 ≤ d.toNat ∧ d.toNat ≤ 55) :=
          fun h => hc h.2.1
        simp only [this, if_false, Option.isSome_none]
        simp only [not_or] at hc
        simp [hc.1, hc.2]
    · have : ¬ (s.token.kind = TOKEN_NAME ∧ (c = 'r' ∨ c = 'R') ∧ 48 ≤ d.toNat ∧ d.toNat ≤ 55) :=
        fun h => hk h.1
      simp [this, hk]
  · simp

/-- C20: with a rest of the line whose next token lexes without a fatal
error, `expect_register` returns `k` and records no error when the current
token is a name of exactly two characters, `r` or `R` and the digit `k` from
`0` to `7`; for every other token it records exactly one recoverable error and
returns `0`; in both cases it advances to the next token (whose stray
characters are counted by the lexer). -/
theorem C20_expect_register (s : Asm) (h : (lex s.token.base s.line_cursor 0).fatal = false) :
    (∀ k, register_of s.token = some k →
      k ≤ 7 ∧ expect_register s = Res.ok k (after_token s)) ∧
    (register_of s.token = none →
      expect_register s = Res.ok 0 (after_token { s with error_count := s.error_count + 1 })) := by
  constructor
  · intro k hk
    have hval : ((s.token.text.getD 1 ' ').toNat - 48) % 65536 = k ∧ k ≤ 7 := by
      unfold register_of at hk
      rcases htext : s.token.text with _ | ⟨c, _ | ⟨d, _ | ⟨e, rest⟩⟩⟩
      · simp [htext] at hk
      · simp [htext] at hk
      · rw [htext] at hk
        simp only at hk
        split at hk
        · rename_i hc
          injection hk with hk
          simp only [List.getD_cons_succ, List.getD_cons_zero]
          omega
        · exact absurd hk (by simp)
      · simp [htext] at hk
    simp only [expect_register, bind_apply, M.bind, peek_register_apply, hk, Option.isSome_some,
      if_true, get_apply, pure_apply, next_token_ok s h, hval.1]
    exact ⟨hval.2, trivial⟩
  · intro hk
    have h' : (lex ({ s with error_count := s.error_count + 1 } : Asm).token.base
        ({ s with error_count := s.error_count + 1 } : Asm).line_cursor 0).fatal = false := h
    simp only [expect_register, bind_apply, M.bind, peek_register_apply, hk, Option.isSome_none,
      Bool.false_eq_true, if_false, error_zero_apply, pure_apply, next_token_ok _ h']

/-- C20 (witness): the operand `R5`, followed by a comma. -/
theorem C20_expect_register_witness :
    5 ≤ 7 ∧ expect_register register_state = Res.ok 5 (after_token register_state) :=
  (C20_expect_register register_state (by decide!)).1 5 (by decide!)

/-! ## C21: integer tokens -/

theorem lex_spaces (base : Nat) (ws rest : List Char) (strays : Nat)
    (hws : ∀ c ∈ ws, isspace c = true) : lex base (ws ++ rest) strays = lex base rest strays := by
  induction ws with
  | nil => rfl
  | cons c cs ih =>
    have hc := hws c (List.mem_cons_self c cs)
    simp only [List.cons_append, lex, hc, if_true]
    exact ih (fun d hd => hws d (List.mem_cons_of_mem c hd))

theorem takeWhile_run {α : Type} (p : α → Bool) (run tail : List α)
    (hrun : ∀ c ∈ run, p c = true) (htail : ∀ c, tail.head? = some c → p c = false) :
    (run ++ tail).takeWhile p = run ∧ (run ++ tail).dropWhile p = tail := by
  induction run with
  | nil =>
    cases tail with
    | nil => exact ⟨rfl, rfl⟩
    | cons c cs =>
      have := htail c rfl
      simp [List.takeWhile, List.dropWhile, this]
  | cons c cs ih =>
    have hc := hrun c (List.mem_cons_self c cs)
    have := ih (fun d hd => hrun d (List.mem_cons_of_mem c hd))
    simp [List.takeWhile, List.dropWhile, hc, this]

/-- The integer cases of `next_token` on a marker, a sign, a maximal run of
digits and the rest of the line. -/
theorem lex_integer_run (m : Char) (p : Char → Bool) (base strays : Nat)
    (sign digits tail : List Char) (hp : p '-' = false)
    (hsign : sign = [] ∨ sign = ['-'])
    (hdigits : ∀ c ∈ digits, p c = true)
    (hmax : ∀ c, tail.head? = some c → p c = false)
    (hminus : sign = [] → digits = [] → tail.head? ≠ some '-') :
    lex_integer m p base (sign ++ digits ++ tail) strays =
      ⟨⟨if digits = [] then TOKEN_NONE else TOKEN_INTEGER, m :: (sign ++ digits), base⟩,
        tail, strays, false⟩ := by
  have hrest : ∀ cs1, cs1 = digits ++ tail →
      (match cs1 with
        | c :: cs2 =>
          if p c then
            (⟨⟨TOKEN_INTEGER, (m :: sign) ++ (c :: cs2.takeWhile p), base⟩, cs2.dropWhile p,
              strays, false⟩ : lexed)
          else ⟨⟨TOKEN_NONE, m :: sign, base⟩, cs1, strays, false⟩
        | [] => ⟨⟨TOKEN_NONE, m :: sign, base⟩, cs1, strays, false⟩) =
      ⟨⟨if digits = [] then TOKEN_NONE else TOKEN_INTEGER, m :: (sign ++ digits), base⟩,
        tail, strays, false⟩ := by
    intro cs1 hcs1
    subst hcs1
    cases digits with
    | nil =>
      cases tail with
      | nil => simp
      | cons c cs =>
        have := hmax c rfl
        simp [this]
    | cons d ds =>
      have hd := hdigits d (List.mem_cons_self d ds)
      have hrun := takeWhile_run p ds tail (fun c hc => hdigits c (List.mem_cons_of_mem d hc)) hmax
      simp [hd, hrun.1, hrun.2]
  rcases hsign with h | h
  · subst h
    have hhead : ∀ c rest, digits ++ tail = c :: rest → (c == '-') = false := by
      intro c rest hc
      cases digits with
      | nil =>
        have h1 := hminus rfl rfl
        simp only [List.nil_append] at hc
        rw [hc] at h1
        simp only [List.head?_cons, ne_eq, Option.some.injEq] at h1
        simpa using h1
      | cons d ds =>
        simp only [List.cons_append, List.cons.injEq] at hc
        have hd := hdigits d (List.mem_cons_self d ds)
        rw [hc.1] at hd
        by_contra hne
        simp only [Bool.not_eq_false, beq_iff_eq] at hne
        rw [hne, hp] at hd
        exact absurd hd (by simp)
    unfold lex_integer
    simp only [List.nil_append]
    cases hcs : digits ++ tail with
    | nil =>
      have := hrest [] hcs.symm
      simpa using this
    | cons c rest =>
      have hc := hhead c rest hcs
      have := hrest (c :: rest) hcs.symm
      simpa [hc] using this
  · subst h
    unfold lex_integer
    have := hrest (digits ++ tail) rfl
    simpa using this

/-- C21: when the first character of the line behind blanks is `$` (resp.
`#`), followed by an optional single `-` and the maximal run of hexadecimal
(resp. decimal) digits, `next_token` returns without an error with the token
whose text runs from the marker through the sign and the digits, whose base
is 16 (resp. 10), and whose kind is `TOKEN_INTEGER` when there is at least one
digit and `TOKEN_NONE` when there is none; the cursor is behind the token. -/
theorem C21_integer_tokens (s : Asm) (ws sign digits tail : List Char) (m : Char) (base : Nat)
    (p : Char → Bool)
    (hm : (m = '$' ∧ base = 16 ∧ p = isxdigit) ∨ (m = '#' ∧ base = 10 ∧ p = isdigit))
    (hws : ∀ c ∈ ws, isspace c = true)
    (hsign : sign = [] ∨ sign = ['-'])
    (hdigits : ∀ c ∈ digits, p c = true)
    (hmax : ∀ c, tail.head? = some c → p c = false)
    (hminus : sign = [] → digits = [] → tail.head? ≠ some '-')
    (hline : s.line_cursor = ws ++ m :: (sign ++ digits ++ tail)) :
    next_token s = Res.ok ()
      { s with token := ⟨if digits = [] then TOKEN_NONE else TOKEN_INTEGER,
                          m :: (sign ++ digits), base⟩,
               line_cursor := tail } := by
  have hlex : lex s.token.base s.line_cursor 0 =
      ⟨⟨if digits = [] then TOKEN_NONE else TOKEN_INTEGER, m :: (sign ++ digits), base⟩,
        tail, 0, false⟩ := by
    rw [hline, lex_spaces _ ws _ 0 hws]
    rcases hm with ⟨h1, h2, h3⟩ | ⟨h1, h2, h3⟩
    · subst h1 h2 h3
      have := lex_integer_run '$' isxdigit 16 0 sign digits tail (by decide) hsign hdigits hmax
        hminus
      simp only [lex]
      rw [if_neg (by decide), if_neg (by decide), if_neg (by decide), if_neg (by decide),
        if_pos (by decide)]
      exact this
    · subst h1 h2 h3
      have := lex_integer_run '#' isdigit 10 0 sign digits tail (by decide) hsign hdigits hmax
        hminus
      simp only [lex]
      rw [if_neg (by decide), if_neg (by decide), if_neg (by decide), if_neg (by decide),
        if_neg (by decide), if_pos (by decide)]
      exact this
  simp only [next_token, hlex, Bool.false_eq_true, if_false, Nat.add_zero]

theorem C21_integer_tokens_witness :
    next_token integer_line_state = Res.ok ()
      { integer_line_state with token := ⟨TOKEN_INTEGER, "$-1F".toList, 16⟩,
                                line_cursor := ",".toList } :=
  C21_integer_tokens integer_line_state "  ".toList "-".toList "1F".toList ",".toList '$' 16
    isxdigit (Or.inl ⟨rfl, rfl, rfl⟩) (by decide) (Or.inr rfl) (by decide) (by decide)
    (by decide) rfl

/-! ## C22: string tokens -/

theorem string_unit_cases (u : List Char) (h : string_unit u = true) :
    u = ['\\', '"'] ∨ ∃ c, u = [c] ∧ c ≠ '"' := by
  unfold string_unit at h
  simp only [Bool.or_eq_true, beq_iff_eq, Bool.and_eq_true, bne_iff_ne, ne_eq] at h
  rcases h with h | ⟨h1, h2⟩
  · exact Or.inl h
  · right
    match u, h1, h2 with
    | [c], _, h2 =>
      refine ⟨c, rfl, ?_⟩
      intro hc
      exact h2 (by rw [hc])

theorem scan_string_cons (c : Char) (rest : List Char) (hq : c ≠ '"')
    (hpair : c = '\\' → rest.head? ≠ some '"') :
    scan_string (c :: rest) = (c :: (scan_string rest).1, (scan_string rest).2) := by
  cases rest with
  | nil => simp [scan_string, hq]
  | cons d ds =>
    have h1 : (c == '\\' && d == '"') = false := by
      by_contra h
      simp only [Bool.not_eq_false, Bool.and_eq_true, beq_iff_eq] at h
      exact hpair h.1 (by rw [h.2]; rfl)
    have h2 : (c == '"') = false := by simpa using hq
    simp only [scan_string, h1, h2, Bool.false_eq_true, if_false]

theorem scan_string_pair (rest : List Char) :
    scan_string ('\\' :: '"' :: rest) = ('\\' :: '"' :: (scan_string rest).1, (scan_string rest).2) := by
  simp [scan_string]

theorem flatten_head_ne_quote (units : List (List Char)) (rest : List Char)
    (hunits : ∀ u ∈ units, string_unit u = true) (hne : units ≠ []) :
    (units.flatten ++ rest).head? ≠ some '"' := by
  cases units with
  | nil => exact absurd rfl hne
  | cons u us =>
    rcases string_unit_cases u (hunits u (List.mem_cons_self u us)) with h | ⟨c, h, hc⟩
    · subst h
      simp
    · subst h
      simpa using hc

/-- The loop of the string case over a body made of units, up to the closing
quote or the end of the line. -/
theorem scan_string_units (units : List (List Char)) (rest : List Char)
    (hunits : ∀ u ∈ units, string_unit u = true)
    (hrest : rest = [] ∨ (rest.head? = some '"' ∧ units.getLast? ≠ some ['\\'])) :
    scan_string (units.flatten ++ rest) = (units.flatten, rest) := by
  induction units with
  | nil =>
    rcases hrest with h | ⟨h, -⟩
    · subst h
      rfl
    · cases rest with
      | nil => simp at h
      | cons q tail =>
        simp only [List.head?_cons, Option.some.injEq] at h
        subst h
        cases tail <;> simp [scan_string]
  | cons u us ih =>
    have hus : ∀ v ∈ us, string_unit v = true := fun v hv => hunits v (List.mem_cons_of_mem u hv)
    have hrest2 : rest = [] ∨ (rest.head? = some '"' ∧ us.getLast? ≠ some ['\\']) := by
      rcases hrest with h | ⟨h1, h2⟩
      · exact Or.inl h
      · right
        refine ⟨h1, ?_⟩
        intro hl
        apply h2
        cases us with
        | nil => simp at hl
        | cons v vs =>
          rw [List.getLast?_cons_cons]
          exact hl
    have hih := ih hus hrest2
    rcases string_unit_cases u (hunits u (List.mem_cons_self u us)) with h | ⟨c, h, hc⟩
    · subst h
      simp only [List.flatten_cons, List.cons_append, List.nil_append]
      rw [scan_string_pair, hih]
    · subst h
      simp only [List.flatten_cons, List.cons_append, List.nil_append]
      rw [scan_string_cons c _ hc, hih]
      intro hback
      by_cases hne : us = []
      · subst hne
        rcases hrest with h | ⟨h1, h2⟩
        · subst h
          simp
        · exfalso
          apply h2
          rw [hback]
          rfl
      · exact flatten_head_ne_quote us rest hus hne

theorem units_cons (u : List Char) (l : List Char) (hu : string_unit u = true)
    (hlast : u = ['\\'] → l.head? ≠ some '"')
    (h : (∃ (units : List (List Char)) (tail : List Char),
          (∀ v ∈ units, string_unit v = true) ∧ units.getLast? ≠ some ['\\'] ∧
          l = units.flatten ++ '"' :: tail) ∨
        (∃ units : List (List Char), (∀ v ∈ units, string_unit v = true) ∧ l = units.flatten)) :
    (∃ (units : List (List Char)) (tail : List Char),
        (∀ v ∈ units, string_unit v = true) ∧ units.getLast? ≠ some ['\\'] ∧
        u ++ l = units.flatten ++ '"' :: tail) ∨
    (∃ units : List (List Char), (∀ v ∈ units, string_unit v = true) ∧ u ++ l = units.flatten) := by
  have hall : ∀ units : List (List Char), (∀ v ∈ units, string_unit v = true) →
      ∀ v ∈ u :: units, string_unit v = true := by
    intro units hv v hmem
    rcases List.mem_cons.mp hmem with h1 | h1
    · rw [h1]; exact hu
    · exact hv v h1
  rcases h with ⟨units, tail, hv, hl, heq⟩ | ⟨units, hv, heq⟩
  · refine Or.inl ⟨u :: units, tail, hall units hv, ?_, ?_⟩
    · cases units with
      | nil =>
        simp only [List.flatten_nil, List.nil_append] at heq
        simp only [List.getLast?_singleton, ne_eq, Option.some.injEq]
        intro hback
        exact hlast hback (by rw [heq]; rfl)
      | cons v vs =>
        rw [List.getLast?_cons_cons]
        exact hl
    · simp [heq]
  · exact Or.inr ⟨u :: units, hall units hv, by simp [heq]⟩

/-- Every line behind an opening quote is a body of units followed by a
closing quote, or a body of units up to its end. -/
theorem units_exhaustive (l : List Char) :
    (∃ (units : List (List Char)) (tail : List Char),
        (∀ u ∈ units, string_unit u = true) ∧ units.getLast? ≠ some ['\\'] ∧
        l = units.flatten ++ '"' :: tail) ∨
    (∃ units : List (List Char), (∀ u ∈ units, string_unit u = true) ∧ l = units.flatten) := by
  suffices hn : ∀ (n : Nat) (l : List Char), l.length ≤ n →
      ((∃ (units : List (List Char)) (tail : List Char),
          (∀ u ∈ units, string_unit u = true) ∧ units.getLast? ≠ some ['\\'] ∧
          l = units.flatten ++ '"' :: tail) ∨
      (∃ units : List (List Char), (∀ u ∈ units, string_unit u = true) ∧ l = units.flatten)) from
    hn l.length l (le_refl _)
  intro n
  induction n with
  | zero =>
    intro l hl
    have : l = [] := List.length_eq_zero.mp (by omega)
    subst this
    exact Or.inr ⟨[], by simp, rfl⟩
  | succ n ih =>
    intro l hl
    cases l with
    | nil => exact Or.inr ⟨[], by simp, rfl⟩
    | cons c rest =>
      simp only [List.length_cons] at hl
      by_cases hq : c = '"'
      · subst hq
        exact Or.inl ⟨[], rest, by simp, by simp, rfl⟩
      · by_cases hpair : c = '\\' ∧ rest.head? = some '"'
        · obtain ⟨hc, hrest⟩ := hpair
          subst hc
          cases rest with
          | nil => simp at hrest
          | cons d ds =>
            simp only [List.head?_cons, Option.some.injEq] at hrest
            subst hrest
            simp only [List.length_cons] at hl
            exact units_cons ['\\', '"'] ds (by decide) (by simp) (ih ds (by omega))
        · have hunit : string_unit [c] = true := by simp [string_unit, hq]
          refine units_cons [c] rest hunit ?_ (ih rest (by omega))
          intro hback hhead
          simp only [List.cons.injEq, and_true] at hback
          exact hpair ⟨hback, hhead⟩

/-- C22: when the first character of the line behind blanks is a double
quote and the characters behind it are units (backslash-quote pairs and
single characters other than a quote, read from left to right): if a quote
follows the units, `next_token` returns without an error with the string
token that runs from the opening quote through that quote, and the cursor is
behind it; if the line ends behind the units, `next_token` counts one error and
terminates the process.  Every line is of one of the two forms. -/
theorem C22_string_tokens (s : Asm) (ws : List Char) (units : List (List Char))
    (hws : ∀ c ∈ ws, isspace c = true) (hunits : ∀ u ∈ units, string_unit u = true) :
    (∀ tail, units.getLast? ≠ some ['\\'] →
      s.line_cursor = ws ++ '"' :: (units.flatten ++ '"' :: tail) →
      next_token s = Res.ok ()
        { s with token := ⟨TOKEN_STRING, '"' :: (units.flatten ++ ['"']), s.token.base⟩,
                 line_cursor := tail }) ∧
    (s.line_cursor = ws ++ '"' :: units.flatten →
      next_token s = Res.exit
        { s with token := ⟨TOKEN_STRING, '"' :: units.flatten, s.token.base⟩,
                 line_cursor := [],
                 error_count := s.error_count + 1 }) ∧
    (∀ l : List Char,
      (∃ (us : List (List Char)) (tail : List Char),
          (∀ u ∈ us, string_unit u = true) ∧ us.getLast? ≠ some ['\\'] ∧
          l = us.flatten ++ '"' :: tail) ∨
      (∃ us : List (List Char), (∀ u ∈ us, string_unit u = true) ∧ l = us.flatten)) := by
  refine ⟨?_, ?_, units_exhaustive⟩
  · intro tail hlast hline
    have hscan := scan_string_units units ('"' :: tail) hunits (Or.inr ⟨rfl, hlast⟩)
    have hlex : lex s.token.base s.line_cursor 0 =
        ⟨⟨TOKEN_STRING, '"' :: (units.flatten ++ ['"']), s.token.base⟩, tail, 0, false⟩ := by
      rw [hline, lex_spaces _ ws _ 0 hws]
      simp only [lex]
      rw [if_neg (by decide), if_neg (by decide), if_neg (by decide), if_neg (by decide),
        if_neg (by decide), if_neg (by decide), if_pos (by decide)]
      simp only [hscan, List.cons_append]
    simp only [next_token, hlex, Bool.false_eq_true, if_false, Nat.add_zero]
  · intro hline
    have hscan := scan_string_units units [] hunits (Or.inl rfl)
    rw [List.append_nil] at hscan
    have hlex : lex s.token.base s.line_cursor 0 =
        ⟨⟨TOKEN_STRING, '"' :: units.flatten, s.token.base⟩, [], 0, true⟩ := by
      rw [hline, lex_spaces _ ws _ 0 hws]
      simp only [lex]
      rw [if_neg (by decide), if_neg (by decide), if_neg (by decide), if_neg (by decide),
        if_neg (by decide), if_neg (by decide), if_pos (by decide)]
      simp only [hscan]
    simp only [next_token, hlex, if_true, Nat.add_zero, fatal_error]

theorem C22_string_tokens_witness :
    next_token string_line_state = Res.ok ()
      { string_line_state with
        token := ⟨TOKEN_STRING, ['"', 'a', '\\', '"', 'b', '"'], 0⟩,
        line_cursor := " ; c".toList } :=
  (C22_string_tokens string_line_state [' '] [['a'], ['\\', '"'], ['b']] (by decide)
    (by decide)).1 " ; c".toList (by decide) rfl

/-! ## C23: the symbol table -/

theorem findIdx_lt_of_mem (S : List symbol_t) (name : List Char)
    (h : ∃ sym ∈ S, sym.name = name) :
    S.findIdx (fun symbol => symbol.name == name) < S.length := by
  obtain ⟨sym, hmem, hname⟩ := h
  exact List.findIdx_lt_length_of_exists ⟨sym, hmem, by simp [hname]⟩

theorem findIdx_eq_of_not_mem (S : List symbol_t) (name : List Char)
    (h : ∀ sym ∈ S, sym.name ≠ name) :
    S.findIdx (fun symbol => symbol.name == name) = S.length := by
  apply List.findIdx_eq_length.mpr
  intro sym hmem
  simpa using h sym hmem

/-- C23: `get_symbol(name)` returns an entry of the table whose name is
`name` and leaves the table as it is when there is one (the first of them);
otherwise it appends one entry with that name, line number `0` (undefined)
and the empty sentinel as its pending chain, and returns it.  The names of the
symbol table are pairwise distinct in the state the loop of `main` leaves
behind for every source, on return and on termination; and a second lookup of
the name returns the entry the first one returned, with the table unchanged. -/
theorem C23_get_symbol (s : Asm) (name : List Char) :
    ((∃ sym ∈ s.symbols, sym.name = name) →
      ∃ i sym, get_symbol name s = Res.ok i s ∧ s.symbols[i]? = some sym ∧ sym.name = name ∧
        ∀ j other, j < i → s.symbols[j]? = some other → other.name ≠ name) ∧
    ((∀ sym ∈ s.symbols, sym.name ≠ name) →
      get_symbol name s = Res.ok s.symbols.length
        { s with symbols := s.symbols ++ [⟨name, 0, list_pool.«end»⟩] }) ∧
    (∀ lines : List (List Char),
      (main_loop lines Asm.init).holds (fun t => (names t.symbols).Nodup)) ∧
    (∃ i t, get_symbol name s = Res.ok i t ∧ get_symbol name t = Res.ok i t ∧
      (t.symbols[i]?).map (fun sym => sym.name) = some name) := by
  have hfound : (∃ sym ∈ s.symbols, sym.name = name) →
      ∃ i sym, get_symbol name s = Res.ok i s ∧ s.symbols[i]? = some sym ∧ sym.name = name ∧
        ∀ j other, j < i → s.symbols[j]? = some other → other.name ≠ name := by
    intro h
    have hlt := findIdx_lt_of_mem s.symbols name h
    refine ⟨s.symbols.findIdx (fun symbol => symbol.name == name),
      s.symbols[s.symbols.findIdx (fun symbol => symbol.name == name)], ?_, ?_, ?_, ?_⟩
    · simp only [get_symbol, if_pos hlt]
    · exact List.getElem?_eq_getElem hlt
    · have := @List.findIdx_getElem symbol_t (fun symbol => symbol.name == name) s.symbols hlt
      simpa using this
    · intro j other hj hother hname
      have hjlt : j < s.symbols.length := lt_trans hj hlt
      have := @List.not_of_lt_findIdx symbol_t (fun symbol => symbol.name == name) s.symbols j hj
      rw [List.getElem?_eq_getElem hjlt] at hother
      injection hother with hother
      rw [hother] at this
      simp [hname] at this
  have hnew : (∀ sym ∈ s.symbols, sym.name ≠ name) →
      get_symbol name s = Res.ok s.symbols.length
        { s with symbols := s.symbols ++ [⟨name, 0, list_pool.«end»⟩] } := by
    intro h
    have heq := findIdx_eq_of_not_mem s.symbols name h
    simp only [get_symbol, heq, lt_irrefl, if_false]
    rfl
  refine ⟨hfound, hnew, ?_, ?_⟩
  · intro lines
    have h := kept_main_loop lines Asm.init
    cases hr : main_loop lines Asm.init with
    | ok a t =>
      rw [hr] at h
      exact h.2.2 List.nodup_nil
    | exit t =>
      rw [hr] at h
      exact h.2.2 List.nodup_nil
    | undef => trivial
  · by_cases h : ∃ sym ∈ s.symbols, sym.name = name
    · obtain ⟨i, sym, hget, hsym, hname, -⟩ := hfound h
      exact ⟨i, s, hget, hget, by rw [hsym]; simp [hname]⟩
    · have h2 : ∀ sym ∈ s.symbols, sym.name ≠ name := by
        intro sym hmem hname
        exact h ⟨sym, hmem, hname⟩
      have hget := hnew h2
      refine ⟨_, _, hget, ?_, ?_⟩
      · have hidx : (s.symbols ++ [(⟨name, 0, list_pool.«end»⟩ : symbol_t)]).findIdx
            (fun symbol => symbol.name == name) = s.symbols.length := by
          rw [List.findIdx_append, findIdx_eq_of_not_mem s.symbols name h2]
          simp [List.findIdx_cons]
        simp only [get_symbol, hidx, List.length_append, List.length_singleton,
          Nat.lt_add_one, if_true]
      · simp

theorem C23_get_symbol_witness :
    get_symbol "Y".toList defined_state = Res.ok 1
      { defined_state with
        symbols := defined_state.symbols ++ [⟨"Y".toList, 0, list_pool.«end»⟩] } :=
  ((C23_get_symbol defined_state "Y".toList).2.1 (by decide!)).trans (by decide!)

/-! ## C24: the loops of `parse_integer` -/

theorem digits_of_cons (base : Nat) (c : Char) (cs : List Char)
    (h : digits_of base (c :: cs) = true) :
    0 ≤ ordinal c ∧ ordinal c < base ∧ digits_of base cs = true := by
  simp only [digits_of, List.all_cons, Bool.and_eq_true, decide_eq_true_eq] at h
  exact ⟨h.1.1, h.1.2, by simpa [digits_of] using h.2⟩

/-- The loop of `parse_integer_nonnegative` for a type with the maximum `M`:
it reads the longest prefix whose value is at most `M` and returns that value. -/
theorem parse_integer_nonnegative_reads (N : int_type) (M base : Nat) (hmax : N.max = (M : Int))
    (hconv : ∀ i : Int, 0 ≤ i → i ≤ (M : Int) → N.conv i = i)
    (hb : 0 < base) (hb2 : base ≤ M) (ds : List Char) (hds : digits_of base ds = true)
    (x : Nat) (hx : x ≤ M) :
    ∃ consumed rest, ds = consumed ++ rest ∧
      parse_integer_nonnegative N ds x base = (rest, (digits_value base consumed x : Int)) ∧
      digits_value base consumed x ≤ M ∧
      (rest = [] ↔ digits_value base ds x ≤ M) := by
  induction ds generalizing x with
  | nil =>
    refine ⟨[], [], rfl, ?_, ?_, ?_⟩
    · simp [digits_value, parse_integer_nonnegative]
    · simpa [digits_value] using hx
    · simpa [digits_value] using hx
  | cons c cs ih =>
    obtain ⟨h0, h1, hcs⟩ := digits_of_cons base c cs hds
    have hd : N.conv (ordinal c) = ((ordinal c).toNat : Int) := by
      rw [hconv (ordinal c) h0 (by omega)]
      omega
    have hdn : (ordinal c).toNat < base := by omega
    have htd : Int.tdiv (N.max - ((ordinal c).toNat : Int)) (base : Int)
        = (((M - (ordinal c).toNat) / base : Nat) : Int) := by
      rw [hmax, Int.tdiv_eq_ediv (by omega) (by omega)]
      have : ((M : Int) - ((ordinal c).toNat : Int)) = ((M - (ordinal c).toNat : Nat) : Int) := by
        omega
      rw [this]
      rfl
    have key : (x ≤ (M - (ordinal c).toNat) / base) ↔ x * base + (ordinal c).toNat ≤ M := by
      rw [Nat.le_div_iff_mul_le hb]
      omega
    by_cases hfit : x * base + (ordinal c).toNat ≤ M
    · have hle := key.mpr hfit
      have hnot : ¬ ((x : Int) > (((M - (ordinal c).toNat) / base : Nat) : Int)) := by
        omega
      have hconv2 : N.conv ((x : Int) * (base : Int) + ((ordinal c).toNat : Int))
          = ((x * base + (ordinal c).toNat : Nat) : Int) := by
        rw [hconv _ (by positivity) (by exact_mod_cast hfit)]
        push_cast
        rfl
      obtain ⟨consumed, rest, heq, hp, hv, hiff⟩ := ih hcs (x * base + (ordinal c).toNat) hfit
      refine ⟨c :: consumed, rest, by rw [heq]; rfl, ?_, ?_, ?_⟩
      · simp only [parse_integer_nonnegative, hd, htd, if_neg hnot, hconv2, hp, digits_value]
      · simpa [digits_value] using hv
      · simpa [digits_value] using hiff
    · have hgt : (x : Int) > (((M - (ordinal c).toNat) / base : Nat) : Int) := by
        have : ¬ (x ≤ (M - (ordinal c).toNat) / base) := fun h => hfit (key.mp h)
        omega
      refine ⟨[], c :: cs, rfl, ?_, ?_, ?_⟩
      · simp only [parse_integer_nonnegative, hd, htd, if_pos hgt, digits_value]
      · simpa [digits_value] using hx
      · have := le_digits_value base hb cs (x * base + (ordinal c).toNat)
        simp only [digits_value, reduceCtorEq, false_iff, not_le]
        omega

theorem to_i16_of_range (i : Int) (h0 : -32768 ≤ i) (h1 : i ≤ 32767) : to_i16 i = i := by
  unfold to_i16
  omega

/-- The loop of `parse_integer_negative` for `std::int16_t`, started at `-y`:
it reads the longest prefix whose negated value is at least `-32768` and
returns that negated value. -/
theorem parse_integer_negative_reads (base : Nat) (hb : 0 < base) (hb2 : base ≤ 32767)
    (ds : List Char) (hds : digits_of base ds = true) (y : Nat) (hy : y ≤ 32768) :
    ∃ consumed rest, ds = consumed ++ rest ∧
      parse_integer_negative int16_t ds (-(y : Int)) base
        = (rest, -(digits_value base consumed y : Int)) ∧
      digits_value base consumed y ≤ 32768 ∧
      (rest = [] ↔ digits_value base ds y ≤ 32768) := by
  induction ds generalizing y with
  | nil =>
    refine ⟨[], [], rfl, ?_, ?_, ?_⟩
    · simp [digits_value, parse_integer_negative]
    · simpa [digits_value] using hy
    · simpa [digits_value] using hy
  | cons c cs ih =>
    obtain ⟨h0, h1, hcs⟩ := digits_of_cons base c cs hds
    have hd : int16_t.conv (ordinal c) = ((ordinal c).toNat : Int) := by
      show to_i16 (ordinal c) = _
      rw [to_i16_of_range _ (by omega) (by omega)]
      omega
    have hdn : (ordinal c).toNat < base := by omega
    have htd : Int.tdiv (int16_t.min + ((ordinal c).toNat : Int)) (base : Int)
        = -(((32768 - (ordinal c).toNat) / base : Nat) : Int) := by
      have : int16_t.min + ((ordinal c).toNat : Int)
          = -(((32768 - (ordinal c).toNat : Nat) : Int)) := by
        show (-32768 : Int) + _ = _
        omega
      rw [this, Int.neg_tdiv, Int.tdiv_eq_ediv (by omega) (by omega)]
      rfl
    have key : (y ≤ (32768 - (ordinal c).toNat) / base) ↔ y * base + (ordinal c).toNat ≤ 32768 := by
      rw [Nat.le_div_iff_mul_le hb]
      omega
    by_cases hfit : y * base + (ordinal c).toNat ≤ 32768
    · have hle := key.mpr hfit
      have hnot : ¬ (-(y : Int) < -(((32768 - (ordinal c).toNat) / base : Nat) : Int)) := by
        omega
      have hconv2 : int16_t.conv (-(y : Int) * (base : Int) - ((ordinal c).toNat : Int))
          = -((y * base + (ordinal c).toNat : Nat) : Int) := by
        show to_i16 _ = _
        have hnn : (0 : Int) ≤ (y : Int) * (base : Int) := by positivity
        have hle2 : (y : Int) * (base : Int) + ((ordinal c).toNat : Int) ≤ 32768 := by
          exact_mod_cast hfit
        rw [to_i16_of_range _ (by rw [neg_mul]; omega) (by rw [neg_mul]; omega)]
        push_cast
        rw [neg_mul]
        omega
      obtain ⟨consumed, rest, heq, hp, hv, hiff⟩ := ih hcs (y * base + (ordinal c).toNat) hfit
      refine ⟨c :: consumed, rest, by rw [heq]; rfl, ?_, ?_, ?_⟩
      · simp only [parse_integer_negative, hd, htd, if_neg hnot, hconv2, hp, digits_value]
      · simpa [digits_value] using hv
      · simpa [digits_value] using hiff
    · have hgt : -(y : Int) < -(((32768 - (ordinal c).toNat) / base : Nat) : Int) := by
        have : ¬ (y ≤ (32768 - (ordinal c).toNat) / base) := fun h => hfit (key.mp h)
        omega
      refine ⟨[], c :: cs, rfl, ?_, ?_, ?_⟩
      · simp only [parse_integer_negative, hd, htd, if_pos hgt, digits_value]
      · simpa [digits_value] using hy
      · have := le_digits_value base hb cs (y * base + (ordinal c).toNat)
        simp only [digits_value, reduceCtorEq, false_iff, not_le]
        omega

/-- C24: for a string `ds` of digits of the base 10 or 16, the loop
`parse_integer_nonnegative` for `u16`, started at `0`, reads the longest prefix
of `ds` whose value is at most 65535 and returns the exact value of that
prefix; it reads all of `ds` exactly if the value of `ds` is at most 65535.
For `std::int16_t`, `parse_integer` on `-` and `ds` reads the longest prefix
of `ds` whose negated value is at least `-32768` and returns minus the exact
value of that prefix; it reads all of `ds` exactly if minus the value of `ds`
is at least `-32768`.  For `std::int16_t` and `ds` without a sign it reads
all of `ds` exactly if the value is at most 32767.  So characters are left
over exactly when the literal is not representable. -/
theorem C24_parse_integer (base : Nat) (ds : List Char) (hbase : base = 10 ∨ base = 16)
    (hds : digits_of base ds = true) :
    (∃ consumed rest, ds = consumed ++ rest ∧
      parse_integer_nonnegative u16 ds 0 base = (rest, (digits_value base consumed 0 : Int)) ∧
      digits_value base consumed 0 ≤ 65535 ∧
      (rest = [] ↔ digits_value base ds 0 ≤ 65535)) ∧
    (∃ consumed rest, ds = consumed ++ rest ∧
      parse_integer int16_t ('-' :: ds) 0 base = (rest, -(digits_value base consumed 0 : Int)) ∧
      -(32768 : Int) ≤ -(digits_value base consumed 0 : Int) ∧
      (rest = [] ↔ -(digits_value base ds 0 : Int) ≥ -32768)) ∧
    (ds ≠ [] → ∃ consumed rest, ds = consumed ++ rest ∧
      parse_integer int16_t ds 0 base = (rest, (digits_value base consumed 0 : Int)) ∧
      digits_value base consumed 0 ≤ 32767 ∧
      (rest = [] ↔ digits_value base ds 0 ≤ 32767)) := by
  have hb : 0 < base := by omega
  have hb2 : base ≤ 32767 := by omega
  refine ⟨?_, ?_, ?_⟩
  · have := parse_integer_nonnegative_reads u16 65535 base rfl
      (fun i h0 h1 => by simp only [u16]; omega) hb (by omega) ds hds 0 (by omega)
    simpa using this
  · obtain ⟨consumed, rest, heq, hp, hv, hiff⟩ :=
      parse_integer_negative_reads base hb hb2 ds hds 0 (by omega)
    refine ⟨consumed, rest, heq, ?_, by omega, ?_⟩
    · simp only [parse_integer, int16_t, parse_integer_signed, if_true, beq_self_eq_true]
      simpa [int16_t] using hp
    · rw [hiff]
      omega
  · intro hne
    obtain ⟨consumed, rest, heq, hp, hv, hiff⟩ :=
      parse_integer_nonnegative_reads int16_t 32767 base rfl
        (fun i h0 h1 => to_i16_of_range i (by omega) h1) hb hb2 ds hds 0 (by omega)
    refine ⟨consumed, rest, heq, ?_, hv, hiff⟩
    cases ds with
    | nil => exact absurd rfl hne
    | cons c cs =>
      have hc := digits_of_head_ne_minus base c cs hds
      simp only [parse_integer, int16_t, parse_integer_signed, if_true, beq_iff_eq, hc, if_false]
      simpa [int16_t] using hp

theorem C24_parse_integer_witness :
    ∃ consumed rest, "65536".toList = consumed ++ rest ∧
      parse_integer_nonnegative u16 "65536".toList 0 10
        = (rest, (digits_value 10 consumed 0 : Int)) ∧
      digits_value 10 consumed 0 ≤ 65535 ∧
      (rest = [] ↔ digits_value 10 "65536".toList 0 ≤ 65535) :=
  (C24_parse_integer 10 "65536".toList (Or.inl rfl) (by decide)).1

/-! ## C25: the operation code of the emitted word -/

/-- C25 (code at the failing input): `LDR R1,R2,#-1` is assembled without an
error to the word `0xFFFF`, whose top four bits are not those of `0x6000`;
`LDR R1,R2,$1000` gives `0x7280`, the word of `STR R1,R2,#0`; `LDR R1,R2,#64`
gives `0x62C0`, where the base register field is `3`.  The operand of `LDR`
and `STR` is or-ed into the word as a 16-bit value.  `LDR R1,R2,#5` gives
`0x6285`. -/
theorem C25_load_store_relative :
    assemble ".ORIG $3000\nLDR R1,R2,#-1\n"
      = some ⟨EXIT_SUCCESS, 0, some [0x30, 0x00, 0xFF, 0xFF]⟩ ∧
    assemble ".ORIG $3000\nLDR R1,R2,$1000\n"
      = some ⟨EXIT_SUCCESS, 0, some [0x30, 0x00, 0x72, 0x80]⟩ ∧
    assemble ".ORIG $3000\nLDR R1,R2,#64\n"
      = some ⟨EXIT_SUCCESS, 0, some [0x30, 0x00, 0x62, 0xC0]⟩ ∧
    assemble ".ORIG $3000\nSTR R7,R0,$FFFF\n"
      = some ⟨EXIT_SUCCESS, 0, some [0x30, 0x00, 0xFF, 0xFF]⟩ ∧
    assemble ".ORIG $3000\nLDR R1,R2,#5\n"
      = some ⟨EXIT_SUCCESS, 0, some [0x30, 0x00, 0x62, 0x85]⟩ ∧
    (0xFFFF >>> 12 ≠ 0x6000 >>> 12 ∧ 0x7280 >>> 12 ≠ 0x6000 >>> 12 ∧
      register_index 0x62C0 6 ≠ 2) := by
  decide!

/-! ## C26: the targets of PC-relative references -/

/-- The base patterns of the table that take a label have an empty field. -/
theorem field_of_table :
    (opcodes.all (fun op =>
      match op.assemble_fn with
      | encoder.assemble_branch => op.base_code % 2 ^ 9 == 0
      | encoder.assemble_jump_subroutine => op.base_code % 2 ^ 11 == 0
      | encoder.assemble_load_store =>
        (List.range 8).all (fun r => (op.base_code ||| (r <<< 9)) % 2 ^ 9 == 0)
      | _ => true)) = true := by
  decide!

/-- The engine reads the fields of the word of an immediate `ADD` or `AND`. -/
theorem immediate_decode :
    ∀ b : Fin 2, ∀ d : Fin 8, ∀ r : Fin 8, ∀ f : Fin 32,
      register_index (immediate_word (0x1000 + 0x4000 * (b : Nat)) d r (((f : Nat) : Int) - 16)) 9 = d ∧
      register_index (immediate_word (0x1000 + 0x4000 * (b : Nat)) d r (((f : Nat) : Int) - 16)) 6 = r ∧
      (immediate_word (0x1000 + 0x4000 * (b : Nat)) d r (((f : Nat) : Int) - 16) >>> 5) &&& 1 = 1 ∧
      sign_extend_mask (immediate_word (0x1000 + 0x4000 * (b : Nat)) d r (((f : Nat) : Int) - 16)) 5
        = to_u16 (((f : Nat) : Int) - 16) ∧
      immediate_word (0x1000 + 0x4000 * (b : Nat)) d r (((f : Nat) : Int) - 16) >>> 12
        = (0x1000 + 0x4000 * (b : Nat)) >>> 12 := by
  decide!

theorem register_of_value (t : token_t) (d : Nat) (h : register_of t = some d) :
    ((t.text.getD 1 ' ').toNat - 48) % 65536 = d ∧ d ≤ 7 := by
  unfold register_of at h
  rcases htext : t.text with _ | ⟨c, _ | ⟨e, _ | ⟨g, rest⟩⟩⟩
  · simp [htext] at h
  · simp [htext] at h
  · rw [htext] at h
    simp only at h
    split at h
    · rename_i hc
      injection h with h
      simp only [List.getD_cons_succ, List.getD_cons_zero]
      omega
    · exact absurd h (by simp)
  · simp [htext] at h

theorem register_of_kind (t : token_t) (h : t.kind ≠ TOKEN_NAME) : register_of t = none := by
  unfold register_of
  split
  · rw [if_neg (fun hc => h hc.1)]
  · rfl

theorem expect_register_next (s t : Asm) (d : Nat) (hd : register_of s.token = some d)
    (h : next_token s = Res.ok () t) : expect_register s = Res.ok d t := by
  have hval := register_of_value s.token d hd
  simp only [expect_register, bind_apply, M.bind, peek_register_apply, hd, Option.isSome_some,
    if_true, get_apply, pure_apply, h, hval.1]

theorem match_next (s t : Asm) (x : token_kind) (hk : s.token.kind = x)
    (h : next_token s = Res.ok () t) : «match» x s = Res.ok true t := by
  simp only [«match», bind_apply, M.bind, peek_apply, hk, beq_self_eq_true, if_true, h,
    pure_apply]

/-- The function `parse_integer` for `std::int16_t` on the text of an integer
token behind its marker, for a value the type holds. -/
theorem parse_integer_int16_token (base : Nat) (negative : Bool) (ds : List Char)
    (hbase : base = 10 ∨ base = 16) (hds : ds ≠ []) (hdig : digits_of base ds = true)
    (hv : -32768 ≤ token_value base negative ds ∧ token_value base negative ds ≤ 32767) :
    parse_integer int16_t (sign_text negative ++ ds) 0 base
      = ([], token_value base negative ds) := by
  have hb : 0 < base := by omega
  have hb2 : base ≤ 32767 := by omega
  cases negative with
  | true =>
    simp only [token_value, if_true] at hv ⊢
    obtain ⟨consumed, rest, heq, hp, -, hiff⟩ :=
      parse_integer_negative_reads base hb hb2 ds hdig 0 (by omega)
    have hrest : rest = [] := hiff.mpr (by omega)
    subst hrest
    rw [List.append_nil] at heq
    subst heq
    simp only [parse_integer, int16_t, parse_integer_signed, if_true, sign_text,
      List.cons_append, List.nil_append, beq_self_eq_true]
    simpa [int16_t] using hp
  | false =>
    simp only [token_value, Bool.false_eq_true, if_false] at hv ⊢
    obtain ⟨consumed, rest, heq, hp, -, hiff⟩ :=
      parse_integer_nonnegative_reads int16_t 32767 base rfl
        (fun i h0 h1 => to_i16_of_range i (by omega) h1) hb hb2 ds hdig 0 (by omega)
    have hrest : rest = [] := hiff.mpr (by omega)
    subst hrest
    rw [List.append_nil] at heq
    subst heq
    cases hcs : ds with
    | nil => exact absurd hcs hds
    | cons c cs =>
      rw [hcs] at hdig hp
      have hc := digits_of_head_ne_minus base c cs hdig
      simp only [parse_integer, int16_t, parse_integer_signed, if_true, sign_text,
        Bool.false_eq_true, if_false, List.nil_append, beq_iff_eq, hc]
      simpa [int16_t] using hp

theorem to_u16_and_31 (v : Int) : to_u16 v &&& 0x1F = (v % 32).toNat := by
  unfold to_u16
  have := Nat.and_pow_two_sub_one_eq_mod (v % 65536).toNat 5
  simp only [Nat.reducePow, Nat.reduceSub] at this
  rw [this]
  omega

/-- C27: for the tokens of `ADD Rd,Rs,#v` or `AND Rd,Rs,#v` (a register token
for `d`, a comma, a register token for `r`, a comma, and an integer token of
the value `v` between `-16` and `15`, each read by `next_token`),
`assemble_add_and` returns without an error of its own and appends the word
`base | d << 9 | r << 6 | 0x20 | (v mod 32)` to the image; the engine reads
from that word the destination `d`, the source `r`, the immediate flag, the
immediate `v mod 2^16`, and the operation code of the base pattern. -/
theorem C27_add_immediate (s t1 t2 t3 t4 t5 : Asm) (op : opcode_t) (d r : Nat) (marker : Char)
    (negative : Bool) (ds : List Char) (base : Nat)
    (hop : op.base_code = 0x1000 ∨ op.base_code = 0x5000)
    (hbase : base = 10 ∨ base = 16) (hds : ds ≠ []) (hdig : digits_of base ds = true)
    (hv : -16 ≤ token_value base negative ds ∧ token_value base negative ds ≤ 15)
    (hd : register_of s.token = some d) (h1 : next_token s = Res.ok () t1)
    (hc1 : t1.token.kind = TOKEN_COMMA) (h2 : next_token t1 = Res.ok () t2)
    (hr : register_of t2.token = some r) (h3 : next_token t2 = Res.ok () t3)
    (hc3 : t3.token.kind = TOKEN_COMMA) (h4 : next_token t3 = Res.ok () t4)
    (htok : t4.token = ⟨TOKEN_INTEGER, marker :: (sign_text negative ++ ds), base⟩)
    (h5 : next_token t4 = Res.ok () t5) (hcap : t5.object.length ≤ 65536) :
    assemble_add_and op s = Res.ok ()
      { t5 with object := t5.object ++
          [immediate_word op.base_code d r (token_value base negative ds)] } ∧
    register_index (immediate_word op.base_code d r (token_value base negative ds)) 9 = d ∧
    register_index (immediate_word op.base_code d r (token_value base negative ds)) 6 = r ∧
    (immediate_word op.base_code d r (token_value base negative ds) >>> 5) &&& 1 = 1 ∧
    sign_extend_mask (immediate_word op.base_code d r (token_value base negative ds)) 5
      = to_u16 (token_value base negative ds) ∧
    immediate_word op.base_code d r (token_value base negative ds) >>> 12
      = op.base_code >>> 12 := by
  have hd7 := (register_of_value s.token d hd).2
  have hr7 := (register_of_value t2.token r hr).2
  constructor
  · have e1 := expect_register_next s t1 d hd h1
    have e2 := match_next t1 t2 TOKEN_COMMA hc1 h2
    have e3 := expect_register_next t2 t3 r hr h3
    have e4 := match_next t3 t4 TOKEN_COMMA hc3 h4
    have hk4 : t4.token.kind = TOKEN_INTEGER := by rw [htok]
    have e5 : peek_register t4 = Res.ok false t4 := by
      rw [peek_register_apply, register_of_kind t4.token (by rw [hk4]; decide)]
      rfl
    have e6 : expect t4 = Res.ok t4.token t5 := by
      simp only [expect, bind_apply, M.bind, get_apply, h5, pure_apply]
    have hparse := parse_integer_int16_token base negative ds hbase hds hdig
      ⟨by omega, by omega⟩
    have htxt : t4.token.text.drop 1 = sign_text negative ++ ds := by rw [htok]; rfl
    have hbs : t4.token.base = base := by rw [htok]
    have hcond : ¬ ((decide (([] : List Char) ≠ []) || decide (token_value base negative ds < -16)
        || decide (token_value base negative ds > 16)) = true) := by
      simp only [ne_eq, not_true_eq_false, decide_False, Bool.false_or, Bool.or_eq_true,
        decide_eq_true_eq, not_or, not_lt]
      omega
    simp only [assemble_add_and, bind_apply, M.bind, e1, e2, e3, e4, e5, Bool.false_eq_true,
      if_false, peek_apply, hk4, beq_self_eq_true, if_true, e6, htxt, hbs, hparse, hcond,
      pure_apply, write_instruction_ok _ t5 hcap, to_u16_and_31]
    rfl
  · have hf : (token_value base negative ds + 16).toNat < 32 := by omega
    have hveq : token_value base negative ds
        = (((token_value base negative ds + 16).toNat : Nat) : Int) - 16 := by omega
    rcases hop with h | h
    · have := immediate_decode 0 ⟨d, by omega⟩ ⟨r, by omega⟩ ⟨_, hf⟩
      simp only [Fin.val_zero, Nat.mul_zero, Nat.add_zero] at this
      rw [← hveq, ← h] at this
      exact this
    · have := immediate_decode 1 ⟨d, by omega⟩ ⟨r, by omega⟩ ⟨_, hf⟩
      simp only [Fin.val_one, Nat.mul_one, Nat.reduceAdd] at this
      rw [← hveq, ← h] at this
      exact this

theorem C27_add_immediate_witness :
    assemble_add_and ⟨"ADD".toList, 0x1000, encoder.assemble_add_and⟩ immediate_state
      = Res.ok ()
        { immediate_state with token := ⟨TOKEN_EOL, [], 10⟩, line_cursor := [],
                               object := [0x3000, 0x12BD] } ∧
    sign_extend_mask 0x12BD 5 = 0xFFFD :=
  (fun h => ⟨h.1.trans (by decide!), h.2.2.2.2.1.trans (by decide!)⟩)
    (C27_add_immediate immediate_state
      { immediate_state with token := ⟨TOKEN_COMMA, ",".toList, 16⟩,
                             line_cursor := "R2,#-3".toList }
      { immediate_state with token := ⟨TOKEN_NAME, "R2".toList, 16⟩,
                             line_cursor := ",#-3".toList }
      { immediate_state with token := ⟨TOKEN_COMMA, ",".toList, 16⟩,
                             line_cursor := "#-3".toList }
      { immediate_state with token := ⟨TOKEN_INTEGER, "#-3".toList, 10⟩, line_cursor := [] }
      { immediate_state with token := ⟨TOKEN_EOL, [], 10⟩, line_cursor := [] }
      ⟨"ADD".toList, 0x1000, encoder.assemble_add_and⟩ 1 2 '#' true "3".toList 10
      (Or.inl rfl) (Or.inl rfl) (by decide) (by decide) (by decide!) (by decide!) (by decide!)
      (by decide!) (by decide!) (by decide!) (by decide!) (by decide!) (by decide!) (by decide!)
      (by decide!) (by decide!))

/-! ## C28: accesses to the image -/

/-- C28 (code at the failing inputs): with a label in front of the first
statement, `X: .ORIG $3000`, the label definition of `main` reads
`location_counter()`, that is `object[0]`, of the empty image.  With
`BR X $3000` as the first statement the reference to `X` is queued at the
position `0` under the placeholder load address; the definition `X: HALT`
then patches the index `0 + 1 - 0x3000`, which is negative.  The same index
is met behind a wrapped location counter (`.ORIG $FFFF`, `HALT`, `BR X`,
`X: HALT`).  In every state with an empty image `location_counter` is an
access outside the image, and so is `fix_forward_references` for a position
more than one before the load address. -/
theorem C28_image_access :
    assemble "X: .ORIG $3000\n" = none ∧
    process_line "X: .ORIG $3000".toList Asm.init = Res.undef ∧
    assemble "BR X $3000\nX: HALT\n" = none ∧
    ((run (getlines "BR X $3000\n".toList)).returned.map
        (fun s => (s.object, s.symbols, s.pool.value 1)))
      = some ([0x3000, 0x0E00], [⟨"X".toList, 0, 1⟩], some 0) ∧
    assemble ".ORIG $FFFF\nHALT\nBR X\nX: HALT\n" = none ∧
    (∀ s : Asm, s.object = [] → location_counter s = Res.undef) ∧
    (∀ (s : Asm) (position load : Nat), s.object[0]? = some load → position + 1 < load →
      fix_forward_references position s = Res.undef) := by
  refine ⟨by decide!, by decide!, by decide!, by decide!, by decide!, ?_, ?_⟩
  · intro s h
    simp [location_counter, h]
  · intro s position load h0 hlt
    have hneg : (position : Int) + 1 - (load : Int) < 0 := by omega
    simp only [fix_forward_references, bind_apply, M.bind, get_apply, h0, access, M_pure_apply,
      if_pos hneg, undef]

theorem C28_image_access_witness :
    fix_forward_references 0 { Asm.init with object := [0x3000, 0x0E00] } = Res.undef :=
  C28_image_access.2.2.2.2.2.2 { Asm.init with object := [0x3000, 0x0E00] } 0 0x3000 rfl
    (by decide)

/-! ## The error count never falls -/

theorem errors_kept_refl (s : Asm) : errors_kept s s := Nat.le_refl _

theorem errors_kept_trans (a b c : Asm) (h1 : errors_kept a b) (h2 : errors_kept b c) :
    errors_kept a c := Nat.le_trans h1 h2

theorem errors_get : Preserves errors_kept get := fun s => errors_kept_refl s

theorem errors_peek (x : token_kind) : Preserves errors_kept (peek x) :=
  fun s => errors_kept_refl s

theorem errors_error (n : Nat) : Preserves errors_kept (error n) := by
  intro s
  unfold error
  simp only
  split <;> exact Nat.le_succ _

theorem errors_fatal_error {α : Type} : Preserves errors_kept (fatal_error : M α) :=
  fun s => Nat.le_succ s.error_count

theorem errors_undef {α : Type} : Preserves errors_kept (undef : M α) := fun _ => trivial

theorem errors_abort {α : Type} : Preserves errors_kept (abort : M α) :=
  fun s => errors_kept_refl s

theorem errors_next_token : Preserves errors_kept next_token := by
  intro s
  rw [next_token_apply]
  split
  · show s.error_count ≤ s.error_count + _ + 1
    omega
  · show s.error_count ≤ s.error_count + _
    omega

theorem errors_peek_register : Preserves errors_kept peek_register :=
  fun s => errors_kept_refl s

theorem errors_location_counter : Preserves errors_kept location_counter := by
  intro s
  unfold location_counter
  split
  · trivial
  · exact errors_kept_refl s

theorem errors_access {α : Type} (o : Option α) : Preserves errors_kept (access o) := by
  intro s
  cases o <;> simp [access, undef, Res.holds, errors_kept]

theorem errors_pool_value (x : Nat) : Preserves errors_kept (pool_value x) := by
  intro s
  unfold pool_value
  split <;> simp [Res.holds, errors_kept]

theorem errors_pool_allocate (v t : Nat) : Preserves errors_kept (pool_allocate v t) := by
  intro s
  unfold pool_allocate
  split <;> simp [Res.holds, errors_kept]

theorem errors_pool_free (x : Nat) : Preserves errors_kept (pool_free x) := by
  intro s
  unfold pool_free
  split <;> simp [Res.holds, errors_kept]

theorem errors_read_symbol (i : Nat) : Preserves errors_kept (read_symbol i) := by
  intro s
  unfold read_symbol
  split <;> simp [Res.holds, errors_kept]

theorem errors_write_symbol (i : Nat) (symbol : symbol_t) :
    Preserves errors_kept (write_symbol i symbol) := by
  intro s
  unfold write_symbol
  split <;> simp [Res.holds, errors_kept]

theorem errors_get_symbol (name : List Char) : Preserves errors_kept (get_symbol name) := by
  intro s
  unfold get_symbol
  simp only
  split <;> simp [Res.holds, errors_kept]

theorem errors_modify (f : Asm → Asm) (h : ∀ s, (f s).error_count = s.error_count) :
    Preserves errors_kept (modify f) := fun s => Nat.le_of_eq (h s).symm

theorem errors_match (x : token_kind) :
    Preserves errors_kept («match» x) := by
  unfold «match»
  with_reducible repeat (first
    | exact errors_get
    | exact errors_peek _
    | exact errors_error _
    | exact errors_fatal_error
    | exact errors_undef
    | exact errors_abort
    | exact errors_next_token
    | exact errors_peek_register
    | exact errors_location_counter
    | exact errors_access _
    | exact errors_pool_value _
    | exact errors_pool_allocate _ _
    | exact errors_pool_free _
    | exact errors_read_symbol _
    | exact errors_write_symbol _ _
    | exact errors_get_symbol _
    | exact errors_modify _ (fun _ => rfl)
    | apply Preserves.pure errors_kept_refl
    | apply Preserves.bind errors_kept_trans
    | apply Preserves.ite
    | intro _)

theorem errors_expect : Preserves errors_kept expect := by
  unfold expect
  with_reducible repeat (first
    | exact errors_match _
    | exact errors_get
    | exact errors_peek _
    | exact errors_error _
    | exact errors_fatal_error
    | exact errors_undef
    | exact errors_abort
    | exact errors_next_token
    | exact errors_peek_register
    | exact errors_location_counter
    | exact errors_access _
    | exact errors_pool_value _
    | exact errors_pool_allocate _ _
    | exact errors_pool_free _
    | exact errors_read_symbol _
    | exact errors_write_symbol _ _
    | exact errors_get_symbol _
    | exact errors_modify _ (fun _ => rfl)
    | apply Preserves.pure errors_kept_refl
    | apply Preserves.bind errors_kept_trans
    | apply Preserves.ite
    | intro _)

theorem errors_expect_kind (x : token_kind) :
    Preserves errors_kept (expect_kind x) := by
  unfold expect_kind
  with_reducible repeat (first
    | exact errors_expect
    | exact errors_match _
    | exact errors_get
    | exact errors_peek _
    | exact errors_error _
    | exact errors_fatal_error
    | exact errors_undef
    | exact errors_abort
    | exact errors_next_token
    | exact errors_peek_register
    | exact errors_location_counter
    | exact errors_access _
    | exact errors_pool_value _
    | exact errors_pool_allocate _ _
    | exact errors_pool_free _
    | exact errors_read_symbol _
    | exact errors_write_symbol _ _
    | exact errors_get_symbol _
    | exact errors_modify _ (fun _ => rfl)
    | apply Preserves.pure errors_kept_refl
    | apply Preserves.bind errors_kept_trans
    | apply Preserves.ite
    | intro _)

theorem errors_expect_register : Preserves errors_kept expect_register := by
  unfold expect_register
  with_reducible repeat (first
    | exact errors_expect_kind _
    | exact errors_expect
    | exact errors_match _
    | exact errors_get
    | exact errors_peek _
    | exact errors_error _
    | exact errors_fatal_error
    | exact errors_undef
    | exact errors_abort
    | exact errors_next_token
    | exact errors_peek_register
    | exact errors_location_counter
    | exact errors_access _
    | exact errors_pool_value _
    | exact errors_pool_allocate _ _
    | exact errors_pool_free _
    | exact errors_read_symbol _
    | exact errors_write_symbol _ _
    | exact errors_get_symbol _
    | exact errors_modify _ (fun _ => rfl)
    | apply Preserves.pure errors_kept_refl
    | apply Preserves.bind errors_kept_trans
    | apply Preserves.ite
    | intro _)

theorem errors_write_instruction (x : Nat) :
    Preserves errors_kept (write_instruction x) := by
  unfold write_instruction
  with_reducible repeat (first
    | exact errors_expect_register
    | exact errors_expect_kind _
    | exact errors_expect
    | exact errors_match _
    | exact errors_get
    | exact errors_peek _
    | exact errors_error _
    | exact errors_fatal_error
    | exact errors_undef
    | exact errors_abort
    | exact errors_next_token
    | exact errors_peek_register
    | exact errors_location_counter
    | exact errors_access _
    | exact errors_pool_value _
    | exact errors_pool_allocate _ _
    | exact errors_pool_free _
    | exact errors_read_symbol _
    | exact errors_write_symbol _ _
    | exact errors_get_symbol _
    | exact errors_modify _ (fun _ => rfl)
    | apply Preserves.pure errors_kept_refl
    | apply Preserves.bind errors_kept_trans
    | apply Preserves.ite
    | intro _)

theorem errors_assemble_add_and (op : opcode_t) :
    Preserves errors_kept (assemble_add_and op) := by
  unfold assemble_add_and
  with_reducible repeat (first
    | exact errors_write_instruction _
    | exact errors_expect_register
    | exact errors_expect_kind _
    | exact errors_expect
    | exact errors_match _
    | exact errors_get
    | exact errors_peek _
    | exact errors_error _
    | exact errors_fatal_error
    | exact errors_undef
    | exact errors_abort
    | exact errors_next_token
    | exact errors_peek_register
    | exact errors_location_counter
    | exact errors_access _
    | exact errors_pool_value _
    | exact errors_pool_allocate _ _
    | exact errors_pool_free _
    | exact errors_read_symbol _
    | exact errors_write_symbol _ _
    | exact errors_get_symbol _
    | exact errors_modify _ (fun _ => rfl)
    | apply Preserves.pure errors_kept_refl
    | apply Preserves.bind errors_kept_trans
    | apply Preserves.ite
    | intro _)

theorem errors_assemble_label (symbol base_code n : Nat) :
    Preserves errors_kept (assemble_label symbol base_code n) := by
  unfold assemble_label
  with_reducible repeat (first
    | exact errors_assemble_add_and _
    | exact errors_write_instruction _
    | exact errors_expect_register
    | exact errors_expect_kind _
    | exact errors_expect
    | exact errors_match _
    | exact errors_get
    | exact errors_peek _
    | exact errors_error _
    | exact errors_fatal_error
    | exact errors_undef
    | exact errors_abort
    | exact errors_next_token
    | exact errors_peek_register
    | exact errors_location_counter
    | exact errors_access _
    | exact errors_pool_value _
    | exact errors_pool_allocate _ _
    | exact errors_pool_free _
    | exact errors_read_symbol _
    | exact errors_write_symbol _ _
    | exact errors_get_symbol _
    | exact errors_modify _ (fun _ => rfl)
    | apply Preserves.pure errors_kept_refl
    | apply Preserves.bind errors_kept_trans
    | apply Preserves.ite
    | intro _)

theorem errors_assemble_branch (op : opcode_t) :
    Preserves errors_kept (assemble_branch op) := by
  unfold assemble_branch
  with_reducible repeat (first
    | exact errors_assemble_label _ _ _
    | exact errors_assemble_add_and _
    | exact errors_write_instruction _
    | exact errors_expect_register
    | exact errors_expect_kind _
    | exact errors_expect
    | exact errors_match _
    | exact errors_get
    | exact errors_peek _
    | exact errors_error _
    | exact errors_fatal_error
    | exact errors_undef
    | exact errors_abort
    | exact errors_next_token
    | exact errors_peek_register
    | exact errors_location_counter
    | exact errors_access _
    | exact errors_pool_value _
    | exact errors_pool_allocate _ _
    | exact errors_pool_free _
    | exact errors_read_symbol _
    | exact errors_write_symbol _ _
    | exact errors_get_symbol _
    | exact errors_modify _ (fun _ => rfl)
    | apply Preserves.pure errors_kept_refl
    | apply Preserves.bind errors_kept_trans
    | apply Preserves.ite
    | intro _)

theorem errors_assemble_jump (op : opcode_t) :
    Preserves errors_kept (assemble_jump op) := by
  unfold assemble_jump
  with_reducible repeat (first
    | exact errors_assemble_branch _
    | exact errors_assemble_label _ _ _
    | exact errors_assemble_add_and _
    | exact errors_write_instruction _
    | exact errors_expect_register
    | exact errors_expect_kind _
    | exact errors_expect
    | exact errors_match _
    | exact errors_get
    | exact errors_peek _
    | exact errors_error _
    | exact errors_fatal_error
    | exact errors_undef
    | exact errors_abort
    | exact errors_next_token
    | exact errors_peek_register
    | exact errors_location_counter
    | exact errors_access _
    | exact errors_pool_value _
    | exact errors_pool_allocate _ _
    | exact errors_pool_free _
    | exact errors_read_symbol _
    | exact errors_write_symbol _ _
    | exact errors_get_symbol _
    | exact errors_modify _ (fun _ => rfl)
    | apply Preserves.pure errors_kept_refl
    | apply Preserves.bind errors_kept_trans
    | apply Preserves.ite
    | intro _)

theorem errors_assemble_jump_subroutine (op : opcode_t) :
    Preserves errors_kept (assemble_jump_subroutine op) := by
  unfold assemble_jump_subroutine
  with_reducible repeat (first
    | exact errors_assemble_jump _
    | exact errors_assemble_branch _
    | exact errors_assemble_label _ _ _
    | exact errors_assemble_add_and _
    | exact errors_write_instruction _
    | exact errors_expect_register
    | exact errors_expect_kind _
    | exact errors_expect
    | exact errors_match _
    | exact errors_get
    | exact errors_peek _
    | exact errors_error _
    | exact errors_fatal_error
    | exact errors_undef
    | exact errors_abort
    | exact errors_next_token
    | exact errors_peek_register
    | exact errors_location_counter
    | exact errors_access _
    | exact errors_pool_value _
    | exact errors_pool_allocate _ _
    | exact errors_pool_free _
    | exact errors_read_symbol _
    | exact errors_write_symbol _ _
    | exact errors_get_symbol _
    | exact errors_modify _ (fun _ => rfl)
    | apply Preserves.pure errors_kept_refl
    | apply Preserves.bind errors_kept_trans
    | apply Preserves.ite
    | intro _)

theorem errors_assemble_load_store (op : opcode_t) :
    Preserves errors_kept (assemble_load_store op) := by
  unfold assemble_load_store
  with_reducible repeat (first
    | exact errors_assemble_jump_subroutine _
    | exact errors_assemble_jump _
    | exact errors_assemble_branch _
    | exact errors_assemble_label _ _ _
    | exact errors_assemble_add_and _
    | exact errors_write_instruction _
    | exact errors_expect_register
    | exact errors_expect_kind _
    | exact errors_expect
    | exact errors_match _
    | exact errors_get
    | exact errors_peek _
    | exact errors_error _
    | exact errors_fatal_error
    | exact errors_undef
    | exact errors_abort
    | exact errors_next_token
    | exact errors_peek_register
    | exact errors_location_counter
    | exact errors_access _
    | exact errors_pool_value _
    | exact errors_pool_allocate _ _
    | exact errors_pool_free _
    | exact errors_read_symbol _
    | exact errors_write_symbol _ _
    | exact errors_get_symbol _
    | exact errors_modify _ (fun _ => rfl)
    | apply Preserves.pure errors_kept_refl
    | apply Preserves.bind errors_kept_trans
    | apply Preserves.ite
    | intro _)

theorem errors_assemble_load_store_relative (op : opcode_t) :
    Preserves errors_kept (assemble_load_store_relative op) := by
  unfold assemble_load_store_relative
  with_reducible repeat (first
    | exact errors_assemble_load_store _
    | exact errors_assemble_jump_subroutine _
    | exact errors_assemble_jump _
    | exact errors_assemble_branch _
    | exact errors_assemble_label _ _ _
    | exact errors_assemble_add_and _
    | exact errors_write_instruction _
    | exact errors_expect_register
    | exact errors_expect_kind _
    | exact errors_expect
    | exact errors_match _
    | exact errors_get
    | exact errors_peek _
    | exact errors_error _
    | exact errors_fatal_error
    | exact errors_undef
    | exact errors_abort
    | exact errors_next_token
    | exact errors_peek_register
    | exact errors_location_counter
    | exact errors_access _
    | exact errors_pool_value _
    | exact errors_pool_allocate _ _
    | exact errors_pool_free _
    | exact errors_read_symbol _
    | exact errors_write_symbol _ _
    | exact errors_get_symbol _
    | exact errors_modify _ (fun _ => rfl)
    | apply Preserves.pure errors_kept_refl
    | apply Preserves.bind errors_kept_trans
    | apply Preserves.ite
    | intro _)

theorem errors_assemble_not (op : opcode_t) :
    Preserves errors_kept (assemble_not op) := by
  unfold assemble_not
  with_reducible repeat (first
    | exact errors_assemble_load_store_relative _
    | exact errors_assemble_load_store _
    | exact errors_assemble_jump_subroutine _
    | exact errors_assemble_jump _
    | exact errors_assemble_branch _
    | exact errors_assemble_label _ _ _
    | exact errors_assemble_add_and _
    | exact errors_write_instruction _
    | exact errors_expect_register
    | exact errors_expect_kind _
    | exact errors_expect
    | exact errors_match _
    | exact errors_get
    | exact errors_peek _
    | exact errors_error _
    | exact errors_fatal_error
    | exact errors_undef
    | exact errors_abort
    | exact errors_next_token
    | exact errors_peek_register
    | exact errors_location_counter
    | exact errors_access _
    | exact errors_pool_value _
    | exact errors_pool_allocate _ _
    | exact errors_pool_free _
    | exact errors_read_symbol _
    | exact errors_write_symbol _ _
    | exact errors_get_symbol _
    | exact errors_modify _ (fun _ => rfl)
    | apply Preserves.pure errors_kept_refl
    | apply Preserves.bind errors_kept_trans
    | apply Preserves.ite
    | intro _)

theorem errors_assemble_trap (op : opcode_t) :
    Preserves errors_kept (assemble_trap op) := by
  unfold assemble_trap
  with_reducible repeat (first
    | exact errors_assemble_not _
    | exact errors_assemble_load_store_relative _
    | exact errors_assemble_load_store _
    | exact errors_assemble_jump_subroutine _
    | exact errors_assemble_jump _
    | exact errors_assemble_branch _
    | exact errors_assemble_label _ _ _
    | exact errors_assemble_add_and _
    | exact errors_write_instruction _
    | exact errors_expect_register
    | exact errors_expect_kind _
    | exact errors_expect
    | exact errors_match _
    | exact errors_get
    | exact errors_peek _
    | exact errors_error _
    | exact errors_fatal_error
    | exact errors_undef
    | exact errors_abort
    | exact errors_next_token
    | exact errors_peek_register
    | exact errors_location_counter
    | exact errors_access _
    | exact errors_pool_value _
    | exact errors_pool_allocate _ _
    | exact errors_pool_free _
    | exact errors_read_symbol _
    | exact errors_write_symbol _ _
    | exact errors_get_symbol _
    | exact errors_modify _ (fun _ => rfl)
    | apply Preserves.pure errors_kept_refl
    | apply Preserves.bind errors_kept_trans
    | apply Preserves.ite
    | intro _)

theorem errors_assemble_base_code (op : opcode_t) :
    Preserves errors_kept (assemble_base_code op) := by
  unfold assemble_base_code
  with_reducible repeat (first
    | exact errors_assemble_trap _
    | exact errors_assemble_not _
    | exact errors_assemble_load_store_relative _
    | exact errors_assemble_load_store _
    | exact errors_assemble_jump_subroutine _
    | exact errors_assemble_jump _
    | exact errors_assemble_branch _
    | exact errors_assemble_label _ _ _
    | exact errors_assemble_add_and _
    | exact errors_write_instruction _
    | exact errors_expect_register
    | exact errors_expect_kind _
    | exact errors_expect
    | exact errors_match _
    | exact errors_get
    | exact errors_peek _
    | exact errors_error _
    | exact errors_fatal_error
    | exact errors_undef
    | exact errors_abort
    | exact errors_next_token
    | exact errors_peek_register
    | exact errors_location_counter
    | exact errors_access _
    | exact errors_pool_value _
    | exact errors_pool_allocate _ _
    | exact errors_pool_free _
    | exact errors_read_symbol _
    | exact errors_write_symbol _ _
    | exact errors_get_symbol _
    | exact errors_modify _ (fun _ => rfl)
    | apply Preserves.pure errors_kept_refl
    | apply Preserves.bind errors_kept_trans
    | apply Preserves.ite
    | intro _)

theorem errors_directive_end (op : opcode_t) :
    Preserves errors_kept (directive_end op) := by
  unfold directive_end
  with_reducible repeat (first
    | exact errors_assemble_base_code _
    | exact errors_assemble_trap _
    | exact errors_assemble_not _
    | exact errors_assemble_load_store_relative _
    | exact errors_assemble_load_store _
    | exact errors_assemble_jump_subroutine _
    | exact errors_assemble_jump _
    | exact errors_assemble_branch _
    | exact errors_assemble_label _ _ _
    | exact errors_assemble_add_and _
    | exact errors_write_instruction _
    | exact errors_expect_register
    | exact errors_expect_kind _
    | exact errors_expect
    | exact errors_match _
    | exact errors_get
    | exact errors_peek _
    | exact errors_error _
    | exact errors_fatal_error
    | exact errors_undef
    | exact errors_abort
    | exact errors_next_token
    | exact errors_peek_register
    | exact errors_location_counter
    | exact errors_access _
    | exact errors_pool_value _
    | exact errors_pool_allocate _ _
    | exact errors_pool_free _
    | exact errors_read_symbol _
    | exact errors_write_symbol _ _
    | exact errors_get_symbol _
    | exact errors_modify _ (fun _ => rfl)
    | apply Preserves.pure errors_kept_refl
    | apply Preserves.bind errors_kept_trans
    | apply Preserves.ite
    | intro _)

theorem errors_write_zeros (n : Nat) : Preserves errors_kept (write_zeros n) := by
  induction n with
  | zero => exact Preserves.pure errors_kept_refl ()
  | succ n ih =>
    unfold write_zeros
    exact Preserves.bind errors_kept_trans (errors_write_instruction 0) (fun _ => ih)

theorem errors_write_chars (cs : List Char) : Preserves errors_kept (write_chars cs) := by
  induction cs with
  | nil => exact Preserves.pure errors_kept_refl ()
  | cons c cs ih =>
    unfold write_chars
    exact Preserves.bind errors_kept_trans (errors_write_instruction _) (fun _ => ih)

theorem errors_directive_blkw (op : opcode_t) :
    Preserves errors_kept (directive_blkw op) := by
  unfold directive_blkw
  with_reducible repeat (first
    | exact errors_write_chars _
    | exact errors_write_zeros _
    | exact errors_directive_end _
    | exact errors_assemble_base_code _
    | exact errors_assemble_trap _
    | exact errors_assemble_not _
    | exact errors_assemble_load_store_relative _
    | exact errors_assemble_load_store _
    | exact errors_assemble_jump_subroutine _
    | exact errors_assemble_jump _
    | exact errors_assemble_branch _
    | exact errors_assemble_label _ _ _
    | exact errors_assemble_add_and _
    | exact errors_write_instruction _
    | exact errors_expect_register
    | exact errors_expect_kind _
    | exact errors_expect
    | exact errors_match _
    | exact errors_get
    | exact errors_peek _
    | exact errors_error _
    | exact errors_fatal_error
    | exact errors_undef
    | exact errors_abort
    | exact errors_next_token
    | exact errors_peek_register
    | exact errors_location_counter
    | exact errors_access _
    | exact errors_pool_value _
    | exact errors_pool_allocate _ _
    | exact errors_pool_free _
    | exact errors_read_symbol _
    | exact errors_write_symbol _ _
    | exact errors_get_symbol _
    | exact errors_modify _ (fun _ => rfl)
    | apply Preserves.pure errors_kept_refl
    | apply Preserves.bind errors_kept_trans
    | apply Preserves.ite
    | intro _)

theorem errors_directive_fill (op : opcode_t) :
    Preserves errors_kept (directive_fill op) := by
  unfold directive_fill
  with_reducible repeat (first
    | exact errors_directive_blkw _
    | exact errors_write_chars _
    | exact errors_write_zeros _
    | exact errors_directive_end _
    | exact errors_assemble_base_code _
    | exact errors_assemble_trap _
    | exact errors_assemble_not _
    | exact errors_assemble_load_store_relative _
    | exact errors_assemble_load_store _
    | exact errors_assemble_jump_subroutine _
    | exact errors_assemble_jump _
    | exact errors_assemble_branch _
    | exact errors_assemble_label _ _ _
    | exact errors_assemble_add_and _
    | exact errors_write_instruction _
    | exact errors_expect_register
    | exact errors_expect_kind _
    | exact errors_expect
    | exact errors_match _
    | exact errors_get
    | exact errors_peek _
    | exact errors_error _
    | exact errors_fatal_error
    | exact errors_undef
    | exact errors_abort
    | exact errors_next_token
    | exact errors_peek_register
    | exact errors_location_counter
    | exact errors_access _
    | exact errors_pool_value _
    | exact errors_pool_allocate _ _
    | exact errors_pool_free _
    | exact errors_read_symbol _
    | exact errors_write_symbol _ _
    | exact errors_get_symbol _
    | exact errors_modify _ (fun _ => rfl)
    | apply Preserves.pure errors_kept_refl
    | apply Preserves.bind errors_kept_trans
    | apply Preserves.ite
    | intro _)

theorem errors_directive_stringz (op : opcode_t) :
    Preserves errors_kept (directive_stringz op) := by
  unfold directive_stringz
  with_reducible repeat (first
    | split
    | exact errors_directive_fill _
    | exact errors_directive_blkw _
    | exact errors_write_chars _
    | exact errors_write_zeros _
    | exact errors_directive_end _
    | exact errors_assemble_base_code _
    | exact errors_assemble_trap _
    | exact errors_assemble_not _
    | exact errors_assemble_load_store_relative _
    | exact errors_assemble_load_store _
    | exact errors_assemble_jump_subroutine _
    | exact errors_assemble_jump _
    | exact errors_assemble_branch _
    | exact errors_assemble_label _ _ _
    | exact errors_assemble_add_and _
    | exact errors_write_instruction _
    | exact errors_expect_register
    | exact errors_expect_kind _
    | exact errors_expect
    | exact errors_match _
    | exact errors_get
    | exact errors_peek _
    | exact errors_error _
    | exact errors_fatal_error
    | exact errors_undef
    | exact errors_abort
    | exact errors_next_token
    | exact errors_peek_register
    | exact errors_location_counter
    | exact errors_access _
    | exact errors_pool_value _
    | exact errors_pool_allocate _ _
    | exact errors_pool_free _
    | exact errors_read_symbol _
    | exact errors_write_symbol _ _
    | exact errors_get_symbol _
    | exact errors_modify _ (fun _ => rfl)
    | apply Preserves.pure errors_kept_refl
    | apply Preserves.bind errors_kept_trans
    | apply Preserves.ite
    | intro _)

theorem errors_run_encoder (orig : opcode_t → M Unit)
    (horig : ∀ op, Preserves errors_kept (orig op)) (op : opcode_t) :
    Preserves errors_kept (run_encoder orig op) := by
  unfold run_encoder
  split
  · exact errors_assemble_add_and op
  · exact errors_assemble_branch op
  · exact errors_assemble_jump op
  · exact errors_assemble_jump_subroutine op
  · exact errors_assemble_load_store op
  · exact errors_assemble_load_store_relative op
  · exact errors_assemble_not op
  · exact errors_assemble_trap op
  · exact errors_assemble_base_code op
  · exact errors_directive_end op
  · exact errors_directive_blkw op
  · exact errors_directive_fill op
  · exact errors_directive_stringz op
  · exact horig op

theorem errors_directive_orig_nested (op : opcode_t) :
    Preserves errors_kept (directive_orig_nested op) := fun s => errors_kept_refl s

theorem errors_orig_operand : Preserves errors_kept orig_operand := by
  unfold orig_operand
  with_reducible repeat (first
    | exact errors_run_encoder _ errors_directive_orig_nested _
    | exact errors_directive_stringz _
    | exact errors_directive_fill _
    | exact errors_directive_blkw _
    | exact errors_write_chars _
    | exact errors_write_zeros _
    | exact errors_directive_end _
    | exact errors_assemble_base_code _
    | exact errors_assemble_trap _
    | exact errors_assemble_not _
    | exact errors_assemble_load_store_relative _
    | exact errors_assemble_load_store _
    | exact errors_assemble_jump_subroutine _
    | exact errors_assemble_jump _
    | exact errors_assemble_branch _
    | exact errors_assemble_label _ _ _
    | exact errors_assemble_add_and _
    | exact errors_write_instruction _
    | exact errors_expect_register
    | exact errors_expect_kind _
    | exact errors_expect
    | exact errors_match _
    | exact errors_get
    | exact errors_peek _
    | exact errors_error _
    | exact errors_fatal_error
    | exact errors_undef
    | exact errors_abort
    | exact errors_next_token
    | exact errors_peek_register
    | exact errors_location_counter
    | exact errors_access _
    | exact errors_pool_value _
    | exact errors_pool_allocate _ _
    | exact errors_pool_free _
    | exact errors_read_symbol _
    | exact errors_write_symbol _ _
    | exact errors_get_symbol _
    | exact errors_modify _ (fun _ => rfl)
    | apply Preserves.pure errors_kept_refl
    | apply Preserves.bind errors_kept_trans
    | apply Preserves.ite
    | intro _)

theorem errors_directive_orig (op : opcode_t) :
    Preserves errors_kept (directive_orig op) := by
  unfold directive_orig
  with_reducible repeat (first
    | exact errors_orig_operand
    | exact errors_run_encoder _ errors_directive_orig_nested _
    | exact errors_directive_stringz _
    | exact errors_directive_fill _
    | exact errors_directive_blkw _
    | exact errors_write_chars _
    | exact errors_write_zeros _
    | exact errors_directive_end _
    | exact errors_assemble_base_code _
    | exact errors_assemble_trap _
    | exact errors_assemble_not _
    | exact errors_assemble_load_store_relative _
    | exact errors_assemble_load_store _
    | exact errors_assemble_jump_subroutine _
    | exact errors_assemble_jump _
    | exact errors_assemble_branch _
    | exact errors_assemble_label _ _ _
    | exact errors_assemble_add_and _
    | exact errors_write_instruction _
    | exact errors_expect_register
    | exact errors_expect_kind _
    | exact errors_expect
    | exact errors_match _
    | exact errors_get
    | exact errors_peek _
    | exact errors_error _
    | exact errors_fatal_error
    | exact errors_undef
    | exact errors_abort
    | exact errors_next_token
    | exact errors_peek_register
    | exact errors_location_counter
    | exact errors_access _
    | exact errors_pool_value _
    | exact errors_pool_allocate _ _
    | exact errors_pool_free _
    | exact errors_read_symbol _
    | exact errors_write_symbol _ _
    | exact errors_get_symbol _
    | exact errors_modify _ (fun _ => rfl)
    | apply Preserves.pure errors_kept_refl
    | apply Preserves.bind errors_kept_trans
    | apply Preserves.ite
    | intro _)

theorem errors_dispatch (op : opcode_t) :
    Preserves errors_kept (dispatch op) := by
  unfold dispatch
  with_reducible repeat (first
    | exact errors_run_encoder _ errors_directive_orig _
    | exact errors_directive_orig _
    | exact errors_orig_operand
    | exact errors_run_encoder _ errors_directive_orig_nested _
    | exact errors_directive_stringz _
    | exact errors_directive_fill _
    | exact errors_directive_blkw _
    | exact errors_write_chars _
    | exact errors_write_zeros _
    | exact errors_directive_end _
    | exact errors_assemble_base_code _
    | exact errors_assemble_trap _
    | exact errors_assemble_not _
    | exact errors_assemble_load_store_relative _
    | exact errors_assemble_load_store _
    | exact errors_assemble_jump_subroutine _
    | exact errors_assemble_jump _
    | exact errors_assemble_branch _
    | exact errors_assemble_label _ _ _
    | exact errors_assemble_add_and _
    | exact errors_write_instruction _
    | exact errors_expect_register
    | exact errors_expect_kind _
    | exact errors_expect
    | exact errors_match _
    | exact errors_get
    | exact errors_peek _
    | exact errors_error _
    | exact errors_fatal_error
    | exact errors_undef
    | exact errors_abort
    | exact errors_next_token
    | exact errors_peek_register
    | exact errors_location_counter
    | exact errors_access _
    | exact errors_pool_value _
    | exact errors_pool_allocate _ _
    | exact errors_pool_free _
    | exact errors_read_symbol _
    | exact errors_write_symbol _ _
    | exact errors_get_symbol _
    | exact errors_modify _ (fun _ => rfl)
    | apply Preserves.pure errors_kept_refl
    | apply Preserves.bind errors_kept_trans
    | apply Preserves.ite
    | intro _)

theorem errors_fix_forward_references (position : Nat) :
    Preserves errors_kept (fix_forward_references position) := by
  unfold fix_forward_references
  with_reducible repeat (first
    | exact errors_dispatch _
    | exact errors_run_encoder _ errors_directive_orig _
    | exact errors_directive_orig _
    | exact errors_orig_operand
    | exact errors_run_encoder _ errors_directive_orig_nested _
    | exact errors_directive_stringz _
    | exact errors_directive_fill _
    | exact errors_directive_blkw _
    | exact errors_write_chars _
    | exact errors_write_zeros _
    | exact errors_directive_end _
    | exact errors_assemble_base_code _
    | exact errors_assemble_trap _
    | exact errors_assemble_not _
    | exact errors_assemble_load_store_relative _
    | exact errors_assemble_load_store _
    | exact errors_assemble_jump_subroutine _
    | exact errors_assemble_jump _
    | exact errors_assemble_branch _
    | exact errors_assemble_label _ _ _
    | exact errors_assemble_add_and _
    | exact errors_write_instruction _
    | exact errors_expect_register
    | exact errors_expect_kind _
    | exact errors_expect
    | exact errors_match _
    | exact errors_get
    | exact errors_peek _
    | exact errors_error _
    | exact errors_fatal_error
    | exact errors_undef
    | exact errors_abort
    | exact errors_next_token
    | exact errors_peek_register
    | exact errors_location_counter
    | exact errors_access _
    | exact errors_pool_value _
    | exact errors_pool_allocate _ _
    | exact errors_pool_free _
    | exact errors_read_symbol _
    | exact errors_write_symbol _ _
    | exact errors_get_symbol _
    | exact errors_modify _ (fun _ => rfl)
    | apply Preserves.pure errors_kept_refl
    | apply Preserves.bind errors_kept_trans
    | apply Preserves.ite
    | intro _)

theorem errors_fix_chain (fuel list : Nat) : Preserves errors_kept (fix_chain fuel list) := by
  induction fuel generalizing list with
  | zero => exact errors_undef
  | succ k ih =>
    unfold fix_chain
    with_reducible repeat (first
      | exact ih _
      | exact errors_fix_forward_references _
      | exact errors_dispatch _
      | exact errors_run_encoder _ errors_directive_orig _
      | exact errors_directive_orig _
      | exact errors_orig_operand
      | exact errors_run_encoder _ errors_directive_orig_nested _
      | exact errors_directive_stringz _
      | exact errors_directive_fill _
      | exact errors_directive_blkw _
      | exact errors_write_chars _
      | exact errors_write_zeros _
      | exact errors_directive_end _
      | exact errors_assemble_base_code _
      | exact errors_assemble_trap _
      | exact errors_assemble_not _
      | exact errors_assemble_load_store_relative _
      | exact errors_assemble_load_store _
      | exact errors_assemble_jump_subroutine _
      | exact errors_assemble_jump _
      | exact errors_assemble_branch _
      | exact errors_assemble_label _ _ _
      | exact errors_assemble_add_and _
      | exact errors_write_instruction _
      | exact errors_expect_register
      | exact errors_expect_kind _
      | exact errors_expect
      | exact errors_match _
      | exact errors_get
      | exact errors_peek _
      | exact errors_error _
      | exact errors_fatal_error
      | exact errors_undef
      | exact errors_abort
      | exact errors_next_token
      | exact errors_peek_register
      | exact errors_location_counter
      | exact errors_access _
      | exact errors_pool_value _
      | exact errors_pool_allocate _ _
      | exact errors_pool_free _
      | exact errors_read_symbol _
      | exact errors_write_symbol _ _
      | exact errors_get_symbol _
      | exact errors_modify _ (fun _ => rfl)
      | apply Preserves.pure errors_kept_refl
      | apply Preserves.bind errors_kept_trans
      | apply Preserves.ite
      | intro _)

theorem errors_define_label (name : token_t) :
    Preserves errors_kept (define_label name) := by
  unfold define_label
  with_reducible repeat (first
    | exact errors_fix_chain _ _
    | exact errors_fix_forward_references _
    | exact errors_dispatch _
    | exact errors_run_encoder _ errors_directive_orig _
    | exact errors_directive_orig _
    | exact errors_orig_operand
    | exact errors_run_encoder _ errors_directive_orig_nested _
    | exact errors_directive_stringz _
    | exact errors_directive_fill _
    | exact errors_directive_blkw _
    | exact errors_write_chars _
    | exact errors_write_zeros _
    | exact errors_directive_end _
    | exact errors_assemble_base_code _
    | exact errors_assemble_trap _
    | exact errors_assemble_not _
    | exact errors_assemble_load_store_relative _
    | exact errors_assemble_load_store _
    | exact errors_assemble_jump_subroutine _
    | exact errors_assemble_jump _
    | exact errors_assemble_branch _
    | exact errors_assemble_label _ _ _
    | exact errors_assemble_add_and _
    | exact errors_write_instruction _
    | exact errors_expect_register
    | exact errors_expect_kind _
    | exact errors_expect
    | exact errors_match _
    | exact errors_get
    | exact errors_peek _
    | exact errors_error _
    | exact errors_fatal_error
    | exact errors_undef
    | exact errors_abort
    | exact errors_next_token
    | exact errors_peek_register
    | exact errors_location_counter
    | exact errors_access _
    | exact errors_pool_value _
    | exact errors_pool_allocate _ _
    | exact errors_pool_free _
    | exact errors_read_symbol _
    | exact errors_write_symbol _ _
    | exact errors_get_symbol _
    | exact errors_modify _ (fun _ => rfl)
    | apply Preserves.pure errors_kept_refl
    | apply Preserves.bind errors_kept_trans
    | apply Preserves.ite
    | intro _)

theorem errors_label_part (name : token_t) :
    Preserves errors_kept (label_part name) := by
  unfold label_part
  with_reducible repeat (first
    | exact errors_define_label _
    | exact errors_fix_chain _ _
    | exact errors_fix_forward_references _
    | exact errors_dispatch _
    | exact errors_run_encoder _ errors_directive_orig _
    | exact errors_directive_orig _
    | exact errors_orig_operand
    | exact errors_run_encoder _ errors_directive_orig_nested _
    | exact errors_directive_stringz _
    | exact errors_directive_fill _
    | exact errors_directive_blkw _
    | exact errors_write_chars _
    | exact errors_write_zeros _
    | exact errors_directive_end _
    | exact errors_assemble_base_code _
    | exact errors_assemble_trap _
    | exact errors_assemble_not _
    | exact errors_assemble_load_store_relative _
    | exact errors_assemble_load_store _
    | exact errors_assemble_jump_subroutine _
    | exact errors_assemble_jump _
    | exact errors_assemble_branch _
    | exact errors_assemble_label _ _ _
    | exact errors_assemble_add_and _
    | exact errors_write_instruction _
    | exact errors_expect_register
    | exact errors_expect_kind _
    | exact errors_expect
    | exact errors_match _
    | exact errors_get
    | exact errors_peek _
    | exact errors_error _
    | exact errors_fatal_error
    | exact errors_undef
    | exact errors_abort
    | exact errors_next_token
    | exact errors_peek_register
    | exact errors_location_counter
    | exact errors_access _
    | exact errors_pool_value _
    | exact errors_pool_allocate _ _
    | exact errors_pool_free _
    | exact errors_read_symbol _
    | exact errors_write_symbol _ _
    | exact errors_get_symbol _
    | exact errors_modify _ (fun _ => rfl)
    | apply Preserves.pure errors_kept_refl
    | apply Preserves.bind errors_kept_trans
    | apply Preserves.ite
    | intro _)

theorem errors_assemble_statement (name : token_t) :
    Preserves errors_kept (assemble_statement name) := by
  unfold assemble_statement
  split
  · exact errors_error _
  · with_reducible repeat (first
      | exact errors_label_part _
      | exact errors_define_label _
      | exact errors_fix_chain _ _
      | exact errors_fix_forward_references _
      | exact errors_dispatch _
      | exact errors_run_encoder _ errors_directive_orig _
      | exact errors_directive_orig _
      | exact errors_orig_operand
      | exact errors_run_encoder _ errors_directive_orig_nested _
      | exact errors_directive_stringz _
      | exact errors_directive_fill _
      | exact errors_directive_blkw _
      | exact errors_write_chars _
      | exact errors_write_zeros _
      | exact errors_directive_end _
      | exact errors_assemble_base_code _
      | exact errors_assemble_trap _
      | exact errors_assemble_not _
      | exact errors_assemble_load_store_relative _
      | exact errors_assemble_load_store _
      | exact errors_assemble_jump_subroutine _
      | exact errors_assemble_jump _
      | exact errors_assemble_branch _
      | exact errors_assemble_label _ _ _
      | exact errors_assemble_add_and _
      | exact errors_write_instruction _
      | exact errors_expect_register
      | exact errors_expect_kind _
      | exact errors_expect
      | exact errors_match _
      | exact errors_get
      | exact errors_peek _
      | exact errors_error _
      | exact errors_fatal_error
      | exact errors_undef
      | exact errors_abort
      | exact errors_next_token
      | exact errors_peek_register
      | exact errors_location_counter
      | exact errors_access _
      | exact errors_pool_value _
      | exact errors_pool_allocate _ _
      | exact errors_pool_free _
      | exact errors_read_symbol _
      | exact errors_write_symbol _ _
      | exact errors_get_symbol _
      | exact errors_modify _ (fun _ => rfl)
      | apply Preserves.pure errors_kept_refl
      | apply Preserves.bind errors_kept_trans
      | apply Preserves.ite
      | intro _)

theorem errors_statement : Preserves errors_kept statement := by
  unfold statement
  with_reducible repeat (first
    | exact errors_assemble_statement _
    | exact errors_label_part _
    | exact errors_define_label _
    | exact errors_fix_chain _ _
    | exact errors_fix_forward_references _
    | exact errors_dispatch _
    | exact errors_run_encoder _ errors_directive_orig _
    | exact errors_directive_orig _
    | exact errors_orig_operand
    | exact errors_run_encoder _ errors_directive_orig_nested _
    | exact errors_directive_stringz _
    | exact errors_directive_fill _
    | exact errors_directive_blkw _
    | exact errors_write_chars _
    | exact errors_write_zeros _
    | exact errors_directive_end _
    | exact errors_assemble_base_code _
    | exact errors_assemble_trap _
    | exact errors_assemble_not _
    | exact errors_assemble_load_store_relative _
    | exact errors_assemble_load_store _
    | exact errors_assemble_jump_subroutine _
    | exact errors_assemble_jump _
    | exact errors_assemble_branch _
    | exact errors_assemble_label _ _ _
    | exact errors_assemble_add_and _
    | exact errors_write_instruction _
    | exact errors_expect_register
    | exact errors_expect_kind _
    | exact errors_expect
    | exact errors_match _
    | exact errors_get
    | exact errors_peek _
    | exact errors_error _
    | exact errors_fatal_error
    | exact errors_undef
    | exact errors_abort
    | exact errors_next_token
    | exact errors_peek_register
    | exact errors_location_counter
    | exact errors_access _
    | exact errors_pool_value _
    | exact errors_pool_allocate _ _
    | exact errors_pool_free _
    | exact errors_read_symbol _
    | exact errors_write_symbol _ _
    | exact errors_get_symbol _
    | exact errors_modify _ (fun _ => rfl)
    | apply Preserves.pure errors_kept_refl
    | apply Preserves.bind errors_kept_trans
    | apply Preserves.ite
    | intro _)

theorem errors_process_line (text : List Char) :
    Preserves errors_kept (process_line text) := by
  unfold process_line
  with_reducible repeat (first
    | exact errors_statement
    | exact errors_assemble_statement _
    | exact errors_label_part _
    | exact errors_define_label _
    | exact errors_fix_chain _ _
    | exact errors_fix_forward_references _
    | exact errors_dispatch _
    | exact errors_run_encoder _ errors_directive_orig _
    | exact errors_directive_orig _
    | exact errors_orig_operand
    | exact errors_run_encoder _ errors_directive_orig_nested _
    | exact errors_directive_stringz _
    | exact errors_directive_fill _
    | exact errors_directive_blkw _
    | exact errors_write_chars _
    | exact errors_write_zeros _
    | exact errors_directive_end _
    | exact errors_assemble_base_code _
    | exact errors_assemble_trap _
    | exact errors_assemble_not _
    | exact errors_assemble_load_store_relative _
    | exact errors_assemble_load_store _
    | exact errors_assemble_jump_subroutine _
    | exact errors_assemble_jump _
    | exact errors_assemble_branch _
    | exact errors_assemble_label _ _ _
    | exact errors_assemble_add_and _
    | exact errors_write_instruction _
    | exact errors_expect_register
    | exact errors_expect_kind _
    | exact errors_expect
    | exact errors_match _
    | exact errors_get
    | exact errors_peek _
    | exact errors_error _
    | exact errors_fatal_error
    | exact errors_undef
    | exact errors_abort
    | exact errors_next_token
    | exact errors_peek_register
    | exact errors_location_counter
    | exact errors_access _
    | exact errors_pool_value _
    | exact errors_pool_allocate _ _
    | exact errors_pool_free _
    | exact errors_read_symbol _
    | exact errors_write_symbol _ _
    | exact errors_get_symbol _
    | exact errors_modify _ (fun _ => rfl)
    | apply Preserves.pure errors_kept_refl
    | apply Preserves.bind errors_kept_trans
    | apply Preserves.ite
    | intro _)

theorem errors_main_loop (lines : List (List Char)) :
    Preserves errors_kept (main_loop lines) := by
  induction lines with
  | nil => exact Preserves.pure errors_kept_refl ()
  | cons text rest ih =>
    unfold main_loop
    with_reducible repeat (first
      | exact ih
      | exact errors_process_line _
      | exact errors_statement
      | exact errors_assemble_statement _
      | exact errors_label_part _
      | exact errors_define_label _
      | exact errors_fix_chain _ _
      | exact errors_fix_forward_references _
      | exact errors_dispatch _
      | exact errors_run_encoder _ errors_directive_orig _
      | exact errors_directive_orig _
      | exact errors_orig_operand
      | exact errors_run_encoder _ errors_directive_orig_nested _
      | exact errors_directive_stringz _
      | exact errors_directive_fill _
      | exact errors_directive_blkw _
      | exact errors_write_chars _
      | exact errors_write_zeros _
      | exact errors_directive_end _
      | exact errors_assemble_base_code _
      | exact errors_assemble_trap _
      | exact errors_assemble_not _
      | exact errors_assemble_load_store_relative _
      | exact errors_assemble_load_store _
      | exact errors_assemble_jump_subroutine _
      | exact errors_assemble_jump _
      | exact errors_assemble_branch _
      | exact errors_assemble_label _ _ _
      | exact errors_assemble_add_and _
      | exact errors_write_instruction _
      | exact errors_expect_register
      | exact errors_expect_kind _
      | exact errors_expect
      | exact errors_match _
      | exact errors_get
      | exact errors_peek _
      | exact errors_error _
      | exact errors_fatal_error
      | exact errors_undef
      | exact errors_abort
      | exact errors_next_token
      | exact errors_peek_register
      | exact errors_location_counter
      | exact errors_access _
      | exact errors_pool_value _
      | exact errors_pool_allocate _ _
      | exact errors_pool_free _
      | exact errors_read_symbol _
      | exact errors_write_symbol _ _
      | exact errors_get_symbol _
      | exact errors_modify _ (fun _ => rfl)
      | apply Preserves.pure errors_kept_refl
      | apply Preserves.bind errors_kept_trans
      | apply Preserves.ite
      | intro _)

theorem errors_sweep (symbols : List symbol_t) : Preserves errors_kept (sweep symbols) := by
  induction symbols with
  | nil => exact Preserves.pure errors_kept_refl ()
  | cons symbol rest ih =>
    unfold sweep
    with_reducible repeat (first
      | exact ih
      | exact errors_process_line _
      | exact errors_statement
      | exact errors_assemble_statement _
      | exact errors_label_part _
      | exact errors_define_label _
      | exact errors_fix_chain _ _
      | exact errors_fix_forward_references _
      | exact errors_dispatch _
      | exact errors_run_encoder _ errors_directive_orig _
      | exact errors_directive_orig _
      | exact errors_orig_operand
      | exact errors_run_encoder _ errors_directive_orig_nested _
      | exact errors_directive_stringz _
      | exact errors_directive_fill _
      | exact errors_directive_blkw _
      | exact errors_write_chars _
      | exact errors_write_zeros _
      | exact errors_directive_end _
      | exact errors_assemble_base_code _
      | exact errors_assemble_trap _
      | exact errors_assemble_not _
      | exact errors_assemble_load_store_relative _
      | exact errors_assemble_load_store _
      | exact errors_assemble_jump_subroutine _
      | exact errors_assemble_jump _
      | exact errors_assemble_branch _
      | exact errors_assemble_label _ _ _
      | exact errors_assemble_add_and _
      | exact errors_write_instruction _
      | exact errors_expect_register
      | exact errors_expect_kind _
      | exact errors_expect
      | exact errors_match _
      | exact errors_get
      | exact errors_peek _
      | exact errors_error _
      | exact errors_fatal_error
      | exact errors_undef
      | exact errors_abort
      | exact errors_next_token
      | exact errors_peek_register
      | exact errors_location_counter
      | exact errors_access _
      | exact errors_pool_value _
      | exact errors_pool_allocate _ _
      | exact errors_pool_free _
      | exact errors_read_symbol _
      | exact errors_write_symbol _ _
      | exact errors_get_symbol _
      | exact errors_modify _ (fun _ => rfl)
      | apply Preserves.pure errors_kept_refl
      | apply Preserves.bind errors_kept_trans
      | apply Preserves.ite
      | intro _)

/-! ## C11: the enforcement routine on the first statement of a source -/

theorem lex_integer_kind (m : Char) (p : Char → Bool) (base : Nat) (cs : List Char) (n : Nat) :
    (lex_integer m p base cs n).fatal = false ∧
    (lex_integer m p base cs n).token.kind ≠ TOKEN_EOL ∧
    (lex_integer m p base cs n).token.kind ≠ TOKEN_NAME := by
  unfold lex_integer
  simp only
  split
  · split <;> simp
  · simp

/-- A token that ends a line or is a name leaves the base as it is, and is
read without a fatal error. -/
theorem lex_keeps_base (base : Nat) (text : List Char) (n : Nat)
    (h : (lex base text n).token.kind = TOKEN_EOL ∨ (lex base text n).token.kind = TOKEN_NAME) :
    (lex base text n).fatal = false ∧ (lex base text n).token.base = base := by
  induction text generalizing n with
  | nil => simp [lex]
  | cons c cs ih =>
    unfold lex at h ⊢
    split
    · exact ih n (by simpa [*] using h)
    · split
      · simp
      · split
        · simp
        · split
          · simp
          · split
            · rename_i h1 h2 h3 h4 h5
              have := lex_integer_kind c isxdigit 16 cs n
              simp only [h1, h2, h3, h4, h5, if_false, if_true, Bool.false_eq_true] at h
              rcases h with h | h
              · exact absurd h this.2.1
              · exact absurd h this.2.2
            · split
              · rename_i h1 h2 h3 h4 h5 h6
                have := lex_integer_kind c isdigit 10 cs n
                simp only [h1, h2, h3, h4, h5, h6, if_false, if_true, Bool.false_eq_true] at h
                rcases h with h | h
                · exact absurd h this.2.1
                · exact absurd h this.2.2
              · split
                · rename_i h1 h2 h3 h4 h5 h6 h7
                  simp only [h1, h2, h3, h4, h5, h6, h7, if_false, if_true,
                    Bool.false_eq_true] at h
                  exfalso
                  revert h
                  split <;> simp
                · split
                  · simp
                  · rename_i h1 h2 h3 h4 h5 h6 h7 h8
                    exact ih (n + 1) (by simpa [h1, h2, h3, h4, h5, h6, h7, h8] using h)

theorem next_token_lex (s : Asm) (base : Nat) (hb : s.token.base = base)
    (hf : (lex base s.line_cursor 0).fatal = false) :
    next_token s = Res.ok ()
      { s with token := (lex base s.line_cursor 0).token,
               line_cursor := (lex base s.line_cursor 0).cursor,
               error_count := s.error_count + (lex base s.line_cursor 0).strays } := by
  subst hb
  simp only [next_token, hf, Bool.false_eq_true, if_false]

/-- A line that holds no statement. -/
theorem process_line_blank (s : Asm) (b : List Char) (hb : s.token.base = 0)
    (hk : (lex 0 b 0).token.kind = TOKEN_EOL) :
    process_line b s = Res.ok ()
      { s with line_number := s.line_number + 1,
               token := (lex 0 b 0).token,
               line_cursor := (lex 0 b 0).cursor,
               error_count := s.error_count + (lex 0 b 0).strays } := by
  have hf := (lex_keeps_base 0 b 0 (Or.inl hk)).1
  have hnext := next_token_lex { s with line_number := s.line_number + 1, line_cursor := b } 0 hb hf
  simp only [process_line, bind_apply, M.bind, modify_apply, hnext, peek_apply, hk,
    beq_self_eq_true, if_true, pure_apply]

theorem main_loop_cons (text : List Char) (rest : List (List Char)) (s : Asm)
    (heof : s.eof = false) :
    main_loop (text :: rest) s = M.bind (process_line text) (fun _ => main_loop rest) s := by
  simp only [main_loop, bind_apply, M.bind, get_apply, heof, Bool.false_eq_true, if_false]
  rfl

/-- The lines in front of the first statement. -/
theorem main_loop_blanks (blanks rest : List (List Char)) (s : Asm)
    (heof : s.eof = false) (hb : s.token.base = 0)
    (hblank : ∀ b ∈ blanks, (lex 0 b 0).token.kind = TOKEN_EOL) :
    ∃ (tk : token_t) (cur : List Char), tk.base = 0 ∧
      main_loop (blanks ++ rest) s = main_loop rest
        { s with line_number := s.line_number + blanks.length,
                 token := tk, line_cursor := cur,
                 error_count := s.error_count + (blanks.map (fun b => (lex 0 b 0).strays)).sum } := by
  induction blanks generalizing s with
  | nil => exact ⟨s.token, s.line_cursor, hb, rfl⟩
  | cons b bs ih =>
    have hk := hblank b (List.mem_cons_self b bs)
    have hbase := (lex_keeps_base 0 b 0 (Or.inl hk)).2
    obtain ⟨tk, cur, htk, heq⟩ := ih
      { s with line_number := s.line_number + 1, token := (lex 0 b 0).token,
               line_cursor := (lex 0 b 0).cursor,
               error_count := s.error_count + (lex 0 b 0).strays }
      heof hbase (fun c hc => hblank c (List.mem_cons_of_mem b hc))
    refine ⟨tk, cur, htk, ?_⟩
    rw [List.cons_append, main_loop_cons b _ s heof,
      M_bind_ok _ _ s _ () (process_line_blank s b hb hk), heq]
    simp only [List.length_cons, List.map_cons, List.sum_cons]
    congr 2 <;> omega

/-- The call of the encoder of a mnemonic other than `.ORIG` while `.ORIG`
has not been executed and the image is empty. -/
theorem dispatch_before_orig (s : Asm) (op : opcode_t) (hinit : s.initialized = false)
    (hobj : s.object = []) (hname : op.name ≠ ".ORIG".toList) :
    dispatch op s =
      (run_encoder directive_orig_nested op >>= fun _ => orig_operand)
        { s with object := [0], error_count := s.error_count + 1 } := by
  simp only [dispatch, directive_orig, orig_operand, bind_apply, M.bind, get, hinit,
    Bool.false_eq_true, if_false, hobj, List.length_nil, ne_eq, not_true_eq_false, modify,
    List.nil_append, hname, not_false_eq_true, if_true, error, pure_apply, M_pure_apply]

/-- The first statement of a source, with a mnemonic other than `.ORIG`. -/
theorem process_line_first (s : Asm) (text : List Char) (op : opcode_t)
    (hb : s.token.base = 0) (hinit : s.initialized = false) (hobj : s.object = [])
    (hname : (first_token text).token.kind = TOKEN_NAME)
    (hlook : (second_token text).fatal = false)
    (hlabel : (second_token text).token.kind ≠ TOKEN_COLON)
    (hop : get_opcode (first_token text).token.text = some op)
    (horig : op.name ≠ ".ORIG".toList) :
    process_line text s =
      (run_encoder directive_orig_nested op >>= fun _ => orig_operand >>= fun _ =>
        expect_kind TOKEN_EOL >>= fun _ => pure ())
        { s with object := [0],
                 error_count := s.error_count + (first_token text).strays
                   + (second_token text).strays + 1,
                 line_number := s.line_number + 1,
                 token := (second_token text).token,
                 line_cursor := (second_token text).cursor } := by
  have h1 := lex_keeps_base 0 text 0 (Or.inr hname)
  have hnext1 := next_token_lex { s with line_number := s.line_number + 1, line_cursor := text }
    0 hb h1.1
  have hnext2 := next_token_lex
    { s with line_number := s.line_number + 1,
             token := (lex 0 text 0).token, line_cursor := (lex 0 text 0).cursor,
             error_count := s.error_count + (lex 0 text 0).strays }
    (lex 0 text 0).token.base rfl hlook
  have hk1 : ((lex 0 text 0).token.kind == TOKEN_EOL) = false := by
    unfold first_token at hname
    rw [hname]
    rfl
  have hk2 : ((lex 0 text 0).token.kind == TOKEN_NAME) = true := by
    unfold first_token at hname
    rw [hname]
    rfl
  have hk3 : ((lex (lex 0 text 0).token.base (lex 0 text 0).cursor 0).token.kind == TOKEN_COLON)
      = false := by
    simpa [second_token, first_token] using hlabel
  have hd := dispatch_before_orig
    { s with line_number := s.line_number + 1,
             token := (second_token text).token, line_cursor := (second_token text).cursor,
             error_count := s.error_count + (first_token text).strays
               + (second_token text).strays }
    op hinit hobj horig
  have hexp : expect_kind TOKEN_NAME
      { s with line_number := s.line_number + 1,
               token := (lex 0 text 0).token, line_cursor := (lex 0 text 0).cursor,
               error_count := s.error_count + (lex 0 text 0).strays }
      = Res.ok (lex 0 text 0).token
        { s with line_number := s.line_number + 1,
                 token := (lex (lex 0 text 0).token.base (lex 0 text 0).cursor 0).token,
                 line_cursor := (lex (lex 0 text 0).token.base (lex 0 text 0).cursor 0).cursor,
                 error_count := s.error_count + (lex 0 text 0).strays
                   + (lex (lex 0 text 0).token.base (lex 0 text 0).cursor 0).strays } := by
    simp only [expect_kind, expect, bind_apply, M.bind, peek_apply, hk2, Bool.not_true,
      Bool.false_eq_true, if_false, pure_apply, get_apply, hnext2]
  simp only [first_token, second_token] at hd hop ⊢
  simp only [process_line, statement, label_part, «match», assemble_statement,
    bind_apply, M.bind, modify_apply, hnext1, peek_apply, hk1, Bool.false_eq_true,
    if_false, hexp, pure_apply, hk3, hop, hd]
  generalize run_encoder directive_orig_nested op _ = r
  cases r <;> rfl

/-- The loop of `main` on a source whose first statement has a mnemonic other
than `.ORIG`: the enforcement routine has entered the placeholder and counted
its error, and the real encoder is the next to run. -/
theorem main_loop_first (blanks rest : List (List Char)) (text : List Char) (op : opcode_t)
    (hblank : ∀ b ∈ blanks, (lex 0 b 0).token.kind = TOKEN_EOL)
    (hname : (first_token text).token.kind = TOKEN_NAME)
    (hlook : (second_token text).fatal = false)
    (hlabel : (second_token text).token.kind ≠ TOKEN_COLON)
    (hop : get_opcode (first_token text).token.text = some op)
    (horig : op.name ≠ ".ORIG".toList) :
    main_loop (blanks ++ text :: rest) Asm.init =
      M.bind
        (run_encoder directive_orig_nested op >>= fun _ => orig_operand >>= fun _ =>
          expect_kind TOKEN_EOL >>= fun _ => pure ())
        (fun _ => main_loop rest) (first_statement_state blanks text) := by
  obtain ⟨tk, cur, htk, heq⟩ := main_loop_blanks blanks (text :: rest) Asm.init rfl rfl hblank
  rw [heq, main_loop_cons text rest _ rfl]
  have hp := process_line_first
    { Asm.init with line_number := Asm.init.line_number + blanks.length,
                    token := tk, line_cursor := cur,
                    error_count := Asm.init.error_count
                      + (blanks.map (fun b => (lex 0 b 0).strays)).sum }
    text op htk rfl rfl hname hlook hlabel hop horig
  have hstate : ({ Asm.init with
        object := [0],
        error_count := Asm.init.error_count + (blanks.map (fun b => (lex 0 b 0).strays)).sum
          + (first_token text).strays + (second_token text).strays + 1,
        line_number := Asm.init.line_number + blanks.length + 1,
        token := (second_token text).token,
        line_cursor := (second_token text).cursor } : Asm)
      = first_statement_state blanks text := by
    simp only [first_statement_state, Asm.init, Nat.zero_add]
  unfold M.bind
  rw [hp]
  simp only [hstate]

theorem Preserves.and {α : Type} {R R' : Asm → Asm → Prop} {m : M α}
    (h : Preserves R m) (h' : Preserves R' m) : Preserves (fun s t => R s t ∧ R' s t) m := by
  intro s
  have h1 := h s
  have h2 := h' s
  cases hr : m s with
  | ok a t => rw [hr] at h1 h2; exact ⟨h1, h2⟩
  | exit t => rw [hr] at h1 h2; exact ⟨h1, h2⟩
  | undef => trivial

theorem words_kept_refl (s : Asm) : words_kept s s := rfl

theorem words_kept_trans (a b c : Asm) (h1 : words_kept a b) (h2 : words_kept b c) :
    words_kept a c := by
  unfold words_kept at *
  rw [h2, h1]

theorem words_get : Preserves words_kept get := fun _ => rfl

theorem words_peek (x : token_kind) : Preserves words_kept (peek x) := fun _ => rfl

theorem words_error (n : Nat) : Preserves words_kept (error n) := by
  intro s
  unfold error
  simp only
  split <;> rfl

theorem words_fatal_error {α : Type} : Preserves words_kept (fatal_error : M α) := fun _ => rfl

theorem words_next_token : Preserves words_kept next_token := by
  intro s
  rw [next_token_apply]
  split <;> rfl

theorem words_modify (f : Asm → Asm) (h : ∀ s, (f s).object.drop 1 = s.object.drop 1) :
    Preserves words_kept (modify f) := fun s => h s

theorem drop_set_zero (l : List Nat) (x : Nat) : (l.set 0 x).drop 1 = l.drop 1 := by
  cases l <;> rfl

theorem words_expect : Preserves words_kept expect := by
  unfold expect
  with_reducible repeat (first
    | exact words_next_token
    | exact words_get
    | apply Preserves.pure words_kept_refl
    | apply Preserves.bind words_kept_trans
    | apply Preserves.ite
    | intro _)

theorem words_expect_kind (x : token_kind) : Preserves words_kept (expect_kind x) := by
  unfold expect_kind
  with_reducible repeat (first
    | exact words_expect
    | exact words_peek _
    | exact words_fatal_error
    | apply Preserves.pure words_kept_refl
    | apply Preserves.bind words_kept_trans
    | apply Preserves.ite
    | intro _)

theorem words_orig_operand : Preserves words_kept orig_operand := by
  unfold orig_operand
  with_reducible repeat (first
    | exact words_expect_kind _
    | exact words_error _
    | exact words_modify _ (fun _ => rfl)
    | exact words_modify _ (fun _ => drop_set_zero _ _)
    | apply Preserves.pure words_kept_refl
    | apply Preserves.bind words_kept_trans
    | apply Preserves.ite
    | intro _)

/-- What the enforcement routine and `main` do behind the encoder up to the
end of the statement keeps the words and does not lower the error count. -/
theorem behind_encoder :
    Preserves (fun s t => words_kept s t ∧ errors_kept s t)
      (orig_operand >>= fun _ => expect_kind TOKEN_EOL >>= fun _ => (pure () : M Unit)) := by
  apply Preserves.and
  · with_reducible repeat (first
      | exact words_orig_operand
      | exact words_expect_kind _
      | apply Preserves.pure words_kept_refl
      | apply Preserves.bind words_kept_trans
      | intro _)
  · with_reducible repeat (first
      | exact errors_orig_operand
      | exact errors_expect_kind _
      | apply Preserves.pure errors_kept_refl
      | apply Preserves.bind errors_kept_trans
      | intro _)

/-- The whole run behind the call of the encoder does not lower the error
count. -/
theorem errors_from_encoder (op : opcode_t) (rest : List (List Char)) :
    Preserves errors_kept
      (((run_encoder directive_orig_nested op >>= fun _ => orig_operand >>= fun _ =>
          expect_kind TOKEN_EOL >>= fun _ => (pure () : M Unit)) >>= fun _ => main_loop rest)
        >>= fun _ => get >>= fun s => sweep s.symbols) := by
  with_reducible repeat (first
    | exact errors_run_encoder _ errors_directive_orig_nested _
    | exact errors_orig_operand
    | exact errors_expect_kind _
    | exact errors_main_loop _
    | exact errors_sweep _
    | exact errors_get
    | apply Preserves.pure errors_kept_refl
    | apply Preserves.bind errors_kept_trans
    | intro _)

/-- C11 (amended): for every source whose first statement, behind lines that
hold no statement, has no label and a mnemonic of the table other than
`.ORIG` (and whose token behind the mnemonic is read without a fatal error):
the enforcement routine enters the placeholder `0` for the load address in
the image, counts one recoverable error and calls the real encoder of the
mnemonic in that state, `first_statement_state`.  When the encoder does not
return, because it terminates the process or is undefined, its result is the
result of the loop of `main`; when it returns, the words it has written stand
in the image in whatever state the statement is finished, whether `main` goes
on or a fatal error ends the process there, and the error count has not
fallen.  The assembly of every such source ends with at least one error, the
exit status `EXIT_FAILURE` and no object file. -/
theorem C11_enforcement (blanks rest : List (List Char)) (text : List Char) (op : opcode_t)
    (hblank : ∀ b ∈ blanks, (lex 0 b 0).token.kind = TOKEN_EOL)
    (hname : (first_token text).token.kind = TOKEN_NAME)
    (hlook : (second_token text).fatal = false)
    (hlabel : (second_token text).token.kind ≠ TOKEN_COLON)
    (hop : get_opcode (first_token text).token.text = some op)
    (horig : op.name ≠ ".ORIG".toList) :
    (first_statement_state blanks text).object = [0] ∧
    1 ≤ (first_statement_state blanks text).error_count ∧
    ((∀ t, run_encoder directive_orig_nested op (first_statement_state blanks text) ≠ Res.ok () t) →
      main_loop (blanks ++ text :: rest) Asm.init
        = run_encoder directive_orig_nested op (first_statement_state blanks text)) ∧
    (∀ t u, run_encoder directive_orig_nested op (first_statement_state blanks text) = Res.ok () t →
      ((main_loop (blanks ++ [text]) Asm.init).returned = some u ∨
        (main_loop (blanks ++ [text]) Asm.init).exited = some u) →
      u.object.drop 1 = t.object.drop 1 ∧ t.error_count ≤ u.error_count) ∧
    (∀ o, main (blanks ++ text :: rest) = some o →
      o.status = EXIT_FAILURE ∧ 1 ≤ o.error_count ∧ o.object_file = none) := by
  have heq := main_loop_first blanks rest text op hblank hname hlook hlabel hop horig
  have hone : 1 ≤ (first_statement_state blanks text).error_count := by
    simp only [first_statement_state]
    omega
  refine ⟨rfl, hone, ?_, ?_, ?_⟩
  · intro hne
    rw [heq]
    simp only [bind_apply, M.bind]
    cases hr : run_encoder directive_orig_nested op (first_statement_state blanks text) with
    | ok a t => exact absurd hr (hne t)
    | exit t => rfl
    | undef => rfl
  · intro t u ht hu
    have hh : (main_loop (blanks ++ [text]) Asm.init).holds
        (fun u => u.object.drop 1 = t.object.drop 1 ∧ t.error_count ≤ u.error_count) := by
      rw [main_loop_first blanks [] text op hblank hname hlook hlabel hop horig]
      have hb := behind_encoder t
      simp only [bind_apply, M.bind, ht, main_loop] at hb ⊢
      cases hr : orig_operand t with
      | ok a u =>
        rw [hr] at hb
        simp only at hb ⊢
        cases hr2 : expect_kind TOKEN_EOL u with
        | ok b v =>
          rw [hr2] at hb
          exact hb
        | exit v =>
          rw [hr2] at hb
          exact hb
        | undef => trivial
      | exit u =>
        rw [hr] at hb
        exact hb
      | undef => trivial
    cases hr : main_loop (blanks ++ [text]) Asm.init with
    | ok a v =>
      rw [hr] at hh hu
      rcases hu with hu | hu
      · simp only [Res.returned, Option.some.injEq] at hu
        subst hu
        exact hh
      · simp [Res.exited] at hu
    | exit v =>
      rw [hr] at hh hu
      rcases hu with hu | hu
      · simp [Res.returned] at hu
      · simp only [Res.exited, Option.some.injEq] at hu
        subst hu
        exact hh
    | undef =>
      rw [hr] at hu
      simp [Res.returned, Res.exited] at hu
  · intro o ho
    have hrun : run (blanks ++ text :: rest) =
        (((run_encoder directive_orig_nested op >>= fun _ => orig_operand >>= fun _ =>
            expect_kind TOKEN_EOL >>= fun _ => (pure () : M Unit)) >>= fun _ => main_loop rest)
          >>= fun _ => get >>= fun s => sweep s.symbols) (first_statement_state blanks text) := by
      simp only [run, bind_apply]
      unfold M.bind
      rw [heq]
      rfl
    have hh := errors_from_encoder op rest (first_statement_state blanks text)
    rw [← hrun] at hh
    unfold main at ho
    cases hr : run (blanks ++ text :: rest) with
    | undef =>
      rw [hr] at ho
      exact absurd ho (by simp)
    | exit u =>
      rw [hr] at ho hh
      simp only [Option.some.injEq] at ho
      subst ho
      exact ⟨rfl, Nat.le_trans hone hh, rfl⟩
    | ok a u =>
      rw [hr] at ho hh
      have hu : 1 ≤ u.error_count := Nat.le_trans hone hh
      have hne : u.error_count ≠ 0 := by omega
      simp only [hne, ne_eq, not_false_eq_true, if_true, Option.some.injEq] at ho
      subst ho
      exact ⟨rfl, hu, rfl⟩

theorem C11_enforcement_witness :
    run_encoder directive_orig_nested ⟨"HALT".toList, 0xF025, encoder.assemble_base_code⟩
        (first_statement_state ["; c".toList] "HALT $3000".toList)
      = Res.ok () { Asm.init with
                    object := [0, 0xF025], error_count := 1, line_number := 2,
                    token := ⟨TOKEN_INTEGER, "$3000".toList, 16⟩ } ∧
    main_loop (["; c".toList] ++ ["HALT $3000".toList]) Asm.init
      = Res.ok () { Asm.init with
                    object := [0x3000, 0xF025], error_count := 1, line_number := 2,
                    token := ⟨TOKEN_EOL, [], 16⟩, initialized := true } ∧
    (({ Asm.init with
        object := [0x3000, 0xF025], error_count := 1, line_number := 2,
        token := ⟨TOKEN_EOL, [], 16⟩, initialized := true } : Asm).object.drop 1
      = ({ Asm.init with
           object := [0, 0xF025], error_count := 1, line_number := 2,
           token := ⟨TOKEN_INTEGER, "$3000".toList, 16⟩ } : Asm).object.drop 1 ∧
     ({ Asm.init with
        object := [0, 0xF025], error_count := 1, line_number := 2,
        token := ⟨TOKEN_INTEGER, "$3000".toList, 16⟩ } : Asm).error_count
      ≤ ({ Asm.init with
           object := [0x3000, 0xF025], error_count := 1, line_number := 2,
           token := ⟨TOKEN_EOL, [], 16⟩, initialized := true } : Asm).error_count) ∧
    main_loop ([] ++ ".FILL".toList :: ["HALT".toList]) Asm.init
      = Res.exit { Asm.init with
                   object := [0], error_count := 2, line_number := 1,
                   token := ⟨TOKEN_EOL, [], 0⟩ } :=
  ⟨by decide!, by decide!,
    (C11_enforcement ["; c".toList] ["HALT".toList] "HALT $3000".toList
      ⟨"HALT".toList, 0xF025, encoder.assemble_base_code⟩ (by decide!) (by decide!) (by decide!)
      (by decide!) (by decide!) (by decide)).2.2.2.1
      { Asm.init with
        object := [0, 0xF025], error_count := 1, line_number := 2,
        token := ⟨TOKEN_INTEGER, "$3000".toList, 16⟩ }
      { Asm.init with
        object := [0x3000, 0xF025], error_count := 1, line_number := 2,
        token := ⟨TOKEN_EOL, [], 16⟩, initialized := true }
      (by decide!) (Or.inl (by decide!)),
    ((C11_enforcement [] ["HALT".toList] ".FILL".toList
      ⟨".FILL".toList, 0, encoder.directive_fill⟩ (by decide!) (by decide!) (by decide!)
      (by decide!) (by decide!) (by decide)).2.2.1
      (by
        have hexit : run_encoder directive_orig_nested ⟨".FILL".toList, 0, encoder.directive_fill⟩
            (first_statement_state [] ".FILL".toList)
            = Res.exit { Asm.init with
                         object := [0], error_count := 2, line_number := 1,
                         token := ⟨TOKEN_EOL, [], 0⟩ } := by decide!
        intro t h
        rw [hexit] at h
        cases h)).trans (by decide!)⟩

end LC3
